import Mathlib

/-!
# GoBoard: rule engine of the Qt Go board

A shallow embedding of `src/goboard.h` / `src/goboard.cpp`.  The board is the
`StoneColor board[BOARD_SIZE][BOARD_SIZE]` array, coordinates are the source's
`int` pairs, the `visited` / `checked` matrices are 19x19 Boolean grids that
are threaded through the calls that take them by reference.  Graphics items,
the scene and the status-bar widgets are not part of the state; the text a
rejected placement shows is kept as a `Message`.
-/

namespace Go

/-- The enum `StoneColor` of goboard.h. -/
inductive StoneColor where
  | EMPTY
  | BLACK
  | WHITE
  deriving DecidableEq, Repr

open StoneColor

instance : Inhabited StoneColor := ⟨EMPTY⟩

/-- The constant `const int BOARD_SIZE = 19` of goboard.h. -/
abbrev BOARD_SIZE : Int := 19

/-- A coordinate pair `QPair<int, int>` (row, col). -/
abbrev Pos := Int × Int

/-- The test `r >= 0 && r < BOARD_SIZE && c >= 0 && c < BOARD_SIZE`. -/
abbrev InB (row col : Int) : Prop :=
  row ≥ 0 ∧ row < BOARD_SIZE ∧ col ≥ 0 ∧ col < BOARD_SIZE

/-- The test `row < 0 || row >= BOARD_SIZE || col < 0 || col >= BOARD_SIZE`. -/
abbrev OutOfBounds (row col : Int) : Prop :=
  row < 0 ∨ row ≥ BOARD_SIZE ∨ col < 0 ∨ col ≥ BOARD_SIZE

/-- A 19x19 matrix: `StoneColor board[19][19]`, or a
`QVector<QVector<bool>>(BOARD_SIZE, QVector<bool>(BOARD_SIZE, false))`. -/
def Grid (α : Type) : Type := Fin 19 → Fin 19 → α

/-- The matrix whose every entry is `v`. -/
def Grid.fill {α : Type} (v : α) : Grid α := fun _ _ => v

/-- Read `g[row][col]`.  Every read the source performs is at an in-bounds
index (guarded by a bounds test, or reached from `mousePressEvent` after
`convertPosToRowCol`); outside the matrix the model reads the default.  The
accesses the source makes without a bounds test of their own are modelled a
second time with `Grid.read` / `Grid.write`, where an index outside the matrix
is reported (`placeStoneChecked`, `mousePressEventChecked`). -/
def Grid.get {α : Type} [Inhabited α] (g : Grid α) (row col : Int) : α :=
  if h : InB row col then
    g ⟨row.toNat, by unfold InB BOARD_SIZE at h; omega⟩
      ⟨col.toNat, by unfold InB BOARD_SIZE at h; omega⟩
  else default

/-- Write `g[row][col] = v`; an index outside the matrix names no cell. -/
def Grid.set {α : Type} (g : Grid α) (row col : Int) (v : α) : Grid α :=
  fun i j => if (i.val : Int) = row ∧ (j.val : Int) = col then v else g i j

abbrev Board := Grid StoneColor

/-- The arrays `dx[] = {-1, 1, 0, 0}` and `dy[] = {0, 0, -1, 1}`, zipped:
up, down, left, right. -/
def dirs : List (Int × Int) := [(-1, 0), (1, 0), (0, -1), (0, 1)]

/-- The loop `for i in 0..4: if (f(row + dx[i], col + dy[i], visited)) return true;`
followed by `return false`, for a callee `f` that may update `visited`. -/
def anyDir (f : Int → Int → Grid Bool → Option (Bool × Grid Bool)) (row col : Int) :
    List (Int × Int) → Grid Bool → Option (Bool × Grid Bool)
  | [], visited => some (false, visited)
  | d :: ds, visited =>
    match f (row + d.1) (col + d.2) visited with
    | none => none
    | some (true, visited1) => some (true, visited1)
    | some (false, visited1) => anyDir f row col ds visited1

/-- The body of `GoBoard::hasLiberty`, with the recursion depth bounded by
`fuel` (`none` when the bound is hit).  Returns the result and the updated
`visited` matrix (passed by reference in the source). -/
def hasLibertyAux (board : Board) (color : StoneColor) :
    Nat → Int → Int → Grid Bool → Option (Bool × Grid Bool)
  | 0, _, _, _ => none
  | fuel + 1, row, col, visited =>
    if OutOfBounds row col then some (false, visited)
    else if visited.get row col = true then some (false, visited)
    else
      let visited1 := visited.set row col true
      if board.get row col = EMPTY then some (true, visited1)
      else if board.get row col ≠ color then some (false, visited1)
      else anyDir (hasLibertyAux board color fuel) row col dirs visited1

/-- Recursion bound for `hasLiberty`: every call that recurses has just marked
a fresh cell of the 19x19 `visited` matrix, so the depth is at most 361 + 1. -/
abbrev LIBERTY_FUEL : Nat := 19 * 19 + 1

/-- The call `GoBoard::hasLiberty(row, col, color, visited)`: the result and the
`visited` matrix after the call.  The bound `LIBERTY_FUEL` is never hit
(`hasLiberty_total`), so the default is never taken. -/
def hasLiberty (board : Board) (row col : Int) (color : StoneColor) (visited : Grid Bool) :
    Bool × Grid Bool :=
  (hasLibertyAux board color LIBERTY_FUEL row col visited).getD (false, visited)

/-- The local variables of the BFS in `captureStones`: the `checked` matrix,
the queue and the group collected so far. -/
structure BfsState where
  checked : Grid Bool
  queue : List Pos
  group : List Pos

/-- One iteration of the inner `for j in 0..4` of the BFS in `captureStones`:
the neighbour of (cx, cy) in direction `d`, when it is in bounds, holds
`opponentColor` and is not yet checked, is marked checked, enqueued and
appended to the group. -/
def bfsStep (board : Board) (opponentColor : StoneColor) (cx cy : Int) (st : BfsState)
    (d : Int × Int) : BfsState :=
  let nx := cx + d.1
  let ny := cy + d.2
  if InB nx ny ∧ board.get nx ny = opponentColor ∧ st.checked.get nx ny = false then
    { checked := st.checked.set nx ny true
      queue := st.queue ++ [(nx, ny)]
      group := st.group ++ [(nx, ny)] }
  else st

/-- The loop `while (!queue.isEmpty())` of `captureStones`, bounded by `fuel`
iterations (`none` when the bound is hit): dequeue the head, visit its four
neighbours. -/
def bfsLoop (board : Board) (opponentColor : StoneColor) :
    Nat → Grid Bool → List Pos → List Pos → Option (Grid Bool × List Pos)
  | _, checked, [], group => some (checked, group)
  | 0, _, _ :: _, _ => none
  | fuel + 1, checked, current :: queue, group =>
    let st := dirs.foldl (bfsStep board opponentColor current.1 current.2)
      { checked := checked, queue := queue, group := group }
    bfsLoop board opponentColor fuel st.checked st.queue st.group

/-- Iteration bound for the BFS: every dequeued cell was marked in `checked`
when it was enqueued, and a cell is marked at most once. -/
abbrev BFS_FUEL : Nat := 19 * 19 + 1

/-- Step 1 of `captureStones`: the group collected from the start cell (x, y);
returns the updated `checked` matrix and the group.  From an in-bounds unchecked
start cell the bound `BFS_FUEL` is never hit (`collectGroup_total`), so the
default is never taken. -/
def collectGroup (board : Board) (opponentColor : StoneColor) (checked : Grid Bool)
    (x y : Int) : Grid Bool × List Pos :=
  (bfsLoop board opponentColor BFS_FUEL (checked.set x y true) [(x, y)] [(x, y)]).getD
    (checked.set x y true, [(x, y)])

/-- Step 2 of `captureStones`: `for (auto &pos : group) if (hasLiberty(pos, ...,
visited)) { hasLib = true; break; }` with one `visited` matrix shared by the
calls. -/
def groupHasLiberty (board : Board) (opponentColor : StoneColor) :
    List Pos → Grid Bool → Bool
  | [], _ => false
  | pos :: rest, visited =>
    match hasLiberty board pos.1 pos.2 opponentColor visited with
    | (true, _) => true
    | (false, visited1) => groupHasLiberty board opponentColor rest visited1

/-- Step 3 of `captureStones`: `for (auto &pos : group) board[rx][ry] = EMPTY`. -/
def removeGroup (board : Board) : List Pos → Board
  | [] => board
  | pos :: rest => removeGroup (board.set pos.1 pos.2 EMPTY) rest

/-- The local state of `captureStones` across its `for i in 0..4` loop. -/
structure CaptureState where
  board : Board
  checked : Grid Bool
  captured : List Pos
  capturedCount : Int

/-- One iteration of the outer loop of `captureStones`, for direction `d`. -/
def captureDir (opponentColor : StoneColor) (row col : Int) (st : CaptureState)
    (d : Int × Int) : CaptureState :=
  let x := row + d.1
  let y := col + d.2
  if OutOfBounds x y then st
  else if st.board.get x y ≠ opponentColor ∨ st.checked.get x y = true then st
  else
    match collectGroup st.board opponentColor st.checked x y with
    | (checked1, group) =>
      let hasLib := groupHasLiberty st.board opponentColor group (Grid.fill false)
      if hasLib = false then
        { board := removeGroup st.board group
          checked := checked1
          captured := st.captured ++ group
          capturedCount := st.capturedCount + group.length }
      else
        { st with checked := checked1 }

/-- The call `GoBoard::captureStones(row, col, opponentColor, captured)`:
returns the count, the board after the removals and the `captured` vector
after the appends. -/
def captureStones (board : Board) (row col : Int) (opponentColor : StoneColor)
    (captured : List Pos) : Int × Board × List Pos :=
  let st := dirs.foldl (captureDir opponentColor row col)
    { board := board, checked := Grid.fill false, captured := captured, capturedCount := 0 }
  (st.capturedCount, st.board, st.captured)

/-- What a call shows to the user when it rejects: the three
`statusBar->showMessage` texts of `placeStone` and the message box of
`undoMove`. -/
inductive Message where
  /-- The text "该位置已有棋子！" (the cell is occupied). -/
  | occupiedCell
  /-- The text "打劫！不能立即提回，请先下在其他位置。" (ko). -/
  | koViolation
  /-- The text "这个位置不能落子，没有气且不能提子！" (no liberty and no capture). -/
  | suicideMove
  /-- The box "没有可悔的步骤！" (nothing to undo). -/
  | emptyHistory
  deriving DecidableEq, Repr

/-- The rule-engine members of `class GoBoard`.  The counters are C++ `int`s;
they stay between 0 and 361 in every state the program reaches (they equal the
number of stones on the board), so no wrap-around is modelled. -/
structure GoBoard where
  board : Board
  currentPlayer : StoneColor
  moveHistory : List Pos
  moveColors : List StoneColor
  capturedStonesHistory : List (List Pos)
  blackCount : Int
  whiteCount : Int
  inKo : Bool
  koPosition : Pos

/-- The expression `(color == BLACK) ? WHITE : BLACK`. -/
def opponentOf (color : StoneColor) : StoneColor :=
  if color = BLACK then WHITE else BLACK

namespace GoBoard

/-- The method `GoBoard::initBoard`: every cell EMPTY, Black to move, empty
history, counters 0, ko inactive, whatever the state before. -/
def initBoard (_s : GoBoard) : GoBoard :=
  { board := Grid.fill EMPTY
    currentPlayer := BLACK
    moveHistory := []
    moveColors := []
    capturedStonesHistory := []
    blackCount := 0
    whiteCount := 0
    inKo := false
    koPosition := (-1, -1) }

/-- The loop of `isValidMove` over the four neighbours: is some neighbour an
opponent stone whose group has no liberty (`can_capture`)? -/
def canCapture (board : Board) (opponent : StoneColor) (row col : Int) :
    List (Int × Int) → Bool
  | [] => false
  | d :: ds =>
    let r := row + d.1
    let c := col + d.2
    if InB r c ∧ board.get r c = opponent then
      if (hasLiberty board r c opponent (Grid.fill false)).1 = false then true
      else canCapture board opponent row col ds
    else canCapture board opponent row col ds

/-- The call `GoBoard::isValidMove(row, col)`: the result and the state after
the call (the board is written and written back). -/
def isValidMove (s : GoBoard) (row col : Int) : Bool × GoBoard :=
  if s.board.get row col ≠ EMPTY then (false, s)
  else
    let original := s.board.get row col
    let board1 := s.board.set row col s.currentPlayer
    let has_liberty := (hasLiberty board1 row col s.currentPlayer (Grid.fill false)).1
    let has_liberty :=
      if has_liberty = false then canCapture board1 (opponentOf s.currentPlayer) row col dirs
      else has_liberty
    (has_liberty, { s with board := board1.set row col original })

/-- The outcome of `placeStone`: the returned `bool`, the message shown on a
rejection, and the state after the call. -/
structure PlaceResult where
  ok : Bool
  msg : Option Message
  state : GoBoard

/-- The call `GoBoard::placeStone(row, col, color)`. -/
def placeStone (s : GoBoard) (row col : Int) (color : StoneColor) : PlaceResult :=
  if s.board.get row col ≠ EMPTY then
    { ok := false, msg := some Message.occupiedCell, state := s }
  else if s.inKo = true ∧ row = s.koPosition.1 ∧ col = s.koPosition.2 then
    { ok := false, msg := some Message.koViolation, state := s }
  else
    match isValidMove s row col with
    | (false, s1) => { ok := false, msg := some Message.suicideMove, state := s1 }
    | (true, s1) =>
      let board1 := s1.board.set row col color
      let opponent := opponentOf color
      match captureStones board1 row col opponent [] with
      | (capturedCount, board2, capturedThisMove) =>
        let ko : Bool × Pos :=
          if capturedCount = 1 ∧ capturedThisMove.length = 1 then
            if (hasLiberty board2 row col color (Grid.fill false)).1 = false then
              (true, capturedThisMove.headD (-1, -1))
            else (false, (-1, -1))
          else (false, (-1, -1))
        { ok := true
          msg := none
          state :=
            { board := board2
              currentPlayer := s1.currentPlayer
              moveHistory := s1.moveHistory ++ [(row, col)]
              moveColors := s1.moveColors ++ [color]
              capturedStonesHistory := s1.capturedStonesHistory ++ [capturedThisMove]
              blackCount :=
                if color = BLACK then s1.blackCount + 1 else s1.blackCount - capturedCount
              whiteCount :=
                if color = BLACK then s1.whiteCount - capturedCount else s1.whiteCount + 1
              inKo := ko.1
              koPosition := ko.2 } }

/-- The final test of `convertPosToRowCol`, for the `row` and `col` its
rounding produced and the outcome `withinTolerance` of its distance test (both
are floating-point geometry, taken as inputs). -/
def convertPosToRowCol (row col : Int) (withinTolerance : Bool) : Bool :=
  if withinTolerance = false then false
  else if row ≥ 0 ∧ row < BOARD_SIZE ∧ col ≥ 0 ∧ col < BOARD_SIZE then true
  else false

/-- The handler `GoBoard::mousePressEvent`, for a click that
`convertPosToRowCol` maps to (row, col): a move attempt by the current player,
the turn passing on success. -/
def mousePressEvent (s : GoBoard) (row col : Int) (withinTolerance : Bool) : GoBoard :=
  if convertPosToRowCol row col withinTolerance = true then
    let r := placeStone s row col s.currentPlayer
    if r.ok = true then
      { r.state with
        currentPlayer := if r.state.currentPlayer = BLACK then WHITE else BLACK }
    else r.state
  else s

/-- The loop of `undoMove` that puts the captured stones back:
`for (auto &pos : captured) board[x][y] = opponent`. -/
def restoreCaptured (board : Board) (opponent : StoneColor) : List Pos → Board
  | [] => board
  | pos :: rest => restoreCaptured (board.set pos.1 pos.2 opponent) opponent rest

/-- The slot `GoBoard::undoMove`: the message box shown (if any) and the state
after the call.  `takeLast` on `moveColors` / `capturedStonesHistory` is only
defined on a non-empty vector; the three vectors have one length in every state
the program builds, and the model reads `EMPTY` / `[]` from an empty one. -/
def undoMove (s : GoBoard) : Option Message × GoBoard :=
  if s.moveHistory.isEmpty = true then (some Message.emptyHistory, s)
  else
    let lastMove := s.moveHistory.getLastD (0, 0)
    let row := lastMove.1
    let col := lastMove.2
    let lastColor := s.moveColors.getLastD EMPTY
    let captured := s.capturedStonesHistory.getLastD []
    let opponent := opponentOf lastColor
    let board1 := restoreCaptured s.board opponent captured
    let board2 := board1.set row col EMPTY
    (none,
      { board := board2
        currentPlayer := lastColor
        moveHistory := s.moveHistory.dropLast
        moveColors := s.moveColors.dropLast
        capturedStonesHistory := s.capturedStonesHistory.dropLast
        blackCount :=
          if lastColor = BLACK then s.blackCount - 1 else s.blackCount + captured.length
        whiteCount :=
          if lastColor = BLACK then s.whiteCount + captured.length else s.whiteCount - 1
        inKo := false
        koPosition := (-1, -1) })

end GoBoard

open GoBoard

/-- Checked read of `g[row][col]`, for the places where the source indexes the
array without a bounds test of its own: outside the matrix the C++ access is
undefined, which the checked model reports as `none`. -/
def Grid.read {α : Type} [Inhabited α] (g : Grid α) (row col : Int) : Option α :=
  if InB row col then some (g.get row col) else none

/-- Checked write `g[row][col] = v`: `none` outside the matrix. -/
def Grid.write {α : Type} (g : Grid α) (row col : Int) (v : α) : Option (Grid α) :=
  if InB row col then some (g.set row col v) else none

/-- The call `GoBoard::isValidMove(row, col)` with its accesses checked: the
source indexes `board[row][col]` four times without a bounds test (the test of
line 301, `original`, the temporary placement and the restore); each is a
checked access here.  The other accesses of the call are inside `hasLiberty`
and the neighbour loop, behind the bounds tests that `hasLibertyAux` and
`canCapture` reproduce. -/
def GoBoard.isValidMoveChecked (s : GoBoard) (row col : Int) : Option (Bool × GoBoard) :=
  match s.board.read row col with
  | none => none
  | some cell =>
    if cell ≠ EMPTY then some (false, s)
    else
      match s.board.read row col with
      | none => none
      | some original =>
        match s.board.write row col s.currentPlayer with
        | none => none
        | some board1 =>
          let has_liberty := (hasLiberty board1 row col s.currentPlayer (Grid.fill false)).1
          let has_liberty :=
            if has_liberty = false then
              canCapture board1 (opponentOf s.currentPlayer) row col dirs
            else has_liberty
          match board1.write row col original with
          | none => none
          | some board2 => some (has_liberty, { s with board := board2 })

/-- The call `GoBoard::placeStone(row, col, color)` with its accesses checked:
the test `board[row][col] != EMPTY` of line 225 and the placement
`board[row][col] = color` of line 246 index the array without a bounds test and
are checked accesses here, as are those of `isValidMove`; `captureStones` and
`hasLiberty` test the bounds themselves before they index. -/
def GoBoard.placeStoneChecked (s : GoBoard) (row col : Int) (color : StoneColor) :
    Option PlaceResult :=
  match s.board.read row col with
  | none => none
  | some cell =>
    if cell ≠ EMPTY then
      some { ok := false, msg := some Message.occupiedCell, state := s }
    else if s.inKo = true ∧ row = s.koPosition.1 ∧ col = s.koPosition.2 then
      some { ok := false, msg := some Message.koViolation, state := s }
    else
      match isValidMoveChecked s row col with
      | none => none
      | some (false, s1) => some { ok := false, msg := some Message.suicideMove, state := s1 }
      | some (true, s1) =>
        match s1.board.write row col color with
        | none => none
        | some board1 =>
          let opponent := opponentOf color
          match captureStones board1 row col opponent [] with
          | (capturedCount, board2, capturedThisMove) =>
            let ko : Bool × Pos :=
              if capturedCount = 1 ∧ capturedThisMove.length = 1 then
                if (hasLiberty board2 row col color (Grid.fill false)).1 = false then
                  (true, capturedThisMove.headD (-1, -1))
                else (false, (-1, -1))
              else (false, (-1, -1))
            some
              { ok := true
                msg := none
                state :=
                  { board := board2
                    currentPlayer := s1.currentPlayer
                    moveHistory := s1.moveHistory ++ [(row, col)]
                    moveColors := s1.moveColors ++ [color]
                    capturedStonesHistory := s1.capturedStonesHistory ++ [capturedThisMove]
                    blackCount :=
                      if color = BLACK then s1.blackCount + 1 else s1.blackCount - capturedCount
                    whiteCount :=
                      if color = BLACK then s1.whiteCount - capturedCount else s1.whiteCount + 1
                    inKo := ko.1
                    koPosition := ko.2 } }

/-- The handler `GoBoard::mousePressEvent` with the board accesses of the call
it makes checked: `none` when the click leads to an access outside the grid,
otherwise the state after the click. -/
def GoBoard.mousePressEventChecked (s : GoBoard) (row col : Int) (withinTolerance : Bool) :
    Option GoBoard :=
  if convertPosToRowCol row col withinTolerance = true then
    match placeStoneChecked s row col s.currentPlayer with
    | none => none
    | some r =>
      if r.ok = true then
        some { r.state with
          currentPlayer := if r.state.currentPlayer = BLACK then WHITE else BLACK }
      else some r.state
  else some s

/-- Number of cells of a Boolean matrix that are still `false`. -/
def unmarked (v : Grid Bool) : Nat :=
  (Finset.univ.filter (fun p : Fin 19 × Fin 19 => v p.1 p.2 = false)).card

/-- Orthogonal adjacency: `q` is `p` moved by one of the four `dirs`. -/
def Adj (p q : Pos) : Prop := ∃ d ∈ dirs, q = (p.1 + d.1, p.2 + d.2)

/-- The position `p` sees a liberty through stones of `color`: `p` is an
in-bounds EMPTY cell, or `p` holds `color` and a neighbour sees a liberty. -/
inductive Lib (board : Board) (color : StoneColor) : Pos → Prop
  | here (p : Pos) : InB p.1 p.2 → board.get p.1 p.2 = EMPTY → Lib board color p
  | step (p q : Pos) : InB p.1 p.2 → board.get p.1 p.2 = color → Adj p q →
      Lib board color q → Lib board color p

/-- Every cell marked between `v` and `v1` is a stone, and when it holds
`color` all its in-bounds neighbours are marked in `v1`. -/
def Closed (board : Board) (color : StoneColor) (v v1 : Grid Bool) : Prop :=
  ∀ r c, v1.get r c = true → v.get r c = false →
    board.get r c ≠ EMPTY ∧
    (board.get r c = color →
      ∀ d ∈ dirs, InB (r + d.1) (c + d.2) → v1.get (r + d.1) (c + d.2) = true)

/-- What a call of `hasLiberty` from `visited` guarantees about its result
`res` and the matrix `v1` it leaves. -/
def LibPost (board : Board) (color : StoneColor) (row col : Int) (visited : Grid Bool)
    (res : Bool) (v1 : Grid Bool) : Prop :=
  (∀ r c, visited.get r c = true → v1.get r c = true) ∧
  (res = true → Lib board color (row, col)) ∧
  (res = false → (InB row col → v1.get row col = true) ∧ Closed board color visited v1)

/-- One step along a chain of `color`: from `p` to an orthogonally adjacent
in-bounds cell that holds `color`. -/
def ChainStep (board : Board) (color : StoneColor) (p q : Pos) : Prop :=
  Adj p q ∧ InB q.1 q.2 ∧ board.get q.1 q.2 = color

/-- The cell `q` lies in the chain of `p`: the maximal orthogonally connected
set of cells holding `color` that contains the in-bounds `color` cell `p`. -/
def InChain (board : Board) (color : StoneColor) (p q : Pos) : Prop :=
  InB p.1 p.2 ∧ board.get p.1 p.2 = color ∧ Relation.ReflTransGen (ChainStep board color) p q

/-- Loop invariant of the BFS started at `start` with the matrix `c0`; `cur` is
the dequeued cell whose neighbours are being visited, if any. -/
structure BfsInv (board : Board) (oc : StoneColor) (c0 : Grid Bool) (start : Pos)
    (cur : Option Pos) (st : BfsState) : Prop where
  nodup : st.group.Nodup
  queue_sub : ∀ p ∈ st.queue, p ∈ st.group
  mem : ∀ p ∈ st.group, InB p.1 p.2 ∧ board.get p.1 p.2 = oc ∧ c0.get p.1 p.2 = false ∧
    Relation.ReflTransGen (ChainStep board oc) start p
  checked_iff : ∀ r c, st.checked.get r c = true ↔ (c0.get r c = true ∨ (r, c) ∈ st.group)
  closed : ∀ p ∈ st.group, p ∉ st.queue → some p ≠ cur → ∀ d ∈ dirs,
    InB (p.1 + d.1) (p.2 + d.2) → board.get (p.1 + d.1) (p.2 + d.2) = oc →
      st.checked.get (p.1 + d.1) (p.2 + d.2) = true
  head : ∃ rest, st.group = start :: rest

/-- Invariant of the outer loop of `captureStones` run on the board `b0`
around (row, col): `L` is the list of cells appended to `captured` so far. -/
structure CapInv (b0 : Board) (oc : StoneColor) (row col : Int) (cap0 L : List Pos)
    (st : CaptureState) : Prop where
  captured_eq : st.captured = cap0 ++ L
  nodup : L.Nodup
  count : st.capturedCount = (L.length : Int)
  board_eq : ∀ r c, st.board.get r c = if (r, c) ∈ L then EMPTY else b0.get r c
  cap_checked : ∀ p ∈ L, st.checked.get p.1 p.2 = true
  checked_color : ∀ r c, st.checked.get r c = true → b0.get r c = oc
  checked_closed : ∀ r c, st.checked.get r c = true → ∀ d ∈ dirs,
    InB (r + d.1) (c + d.2) → b0.get (r + d.1) (c + d.2) = oc →
      st.checked.get (r + d.1) (c + d.2) = true
  checked_dead : ∀ r c, st.checked.get r c = true → ((r, c) ∈ L ↔ ¬ Lib b0 oc (r, c))
  checked_nbr : ∀ r c, st.checked.get r c = true →
    ∃ d ∈ dirs, InChain b0 oc (row + d.1, col + d.2) (r, c)

/-- The chain of `color` containing `n` has no liberty: no cell of the chain
has an EMPTY orthogonal in-bounds neighbour. -/
def ZeroLiberty (board : Board) (color : StoneColor) (n : Pos) : Prop :=
  ∀ m e, InChain board color n m → Adj m e → InB e.1 e.2 → board.get e.1 e.2 ≠ EMPTY

/-- The cell `q` lies in a chain of `oc` that contains an orthogonal neighbour
of (row, col) and has no liberty on `board`. -/
def Captured (board : Board) (row col : Int) (oc : StoneColor) (q : Pos) : Prop :=
  ∃ n, Adj (row, col) n ∧ InChain board oc n q ∧ ZeroLiberty board oc n

/-- The coordinates of the 19x19 grid. -/
def cells : Finset Pos := Finset.Icc (0 : Int) 18 ×ˢ Finset.Icc (0 : Int) 18

/-- A full scan of the board: the number of cells holding `color`. -/
def countStones (board : Board) (color : StoneColor) : Nat :=
  (cells.filter (fun p => board.get p.1 p.2 = color)).card

/-- A fresh `GoBoard` object before its constructor runs `initBoard`. -/
def blank : GoBoard :=
  { board := Grid.fill EMPTY, currentPlayer := EMPTY, moveHistory := [], moveColors := [],
    capturedStonesHistory := [], blackCount := 0, whiteCount := 0, inKo := false,
    koPosition := (0, 0) }

/-- The states the program can be in: `initBoard` (constructor or new game),
then any sequence of clicks (move attempts by the current player, in or out of
bounds, accepted or rejected) and undos. -/
inductive Reachable : GoBoard → Prop
  | init (s0 : GoBoard) : Reachable (initBoard s0)
  | click (s : GoBoard) (row col : Int) (withinTolerance : Bool) :
      Reachable s → Reachable (mousePressEvent s row col withinTolerance)
  | undo (s : GoBoard) : Reachable s → Reachable (undoMove s).2

/-- The states built from `initBoard` by accepted moves only. -/
inductive Played : GoBoard → Prop
  | init (s0 : GoBoard) : Played (initBoard s0)
  | move (s : GoBoard) (row col : Int) : Played s → InB row col →
      (placeStone s row col s.currentPlayer).ok = true →
      Played (mousePressEvent s row col true)

/-- What an accepted `placeStone(row, col, color)` makes of the state `s`,
with `L` the cells it captured. -/
structure PlacedSpec (s : GoBoard) (row col : Int) (color : StoneColor) (L : List Pos)
    (t : GoBoard) : Prop where
  empty_before : s.board.get row col = EMPTY
  nodup : L.Nodup
  cap_iff : ∀ q, q ∈ L ↔ Captured (s.board.set row col color) row col (opponentOf color) q
  cap_old : ∀ q ∈ L, InB q.1 q.2 ∧ s.board.get q.1 q.2 = opponentOf color ∧ q ≠ (row, col)
  cap_eq : (captureStones (s.board.set row col color) row col (opponentOf color) []).2.2 = L
  board_eq : t.board = (captureStones (s.board.set row col color) row col (opponentOf color) []).2.1
  board_get : ∀ r c, t.board.get r c =
    if (r, c) ∈ L then EMPTY else if r = row ∧ c = col then color else s.board.get r c
  player : t.currentPlayer = s.currentPlayer
  history : t.moveHistory = s.moveHistory ++ [(row, col)]
  colors : t.moveColors = s.moveColors ++ [color]
  captures : t.capturedStonesHistory = s.capturedStonesHistory ++ [L]
  black : t.blackCount =
    if color = BLACK then s.blackCount + 1 else s.blackCount - (L.length : Int)
  white : t.whiteCount =
    if color = BLACK then s.whiteCount - (L.length : Int) else s.whiteCount + 1
  ko : t.inKo = false
  koPos : t.koPosition = (-1, -1)

/-- Record `i` of the history placed a stone at `q`, and no later record lists
`q` among its captured positions. -/
def LiveAt (s : GoBoard) (q : Pos) (i : Nat) : Prop :=
  s.moveHistory[i]? = some q ∧
  ∀ j, i < j → ∀ L, s.capturedStonesHistory[j]? = some L → q ∉ L

/-- Invariant of the states built by accepted moves. -/
structure PlayedInv (s : GoBoard) : Prop where
  ko : s.inKo = false
  koPos : s.koPosition = (-1, -1)
  player : s.currentPlayer = BLACK ∨ s.currentPlayer = WHITE
  len_colors : s.moveColors.length = s.moveHistory.length
  len_caps : s.capturedStonesHistory.length = s.moveHistory.length
  black : s.blackCount = (countStones s.board BLACK : Int)
  white : s.whiteCount = (countStones s.board WHITE : Int)
  live : ∀ q : Pos, s.board.get q.1 q.2 ≠ EMPTY ↔ ∃ i, LiveAt s q i
  live_color : ∀ (q : Pos) (i : Nat), LiveAt s q i →
    s.moveColors[i]? = some (s.board.get q.1 q.2)

/-- Four accepted clicks from the initial state: Black (0,2), White (0,1),
Black (1,1), White (1,0).  Black is to move; the white stone at (0,1) has its
last liberty at the corner (0,0). -/
def cornerSetup : GoBoard :=
  mousePressEvent
    (mousePressEvent
      (mousePressEvent (mousePressEvent (initBoard blank) 0 2 true) 0 1 true) 1 1 true)
    1 0 true

/-- The state after Black then takes the corner (0,0), capturing (0,1). -/
def cornerTaken : GoBoard := mousePressEvent cornerSetup 0 0 true

/-- One `undoMove`, keeping the state only. -/
def undoState (s : GoBoard) : GoBoard := (undoMove s).2

/-- A state in which ko forbids the corner (0,0), Black is to move, and the
corner's two neighbours (0,1) and (1,0) are white stones with liberties. -/
def koSuicide : GoBoard :=
  { board := ((Grid.fill EMPTY).set 0 1 WHITE).set 1 0 WHITE
    currentPlayer := BLACK
    moveHistory := []
    moveColors := []
    capturedStonesHistory := []
    blackCount := 0
    whiteCount := 2
    inKo := true
    koPosition := (0, 0) }

/-- Three accepted clicks from the initial state: Black (0,1), White (5,5),
Black (1,0).  White is to move; the corner (0,0) is EMPTY and both its
neighbours are black stones with liberties. -/
def suicideSetup : GoBoard :=
  mousePressEvent (mousePressEvent (mousePressEvent (initBoard blank) 0 1 true) 5 5 true)
    1 0 true

/-- A board on which the black stone at (0,0) touches two separate white
stones, (0,1) and (1,0), neither of which has a liberty. -/
def doubleCaptureBoard : Board :=
  (((((Grid.fill EMPTY).set 0 0 BLACK).set 0 1 WHITE).set 1 0 WHITE).set 0 2 BLACK).set 1 1 BLACK
    |>.set 2 0 BLACK

/-- A state with an empty board in which ko is marked active on the free point
(3,3), where a stone would have four liberties. -/
def koOpen : GoBoard := { initBoard blank with inKo := true, koPosition := (3, 3) }

/-- The liberty test in the spec's words ("scan every member's neighbours for
an Empty cell"): does some member of `group` have an in-bounds EMPTY orthogonal
neighbour on `board`? -/
def scanHasLiberty (board : Board) (group : List Pos) : Bool :=
  group.any (fun p =>
    dirs.any (fun d =>
      decide (InB (p.1 + d.1) (p.2 + d.2) ∧ board.get (p.1 + d.1) (p.2 + d.2) = EMPTY)))

/-- The local state of `captureStones` after its outer loop has processed the
directions `ds` (a prefix of `dirs`). -/
def captureLoopState (board : Board) (row col : Int) (opponentColor : StoneColor)
    (captured : List Pos) (ds : List (Int × Int)) : CaptureState :=
  ds.foldl (captureDir opponentColor row col)
    { board := board, checked := Grid.fill false, captured := captured, capturedCount := 0 }

/-- Every stone on the board sees a liberty through its own colour. -/
def AllAlive (board : Board) : Prop :=
  ∀ p : Pos, board.get p.1 p.2 ≠ EMPTY → Lib board (board.get p.1 p.2) p

/-! ## Matrix access -/

theorem outOfBounds_iff (row col : Int) : OutOfBounds row col ↔ ¬ InB row col := by
  unfold OutOfBounds InB BOARD_SIZE; omega

theorem Grid.get_of_not_inB {α : Type} [Inhabited α] (g : Grid α) (row col : Int)
    (h : ¬ InB row col) : g.get row col = default := by
  unfold Grid.get; rw [dif_neg h]

theorem Grid.get_fin {α : Type} [Inhabited α] (g : Grid α) (i j : Fin 19) :
    g.get (i.val : Int) (j.val : Int) = g i j := by
  have h : InB (i.val : Int) (j.val : Int) := by
    unfold InB BOARD_SIZE; have := i.isLt; have := j.isLt; omega
  unfold Grid.get; rw [dif_pos h]; rfl

theorem inB_fin {row col : Int} (h : InB row col) :
    ∃ i j : Fin 19, (i.val : Int) = row ∧ (j.val : Int) = col := by
  unfold InB BOARD_SIZE at h
  refine ⟨⟨row.toNat, by omega⟩, ⟨col.toNat, by omega⟩, ?_, ?_⟩ <;> simp <;> omega

theorem fin_inB (i j : Fin 19) : InB (i.val : Int) (j.val : Int) := by
  unfold InB BOARD_SIZE; have := i.isLt; have := j.isLt; omega

theorem Grid.get_set {α : Type} [Inhabited α] (g : Grid α) (row col : Int) (v : α)
    (r c : Int) :
    (g.set row col v).get r c = if r = row ∧ c = col ∧ InB row col then v else g.get r c := by
  by_cases h : InB r c
  · obtain ⟨i, j, rfl, rfl⟩ := inB_fin h
    rw [Grid.get_fin, Grid.get_fin]
    unfold Grid.set
    by_cases h1 : (i.val : Int) = row ∧ (j.val : Int) = col
    · have h2 : InB row col := by rw [← h1.1, ← h1.2]; exact h
      rw [if_pos h1, if_pos ⟨h1.1, h1.2, h2⟩]
    · rw [if_neg h1, if_neg (fun h3 => h1 ⟨h3.1, h3.2.1⟩)]
  · rw [Grid.get_of_not_inB _ _ _ h, Grid.get_of_not_inB _ _ _ h]
    have : ¬ (r = row ∧ c = col ∧ InB row col) := by
      rintro ⟨rfl, rfl, h2⟩; exact h h2
    rw [if_neg this]

theorem Grid.get_set_same {α : Type} [Inhabited α] (g : Grid α) (row col : Int) (v : α)
    (h : InB row col) : (g.set row col v).get row col = v := by
  rw [Grid.get_set, if_pos ⟨rfl, rfl, h⟩]

theorem Grid.get_set_ne {α : Type} [Inhabited α] (g : Grid α) (row col : Int) (v : α)
    (r c : Int) (h : ¬ (r = row ∧ c = col)) : (g.set row col v).get r c = g.get r c := by
  rw [Grid.get_set, if_neg (fun h3 => h ⟨h3.1, h3.2.1⟩)]

theorem Grid.ext_get {α : Type} [Inhabited α] (g g' : Grid α)
    (h : ∀ r c, InB r c → g.get r c = g'.get r c) : g = g' := by
  funext i j
  have := h i.val j.val (fin_inB i j)
  rwa [Grid.get_fin, Grid.get_fin] at this

theorem Grid.get_fill_false (r c : Int) : (Grid.fill false : Grid Bool).get r c = false := by
  by_cases h : InB r c
  · obtain ⟨i, j, rfl, rfl⟩ := inB_fin h
    rw [Grid.get_fin]; rfl
  · rw [Grid.get_of_not_inB _ _ _ h]; rfl

theorem Grid.get_fill_empty (r c : Int) : (Grid.fill EMPTY : Board).get r c = EMPTY := by
  by_cases h : InB r c
  · obtain ⟨i, j, rfl, rfl⟩ := inB_fin h
    rw [Grid.get_fin]; rfl
  · rw [Grid.get_of_not_inB _ _ _ h]; rfl

theorem Grid.inB_of_get_true (g : Grid Bool) (r c : Int) (h : g.get r c = true) : InB r c := by
  by_contra h1
  rw [Grid.get_of_not_inB _ _ _ h1] at h
  exact Bool.noConfusion h

theorem Grid.inB_of_get_ne_empty (g : Board) (r c : Int) (h : g.get r c ≠ EMPTY) : InB r c := by
  by_contra h1
  exact h (Grid.get_of_not_inB _ _ _ h1)

theorem unmarked_le (v : Grid Bool) : unmarked v ≤ 361 := by
  unfold unmarked
  calc _ ≤ (Finset.univ : Finset (Fin 19 × Fin 19)).card := Finset.card_filter_le _ _
    _ = 361 := by simp

theorem unmarked_mono (v v' : Grid Bool)
    (h : ∀ r c, v.get r c = true → v'.get r c = true) : unmarked v' ≤ unmarked v := by
  unfold unmarked
  apply Finset.card_le_card
  intro p hp
  simp only [Finset.mem_filter, Finset.mem_univ, true_and] at hp ⊢
  by_contra h1
  have h2 : v.get p.1.val p.2.val = true := by
    rw [Grid.get_fin]; simpa using h1
  have h3 := h _ _ h2
  rw [Grid.get_fin] at h3
  rw [h3] at hp; exact Bool.noConfusion hp

theorem unmarked_set (v : Grid Bool) (row col : Int) (h : InB row col)
    (hv : v.get row col = false) : unmarked (v.set row col true) + 1 = unmarked v := by
  obtain ⟨i, j, rfl, rfl⟩ := inB_fin h
  rw [Grid.get_fin] at hv
  unfold unmarked
  have hmem : (i, j) ∈ Finset.univ.filter (fun p : Fin 19 × Fin 19 => v p.1 p.2 = false) := by
    simp [hv]
  rw [← Finset.card_erase_add_one hmem]
  congr 2
  ext p
  simp only [Finset.mem_filter, Finset.mem_univ, true_and, Finset.mem_erase, Grid.set]
  constructor
  · intro h1
    by_cases h2 : ((p.1.val : Int) = (i.val : Int) ∧ (p.2.val : Int) = (j.val : Int))
    · rw [if_pos h2] at h1; exact Bool.noConfusion h1
    · rw [if_neg h2] at h1
      refine ⟨?_, h1⟩
      rintro rfl; exact h2 ⟨rfl, rfl⟩
  · rintro ⟨h1, h2⟩
    have h3 : ¬ ((p.1.val : Int) = (i.val : Int) ∧ (p.2.val : Int) = (j.val : Int)) := by
      rintro ⟨h4, h5⟩
      apply h1
      have h6 : p.1 = i := Fin.ext (by exact_mod_cast h4)
      have h7 : p.2 = j := Fin.ext (by exact_mod_cast h5)
      exact Prod.ext h6 h7
    rw [if_neg h3]; exact h2

/-! ## The flood fill `hasLiberty` -/

theorem closed_refl (board : Board) (color : StoneColor) (v : Grid Bool) :
    Closed board color v v := by
  intro r c h1 h2
  rw [h1] at h2; exact Bool.noConfusion h2

theorem closed_trans (board : Board) (color : StoneColor) (v v1 v2 : Grid Bool)
    (m12 : ∀ r c, v1.get r c = true → v2.get r c = true)
    (c1 : Closed board color v v1) (c2 : Closed board color v1 v2) :
    Closed board color v v2 := by
  intro r c h2 h0
  by_cases h1 : v1.get r c = true
  · obtain ⟨a, b⟩ := c1 r c h1 h0
    exact ⟨a, fun hc d hd hin => m12 _ _ (b hc d hd hin)⟩
  · exact c2 r c h2 (by simpa using h1)

theorem anyDir_spec (board : Board) (color : StoneColor)
    (f : Int → Int → Grid Bool → Option (Bool × Grid Bool)) (fuel : Nat) (row col : Int)
    (hf : ∀ r c v, unmarked v < fuel →
      ∃ res v1, f r c v = some (res, v1) ∧ LibPost board color r c v res v1) :
    ∀ ds v, unmarked v < fuel →
      ∃ res v1, anyDir f row col ds v = some (res, v1) ∧
        (∀ r c, v.get r c = true → v1.get r c = true) ∧
        (res = true → ∃ d ∈ ds, Lib board color (row + d.1, col + d.2)) ∧
        (res = false →
          (∀ d ∈ ds, InB (row + d.1) (col + d.2) → v1.get (row + d.1) (col + d.2) = true) ∧
          Closed board color v v1) := by
  intro ds
  induction ds with
  | nil =>
    intro v _
    refine ⟨false, v, rfl, fun _ _ h => h, fun h => Bool.noConfusion h, fun _ => ⟨?_, ?_⟩⟩
    · intro d hd; cases hd
    · exact closed_refl _ _ _
  | cons d ds ih =>
    intro v hv
    obtain ⟨res, v1, h1, hm, ht, hfalse⟩ := hf (row + d.1) (col + d.2) v hv
    cases res with
    | true =>
      refine ⟨true, v1, ?_, hm, fun _ => ⟨d, List.mem_cons_self _ _, ht rfl⟩,
        fun h => Bool.noConfusion h⟩
      simp only [anyDir, h1]
    | false =>
      have hv1 : unmarked v1 < fuel := lt_of_le_of_lt (unmarked_mono v v1 hm) hv
      obtain ⟨res2, v2, h2, hm2, ht2, hf2⟩ := ih v1 hv1
      refine ⟨res2, v2, ?_, fun r c h => hm2 _ _ (hm _ _ h), ?_, ?_⟩
      · simp only [anyDir, h1]; exact h2
      · intro h
        obtain ⟨e, he, hl⟩ := ht2 h
        exact ⟨e, List.mem_cons_of_mem _ he, hl⟩
      · intro h
        obtain ⟨ha, hc⟩ := hf2 h
        obtain ⟨hb, hc1⟩ := hfalse rfl
        refine ⟨?_, closed_trans _ _ _ _ _ hm2 hc1 hc⟩
        intro e he hin
        rcases List.mem_cons.1 he with rfl | he
        · exact hm2 _ _ (hb hin)
        · exact ha e he hin

theorem hasLibertyAux_spec (board : Board) (color : StoneColor) :
    ∀ fuel row col visited, unmarked visited < fuel →
      ∃ res v1, hasLibertyAux board color fuel row col visited = some (res, v1) ∧
        LibPost board color row col visited res v1 := by
  intro fuel
  induction fuel with
  | zero => intro _ _ _ h; exact absurd h (Nat.not_lt_zero _)
  | succ fuel ih =>
    intro row col visited hv
    unfold hasLibertyAux
    by_cases hoob : OutOfBounds row col
    · rw [if_pos hoob]
      refine ⟨false, visited, rfl, fun _ _ h => h, fun h => Bool.noConfusion h, fun _ => ⟨?_, ?_⟩⟩
      · intro hin; exact absurd hin ((outOfBounds_iff _ _).1 hoob)
      · exact closed_refl _ _ _
    rw [if_neg hoob]
    have hin : InB row col := by
      by_contra h; exact hoob ((outOfBounds_iff _ _).2 h)
    by_cases hvis : visited.get row col = true
    · rw [if_pos hvis]
      exact ⟨false, visited, rfl, fun _ _ h => h, fun h => Bool.noConfusion h,
        fun _ => ⟨fun _ => hvis, closed_refl _ _ _⟩⟩
    rw [if_neg hvis]
    have hvis0 : visited.get row col = false := by simpa using hvis
    have hmono : ∀ r c, visited.get r c = true → (visited.set row col true).get r c = true := by
      intro r c h
      rw [Grid.get_set]; split
      · rfl
      · exact h
    have hnew : ∀ r c, (visited.set row col true).get r c = true → visited.get r c = false →
        r = row ∧ c = col := by
      intro r c h1 h2
      rw [Grid.get_set] at h1
      by_cases h3 : r = row ∧ c = col ∧ InB row col
      · exact ⟨h3.1, h3.2.1⟩
      · rw [if_neg h3, h2] at h1; exact Bool.noConfusion h1
    simp only []
    by_cases hemp : board.get row col = EMPTY
    · rw [if_pos hemp]
      exact ⟨true, _, rfl, hmono, fun _ => Lib.here (row, col) hin hemp,
        fun h => Bool.noConfusion h⟩
    rw [if_neg hemp]
    by_cases hcol : board.get row col ≠ color
    · rw [if_pos hcol]
      refine ⟨false, _, rfl, hmono, fun h => Bool.noConfusion h,
        fun _ => ⟨fun _ => Grid.get_set_same _ _ _ _ hin, ?_⟩⟩
      intro r c h1 h2
      obtain ⟨rfl, rfl⟩ := hnew r c h1 h2
      exact ⟨hemp, fun h => absurd h hcol⟩
    rw [if_neg hcol]
    have hcol1 : board.get row col = color := by simpa using hcol
    have hv1 : unmarked (visited.set row col true) < fuel := by
      have := unmarked_set visited row col hin hvis0
      omega
    obtain ⟨res, v2, h2, hm2, ht2, hf2⟩ :=
      anyDir_spec board color (hasLibertyAux board color fuel) fuel row col
        (fun r c v h => ih r c v h) dirs _ hv1
    refine ⟨res, v2, h2, fun r c h => hm2 _ _ (hmono _ _ h), ?_, ?_⟩
    · intro h
      obtain ⟨d, hd, hl⟩ := ht2 h
      exact Lib.step (row, col) _ hin hcol1 ⟨d, hd, rfl⟩ hl
    · intro h
      obtain ⟨ha, hc⟩ := hf2 h
      have hstart : v2.get row col = true := hm2 _ _ (Grid.get_set_same _ _ _ _ hin)
      refine ⟨fun _ => hstart, ?_⟩
      intro r c h1 h0
      by_cases h3 : r = row ∧ c = col
      · obtain ⟨rfl, rfl⟩ := h3
        exact ⟨hemp, fun _ d hd hdin => ha d hd hdin⟩
      · apply hc r c h1
        rw [Grid.get_set_ne _ _ _ _ _ _ h3]; exact h0

theorem anyDir_fuel_mono (f g : Int → Int → Grid Bool → Option (Bool × Grid Bool))
    (h : ∀ r c v x, f r c v = some x → g r c v = some x) (row col : Int) :
    ∀ ds v x, anyDir f row col ds v = some x → anyDir g row col ds v = some x := by
  intro ds
  induction ds with
  | nil => intro v x hx; exact hx
  | cons d ds ih =>
    intro v x hx
    simp only [anyDir] at hx ⊢
    cases hfv : f (row + d.1) (col + d.2) v with
    | none => rw [hfv] at hx; exact Option.noConfusion hx
    | some y =>
      rw [hfv] at hx
      rw [h _ _ _ _ hfv]
      obtain ⟨b, v1⟩ := y
      cases b with
      | true => exact hx
      | false => exact ih _ _ hx

theorem hasLibertyAux_succ (board : Board) (color : StoneColor) :
    ∀ fuel row col visited x, hasLibertyAux board color fuel row col visited = some x →
      hasLibertyAux board color (fuel + 1) row col visited = some x := by
  intro fuel
  induction fuel with
  | zero => intro _ _ _ _ h; exact Option.noConfusion h
  | succ fuel ih =>
    intro row col visited x hx
    unfold hasLibertyAux at hx ⊢
    by_cases hoob : OutOfBounds row col
    · rw [if_pos hoob] at hx ⊢; exact hx
    rw [if_neg hoob] at hx ⊢
    by_cases hvis : visited.get row col = true
    · rw [if_pos hvis] at hx ⊢; exact hx
    rw [if_neg hvis] at hx ⊢
    simp only [] at hx ⊢
    by_cases hemp : board.get row col = EMPTY
    · rw [if_pos hemp] at hx ⊢; exact hx
    rw [if_neg hemp] at hx ⊢
    by_cases hcol : board.get row col ≠ color
    · rw [if_pos hcol] at hx ⊢; exact hx
    rw [if_neg hcol] at hx ⊢
    exact anyDir_fuel_mono _ _ (fun r c v y hy => ih r c v y hy) _ _ _ _ _ hx

theorem hasLibertyAux_le (board : Board) (color : StoneColor) (fuel fuel1 : Nat)
    (hle : fuel ≤ fuel1) (row col : Int) (visited : Grid Bool) (x : Bool × Grid Bool)
    (hx : hasLibertyAux board color fuel row col visited = some x) :
    hasLibertyAux board color fuel1 row col visited = some x := by
  induction hle with
  | refl => exact hx
  | step _ ih => exact hasLibertyAux_succ _ _ _ _ _ _ _ ih

/-- The recursion bound of `hasLiberty` is never hit: with `LIBERTY_FUEL` or
any larger bound the bounded recursion returns the value of `hasLiberty`, and
that value satisfies the flood-fill postcondition. -/
theorem hasLiberty_total (board : Board) (row col : Int) (color : StoneColor)
    (visited : Grid Bool) (fuel : Nat) (hfuel : LIBERTY_FUEL ≤ fuel) :
    hasLibertyAux board color fuel row col visited
      = some (hasLiberty board row col color visited) := by
  have hv : unmarked visited < LIBERTY_FUEL := by
    have := unmarked_le visited
    unfold LIBERTY_FUEL; omega
  obtain ⟨res, v1, h1, _⟩ := hasLibertyAux_spec board color LIBERTY_FUEL row col visited hv
  have h2 : hasLiberty board row col color visited = (res, v1) := by
    unfold hasLiberty; rw [h1]; rfl
  rw [h2]
  exact hasLibertyAux_le _ _ _ _ hfuel _ _ _ _ h1

theorem hasLiberty_post (board : Board) (row col : Int) (color : StoneColor)
    (visited : Grid Bool) :
    LibPost board color row col visited (hasLiberty board row col color visited).1
      (hasLiberty board row col color visited).2 := by
  have hv : unmarked visited < LIBERTY_FUEL := by
    have := unmarked_le visited
    unfold LIBERTY_FUEL; omega
  obtain ⟨res, v1, h1, hp⟩ := hasLibertyAux_spec board color LIBERTY_FUEL row col visited hv
  have h2 : hasLiberty board row col color visited = (res, v1) := by
    unfold hasLiberty; rw [h1]; rfl
  rw [h2]; exact hp

theorem hasLiberty_sound (board : Board) (row col : Int) (color : StoneColor)
    (visited : Grid Bool) (h : (hasLiberty board row col color visited).1 = true) :
    Lib board color (row, col) :=
  (hasLiberty_post board row col color visited).2.1 h

theorem lib_inB {board : Board} {color : StoneColor} {p : Pos} (h : Lib board color p) :
    InB p.1 p.2 := by
  cases h with
  | here _ h1 _ => exact h1
  | step _ _ h1 _ _ _ => exact h1

theorem hasLiberty_complete (board : Board) (row col : Int) (color : StoneColor)
    (h : Lib board color (row, col)) :
    (hasLiberty board row col color (Grid.fill false)).1 = true := by
  by_contra hne
  have hfalse : (hasLiberty board row col color (Grid.fill false)).1 = false := by
    simpa using hne
  obtain ⟨_, _, hf⟩ := hasLiberty_post board row col color (Grid.fill false)
  obtain ⟨hstart, hclosed⟩ := hf hfalse
  have key : ∀ p, Lib board color p →
      (hasLiberty board row col color (Grid.fill false)).2.get p.1 p.2 = true → False := by
    intro p hp
    induction hp with
    | here p _ hemp =>
      intro hv
      exact (hclosed p.1 p.2 hv (Grid.get_fill_false _ _)).1 hemp
    | step p q _ hcol hadj hq ih =>
      intro hv
      obtain ⟨d, hd, rfl⟩ := hadj
      exact ih ((hclosed p.1 p.2 hv (Grid.get_fill_false _ _)).2 hcol d hd (lib_inB hq))
  exact key (row, col) h (hstart (lib_inB h))

theorem hasLiberty_fresh_iff (board : Board) (row col : Int) (color : StoneColor) :
    (hasLiberty board row col color (Grid.fill false)).1 = true ↔ Lib board color (row, col) :=
  ⟨hasLiberty_sound _ _ _ _ _, hasLiberty_complete _ _ _ _⟩

/-! ## The breadth-first collection of a group -/

theorem bfsStep_spec (board : Board) (oc : StoneColor) (c0 : Grid Bool) (start cur : Pos)
    (st : BfsState) (d : Int × Int) (hd : d ∈ dirs)
    (hinv : BfsInv board oc c0 start (some cur) st) (hcur : cur ∈ st.group) :
    BfsInv board oc c0 start (some cur) (bfsStep board oc cur.1 cur.2 st d) ∧
    cur ∈ (bfsStep board oc cur.1 cur.2 st d).group ∧
    (∀ r c, st.checked.get r c = true →
      (bfsStep board oc cur.1 cur.2 st d).checked.get r c = true) ∧
    (InB (cur.1 + d.1) (cur.2 + d.2) → board.get (cur.1 + d.1) (cur.2 + d.2) = oc →
      (bfsStep board oc cur.1 cur.2 st d).checked.get (cur.1 + d.1) (cur.2 + d.2) = true) ∧
    unmarked (bfsStep board oc cur.1 cur.2 st d).checked
        + (bfsStep board oc cur.1 cur.2 st d).queue.length
      = unmarked st.checked + st.queue.length := by
  unfold bfsStep
  simp only []
  by_cases hc : InB (cur.1 + d.1) (cur.2 + d.2) ∧ board.get (cur.1 + d.1) (cur.2 + d.2) = oc ∧
      st.checked.get (cur.1 + d.1) (cur.2 + d.2) = false
  · rw [if_pos hc]
    obtain ⟨hin, hoc, hch⟩ := hc
    have hmono : ∀ r c, st.checked.get r c = true →
        (st.checked.set (cur.1 + d.1) (cur.2 + d.2) true).get r c = true := by
      intro r c h
      rw [Grid.get_set]; split
      · rfl
      · exact h
    have hnotin : (cur.1 + d.1, cur.2 + d.2) ∉ st.group := by
      intro hmem
      have := (hinv.checked_iff _ _).2 (Or.inr hmem)
      rw [hch] at this; exact Bool.noConfusion this
    have hc0 : c0.get (cur.1 + d.1) (cur.2 + d.2) = false := by
      by_contra h
      have h1 : c0.get (cur.1 + d.1) (cur.2 + d.2) = true := by simpa using h
      have := (hinv.checked_iff _ _).2 (Or.inl h1)
      rw [hch] at this; exact Bool.noConfusion this
    refine ⟨?_, ?_, hmono, ?_, ?_⟩
    · constructor
      · simp only []
        rw [List.nodup_append]
        refine ⟨hinv.nodup, List.nodup_singleton _, ?_⟩
        intro a ha hb
        rw [List.mem_singleton] at hb
        subst hb; exact hnotin ha
      · intro p hp
        simp only [List.mem_append, List.mem_singleton] at hp ⊢
        rcases hp with hp | hp
        · exact Or.inl (hinv.queue_sub p hp)
        · exact Or.inr hp
      · intro p hp
        simp only [List.mem_append, List.mem_singleton] at hp
        rcases hp with hp | rfl
        · exact hinv.mem p hp
        · refine ⟨hin, hoc, hc0, ?_⟩
          exact Relation.ReflTransGen.tail (hinv.mem cur hcur).2.2.2 ⟨⟨d, hd, rfl⟩, hin, hoc⟩
      · intro r c
        simp only [List.mem_append, List.mem_singleton]
        rw [Grid.get_set]
        by_cases h : r = cur.1 + d.1 ∧ c = cur.2 + d.2 ∧ InB (cur.1 + d.1) (cur.2 + d.2)
        · rw [if_pos h]
          obtain ⟨rfl, rfl, _⟩ := h
          simp
        · rw [if_neg h, hinv.checked_iff]
          constructor
          · rintro (h1 | h1)
            · exact Or.inl h1
            · exact Or.inr (Or.inl h1)
          · rintro (h1 | h1 | h1)
            · exact Or.inl h1
            · exact Or.inr h1
            · exfalso; apply h
              have h2 := Prod.mk.inj h1
              exact ⟨h2.1, h2.2, hin⟩
      · intro p hp hq hne e he hein heoc
        simp only [List.mem_append, List.mem_singleton, not_or] at hp hq
        rcases hp with hp | rfl
        · exact hmono _ _ (hinv.closed p hp hq.1 hne e he hein heoc)
        · exact absurd rfl hq.2
      · obtain ⟨rest, hr⟩ := hinv.head
        exact ⟨rest ++ [(cur.1 + d.1, cur.2 + d.2)], by simp [hr]⟩
    · simp only [List.mem_append]; exact Or.inl hcur
    · intro _ _; exact Grid.get_set_same _ _ _ _ hin
    · simp only [List.length_append, List.length_singleton]
      have := unmarked_set st.checked _ _ hin hch
      omega
  · rw [if_neg hc]
    refine ⟨hinv, hcur, fun _ _ h => h, ?_, rfl⟩
    intro hin hoc
    by_contra h
    exact hc ⟨hin, hoc, by simpa using h⟩

theorem bfsVisit_spec (board : Board) (oc : StoneColor) (c0 : Grid Bool) (start cur : Pos) :
    ∀ (ds : List (Int × Int)) (st : BfsState), (∀ d ∈ ds, d ∈ dirs) →
      BfsInv board oc c0 start (some cur) st → cur ∈ st.group →
      BfsInv board oc c0 start (some cur) (ds.foldl (bfsStep board oc cur.1 cur.2) st) ∧
      cur ∈ (ds.foldl (bfsStep board oc cur.1 cur.2) st).group ∧
      (∀ r c, st.checked.get r c = true →
        (ds.foldl (bfsStep board oc cur.1 cur.2) st).checked.get r c = true) ∧
      (∀ d ∈ ds, InB (cur.1 + d.1) (cur.2 + d.2) →
        board.get (cur.1 + d.1) (cur.2 + d.2) = oc →
        (ds.foldl (bfsStep board oc cur.1 cur.2) st).checked.get
          (cur.1 + d.1) (cur.2 + d.2) = true) ∧
      unmarked (ds.foldl (bfsStep board oc cur.1 cur.2) st).checked
          + (ds.foldl (bfsStep board oc cur.1 cur.2) st).queue.length
        = unmarked st.checked + st.queue.length := by
  intro ds
  induction ds with
  | nil =>
    intro st _ hinv hcur
    exact ⟨hinv, hcur, fun _ _ h => h, fun d hd => absurd hd (List.not_mem_nil _), rfl⟩
  | cons d ds ih =>
    intro st hds hinv hcur
    obtain ⟨h1, h2, h3, h4, h5⟩ :=
      bfsStep_spec board oc c0 start cur st d (hds d (List.mem_cons_self _ _)) hinv hcur
    obtain ⟨k1, k2, k3, k4, k5⟩ :=
      ih (bfsStep board oc cur.1 cur.2 st d) (fun e he => hds e (List.mem_cons_of_mem _ he))
        h1 h2
    rw [List.foldl_cons]
    refine ⟨k1, k2, fun r c h => k3 _ _ (h3 _ _ h), ?_, by rw [k5, h5]⟩
    intro e he hin hoc
    rcases List.mem_cons.1 he with rfl | he
    · exact k3 _ _ (h4 hin hoc)
    · exact k4 e he hin hoc

theorem bfsLoop_spec (board : Board) (oc : StoneColor) (c0 : Grid Bool) (start : Pos) :
    ∀ (fuel : Nat) (checked : Grid Bool) (queue group : List Pos),
      BfsInv board oc c0 start none { checked := checked, queue := queue, group := group } →
      unmarked checked + queue.length < fuel →
      ∃ c1 g1, bfsLoop board oc fuel checked queue group = some (c1, g1) ∧
        BfsInv board oc c0 start none { checked := c1, queue := [], group := g1 } := by
  intro fuel
  induction fuel with
  | zero => intro _ _ _ _ h; exact absurd h (Nat.not_lt_zero _)
  | succ fuel ih =>
    intro checked queue group hinv hm
    cases queue with
    | nil => exact ⟨checked, group, by simp [bfsLoop], hinv⟩
    | cons cur rest =>
      have hcur : cur ∈ group := hinv.queue_sub cur (List.mem_cons_self _ _)
      have hinv1 : BfsInv board oc c0 start (some cur)
          { checked := checked, queue := rest, group := group } := by
        constructor
        · exact hinv.nodup
        · intro p hp; exact hinv.queue_sub p (List.mem_cons_of_mem _ hp)
        · exact hinv.mem
        · exact hinv.checked_iff
        · intro p hp hq hne
          apply hinv.closed p hp
          · intro h
            rcases List.mem_cons.1 h with rfl | h
            · exact hne rfl
            · exact hq h
          · intro h; exact Option.noConfusion h
        · exact hinv.head
      obtain ⟨k1, k2, _, k4, k5⟩ :=
        bfsVisit_spec board oc c0 start cur dirs _ (fun _ h => h) hinv1 hcur
      have hinv2 : BfsInv board oc c0 start none
          (dirs.foldl (bfsStep board oc cur.1 cur.2)
            { checked := checked, queue := rest, group := group }) := by
        constructor
        · exact k1.nodup
        · exact k1.queue_sub
        · exact k1.mem
        · exact k1.checked_iff
        · intro p hp hq _
          by_cases hpc : p = cur
          · subst hpc; exact k4
          · exact k1.closed p hp hq (fun h => hpc (Option.some.inj h))
        · exact k1.head
      simp only [List.length_cons] at hm
      simp only [] at k5
      have hm2 : unmarked (dirs.foldl (bfsStep board oc cur.1 cur.2)
            { checked := checked, queue := rest, group := group }).checked
          + (dirs.foldl (bfsStep board oc cur.1 cur.2)
            { checked := checked, queue := rest, group := group }).queue.length < fuel := by
        omega
      obtain ⟨c1, g1, h1, h2⟩ := ih _ _ _ hinv2 hm2
      exact ⟨c1, g1, by simp only [bfsLoop]; exact h1, h2⟩

theorem bfsLoop_succ (board : Board) (oc : StoneColor) :
    ∀ (fuel : Nat) (checked : Grid Bool) (queue group : List Pos) (x : Grid Bool × List Pos),
      bfsLoop board oc fuel checked queue group = some x →
      bfsLoop board oc (fuel + 1) checked queue group = some x := by
  intro fuel
  induction fuel with
  | zero =>
    intro checked queue group x hx
    cases queue with
    | nil => simpa [bfsLoop] using hx
    | cons _ _ => simp [bfsLoop] at hx
  | succ fuel ih =>
    intro checked queue group x hx
    cases queue with
    | nil => simpa [bfsLoop] using hx
    | cons cur rest =>
      simp only [bfsLoop] at hx ⊢
      exact ih _ _ _ _ hx

theorem bfsLoop_le (board : Board) (oc : StoneColor) (fuel fuel1 : Nat) (hle : fuel ≤ fuel1)
    (checked : Grid Bool) (queue group : List Pos) (x : Grid Bool × List Pos)
    (hx : bfsLoop board oc fuel checked queue group = some x) :
    bfsLoop board oc fuel1 checked queue group = some x := by
  induction hle with
  | refl => exact hx
  | step _ ih => exact bfsLoop_succ _ _ _ _ _ _ _ ih

theorem bfs_start_inv (board : Board) (oc : StoneColor) (c0 : Grid Bool) (x y : Int)
    (hin : InB x y) (hoc : board.get x y = oc) (hc0 : c0.get x y = false) :
    BfsInv board oc c0 (x, y) none
      { checked := c0.set x y true, queue := [(x, y)], group := [(x, y)] } := by
  constructor
  · exact List.nodup_singleton _
  · intro p hp; exact hp
  · intro p hp
    rw [List.mem_singleton] at hp; subst hp
    exact ⟨hin, hoc, hc0, Relation.ReflTransGen.refl⟩
  · intro r c
    rw [Grid.get_set, List.mem_singleton]
    by_cases h : r = x ∧ c = y ∧ InB x y
    · rw [if_pos h]; obtain ⟨rfl, rfl, _⟩ := h; simp
    · rw [if_neg h]
      constructor
      · exact Or.inl
      · rintro (h1 | h1)
        · exact h1
        · have h2 := Prod.mk.inj h1
          exact absurd ⟨h2.1, h2.2, hin⟩ h
  · intro p hp hq
    exact absurd hp hq
  · exact ⟨[], rfl⟩

/-- The iteration bound of the BFS is never hit from an in-bounds unchecked
start cell: with `BFS_FUEL` or any larger bound the bounded loop returns the
value of `collectGroup`, which satisfies the loop invariant with an empty
queue. -/
theorem collectGroup_total (board : Board) (oc : StoneColor) (c0 : Grid Bool) (x y : Int)
    (hin : InB x y) (hoc : board.get x y = oc) (hc0 : c0.get x y = false) (fuel : Nat)
    (hfuel : BFS_FUEL ≤ fuel) :
    bfsLoop board oc fuel (c0.set x y true) [(x, y)] [(x, y)]
        = some (collectGroup board oc c0 x y) ∧
    BfsInv board oc c0 (x, y) none
      { checked := (collectGroup board oc c0 x y).1, queue := [],
        group := (collectGroup board oc c0 x y).2 } := by
  have hm : unmarked (c0.set x y true) + [(x, y)].length < BFS_FUEL := by
    have h1 := unmarked_set c0 x y hin hc0
    have h2 := unmarked_le c0
    simp only [List.length_singleton]
    unfold BFS_FUEL; omega
  obtain ⟨c1, g1, h1, h2⟩ :=
    bfsLoop_spec board oc c0 (x, y) BFS_FUEL _ _ _ (bfs_start_inv board oc c0 x y hin hoc hc0) hm
  have h3 : collectGroup board oc c0 x y = (c1, g1) := by
    unfold collectGroup; rw [h1]; rfl
  rw [h3]
  exact ⟨bfsLoop_le _ _ _ _ hfuel _ _ _ _ h1, h2⟩

/-! ## Adjacency, chains and liberties -/

theorem dirs_neg (d : Int × Int) (hd : d ∈ dirs) : (-d.1, -d.2) ∈ dirs := by
  simp only [dirs, List.mem_cons, List.mem_singleton, List.not_mem_nil, or_false] at hd ⊢
  rcases hd with rfl | rfl | rfl | rfl <;> simp

theorem adj_symm {p q : Pos} (h : Adj p q) : Adj q p := by
  obtain ⟨d, hd, rfl⟩ := h
  refine ⟨(-d.1, -d.2), dirs_neg d hd, ?_⟩
  apply Prod.ext <;> simp

theorem chain_color (board : Board) (color : StoneColor) (p q : Pos)
    (h : Relation.ReflTransGen (ChainStep board color) p q)
    (hp : InB p.1 p.2 ∧ board.get p.1 p.2 = color) :
    InB q.1 q.2 ∧ board.get q.1 q.2 = color := by
  induction h with
  | refl => exact hp
  | tail _ hs _ => exact hs.2

theorem chain_symm (board : Board) (color : StoneColor) (p q : Pos)
    (h : Relation.ReflTransGen (ChainStep board color) p q)
    (hp : InB p.1 p.2 ∧ board.get p.1 p.2 = color) :
    Relation.ReflTransGen (ChainStep board color) q p := by
  induction h with
  | refl => exact Relation.ReflTransGen.refl
  | tail hpm hs ih =>
    exact Relation.ReflTransGen.head ⟨adj_symm hs.1, chain_color _ _ _ _ hpm hp⟩ ih

theorem lib_of_chain (board : Board) (color : StoneColor) (p q : Pos)
    (h : Relation.ReflTransGen (ChainStep board color) p q)
    (hp : InB p.1 p.2 ∧ board.get p.1 p.2 = color) (hq : Lib board color q) :
    Lib board color p := by
  induction h with
  | refl => exact hq
  | tail hpm hs ih =>
    have hm := chain_color _ _ _ _ hpm hp
    exact ih (Lib.step _ _ hm.1 hm.2 hs.1 hq)

theorem lib_chain_iff (board : Board) (color : StoneColor) (p q : Pos)
    (h : InChain board color p q) : Lib board color p ↔ Lib board color q := by
  obtain ⟨h1, h2, h3⟩ := h
  constructor
  · intro hl
    exact lib_of_chain _ _ _ _ (chain_symm _ _ _ _ h3 ⟨h1, h2⟩) (chain_color _ _ _ _ h3 ⟨h1, h2⟩) hl
  · exact lib_of_chain _ _ _ _ h3 ⟨h1, h2⟩

theorem lib_cases_color {board : Board} {color : StoneColor} {p : Pos}
    (h : Lib board color p) :
    InB p.1 p.2 ∧ (board.get p.1 p.2 = EMPTY ∨ board.get p.1 p.2 = color) := by
  cases h with
  | here _ h1 h2 => exact ⟨h1, Or.inl h2⟩
  | step _ _ h1 h2 _ _ => exact ⟨h1, Or.inr h2⟩

/-- A stone of `color` sees a liberty exactly when some stone of its chain has
an EMPTY orthogonal in-bounds neighbour. -/
theorem lib_iff_chain_liberty (board : Board) (color : StoneColor) (hne : color ≠ EMPTY)
    (p : Pos) (hin : InB p.1 p.2) (hcol : board.get p.1 p.2 = color) :
    Lib board color p ↔
      ∃ m e, InChain board color p m ∧ Adj m e ∧ InB e.1 e.2 ∧ board.get e.1 e.2 = EMPTY := by
  constructor
  · intro h
    have key : ∀ q, Lib board color q → InB q.1 q.2 → board.get q.1 q.2 = color →
        ∃ m e, Relation.ReflTransGen (ChainStep board color) q m ∧ Adj m e ∧ InB e.1 e.2 ∧
          board.get e.1 e.2 = EMPTY := by
      intro q hq
      induction hq with
      | here q _ hemp =>
        intro _ hc
        rw [hc] at hemp; exact absurd hemp hne
      | step q r hqin hqc hadj hr ih =>
        intro _ _
        rcases (lib_cases_color hr) with ⟨hrin, hre | hrc⟩
        · exact ⟨q, r, Relation.ReflTransGen.refl, hadj, hrin, hre⟩
        · obtain ⟨m, e, h1, h2, h3, h4⟩ := ih hrin hrc
          exact ⟨m, e, Relation.ReflTransGen.head ⟨hadj, hrin, hrc⟩ h1, h2, h3, h4⟩
    obtain ⟨m, e, h1, h2, h3, h4⟩ := key p h hin hcol
    exact ⟨m, e, ⟨hin, hcol, h1⟩, h2, h3, h4⟩
  · rintro ⟨m, e, ⟨_, _, h1⟩, h2, h3, h4⟩
    have hm := chain_color _ _ _ _ h1 ⟨hin, hcol⟩
    exact lib_of_chain _ _ _ _ h1 ⟨hin, hcol⟩
      (Lib.step _ _ hm.1 hm.2 h2 (Lib.here _ h3 h4))

theorem groupHasLiberty_sound (board : Board) (oc : StoneColor) :
    ∀ (g : List Pos) (v : Grid Bool), groupHasLiberty board oc g v = true →
      ∃ p ∈ g, Lib board oc p := by
  intro g
  induction g with
  | nil => intro v h; simp [groupHasLiberty] at h
  | cons p rest ih =>
    intro v h
    unfold groupHasLiberty at h
    cases hres : hasLiberty board p.1 p.2 oc v with
    | mk b v1 =>
      rw [hres] at h
      cases b with
      | true =>
        have := hasLiberty_sound board p.1 p.2 oc v (by rw [hres])
        exact ⟨p, List.mem_cons_self _ _, this⟩
      | false =>
        obtain ⟨q, hq, hl⟩ := ih v1 h
        exact ⟨q, List.mem_cons_of_mem _ hq, hl⟩

theorem groupHasLiberty_head (board : Board) (oc : StoneColor) (p : Pos) (rest : List Pos)
    (h : Lib board oc p) : groupHasLiberty board oc (p :: rest) (Grid.fill false) = true := by
  unfold groupHasLiberty
  have := hasLiberty_complete board p.1 p.2 oc h
  cases hres : hasLiberty board p.1 p.2 oc (Grid.fill false) with
  | mk b v1 =>
    rw [hres] at this
    simp only [] at this
    subst this
    rfl

theorem removeGroup_get (r c : Int) :
    ∀ (g : List Pos) (board : Board), (∀ p ∈ g, InB p.1 p.2) →
      (removeGroup board g).get r c = if (r, c) ∈ g then EMPTY else board.get r c := by
  intro g
  induction g with
  | nil => intro board _; simp [removeGroup]
  | cons p rest ih =>
    intro board hin
    unfold removeGroup
    rw [ih _ (fun q hq => hin q (List.mem_cons_of_mem _ hq))]
    by_cases h1 : (r, c) ∈ rest
    · rw [if_pos h1, if_pos (List.mem_cons_of_mem _ h1)]
    · rw [if_neg h1, Grid.get_set]
      by_cases h2 : (r, c) = p
      · subst h2
        rw [if_pos ⟨rfl, rfl, hin _ (List.mem_cons_self _ _)⟩, if_pos (List.mem_cons_self _ _)]
      · have h3 : ¬ (r = p.1 ∧ c = p.2 ∧ InB p.1 p.2) := by
          rintro ⟨rfl, rfl, _⟩; exact h2 rfl
        have h4 : (r, c) ∉ p :: rest := by
          intro h; rcases List.mem_cons.1 h with h | h
          · exact h2 h
          · exact h1 h
        rw [if_neg h3, if_neg h4]

/-! ## The outer loop of `captureStones` -/

theorem lib_transfer (b b1 : Board) (oc : StoneColor) (hne : oc ≠ EMPTY) (g : List Pos)
    (hgb : ∀ p ∈ g, b.get p.1 p.2 = oc) (hgb1 : ∀ p ∈ g, b1.get p.1 p.2 = oc)
    (hsame : ∀ p ∈ g, ∀ e ∈ dirs, b.get (p.1 + e.1) (p.2 + e.2) = b1.get (p.1 + e.1) (p.2 + e.2))
    (hcl : ∀ p ∈ g, ∀ e ∈ dirs, InB (p.1 + e.1) (p.2 + e.2) →
      b.get (p.1 + e.1) (p.2 + e.2) = oc → (p.1 + e.1, p.2 + e.2) ∈ g) :
    ∀ p, Lib b oc p → (p ∈ g ∨ b1.get p.1 p.2 = EMPTY) → Lib b1 oc p := by
  intro p hp
  induction hp with
  | here p hin hemp =>
    rintro (hP | hP)
    · rw [hgb p hP] at hemp; exact absurd hemp hne
    · exact Lib.here p hin hP
  | step p q hin hcol hadj hq ih =>
    rintro (hP | hP)
    · obtain ⟨e, he, rfl⟩ := hadj
      rcases (lib_cases_color hq) with ⟨hqin, hqe | hqc⟩
      · refine Lib.step p _ hin (hgb1 p hP) ⟨e, he, rfl⟩ (ih (Or.inr ?_))
        rw [← hsame p hP e he]; exact hqe
      · exact Lib.step p _ hin (hgb1 p hP) ⟨e, he, rfl⟩ (ih (Or.inl (hcl p hP e he hqin hqc)))
    · exact Lib.here p hin hP

theorem captureDir_spec (b0 : Board) (oc : StoneColor) (hne : oc ≠ EMPTY) (row col : Int)
    (cap0 L : List Pos) (st : CaptureState) (hinv : CapInv b0 oc row col cap0 L st)
    (d : Int × Int) (hd : d ∈ dirs) :
    ∃ L1, CapInv b0 oc row col cap0 L1 (captureDir oc row col st d) ∧
      (∀ r c, st.checked.get r c = true → (captureDir oc row col st d).checked.get r c = true) ∧
      (InB (row + d.1) (col + d.2) → b0.get (row + d.1) (col + d.2) = oc →
        (captureDir oc row col st d).checked.get (row + d.1) (col + d.2) = true) := by
  unfold captureDir
  simp only []
  by_cases hoob : OutOfBounds (row + d.1) (col + d.2)
  · rw [if_pos hoob]
    exact ⟨L, hinv, fun _ _ h => h, fun hin => absurd hin ((outOfBounds_iff _ _).1 hoob)⟩
  rw [if_neg hoob]
  have hin : InB (row + d.1) (col + d.2) := by
    by_contra h; exact hoob ((outOfBounds_iff _ _).2 h)
  by_cases hskip : st.board.get (row + d.1) (col + d.2) ≠ oc ∨
      st.checked.get (row + d.1) (col + d.2) = true
  · rw [if_pos hskip]
    refine ⟨L, hinv, fun _ _ h => h, fun _ hoc => ?_⟩
    rcases hskip with h | h
    · have hb := hinv.board_eq (row + d.1) (col + d.2)
      by_cases hL : (row + d.1, col + d.2) ∈ L
      · exact hinv.cap_checked _ hL
      · rw [if_neg hL, hoc] at hb; exact absurd hb h
    · exact h
  rw [if_neg hskip]
  have hb : st.board.get (row + d.1) (col + d.2) = oc := by
    by_contra h; exact hskip (Or.inl h)
  have hch : st.checked.get (row + d.1) (col + d.2) = false := by
    by_contra h; exact hskip (Or.inr (by simpa using h))
  obtain ⟨_, hbfs⟩ := collectGroup_total st.board oc st.checked _ _ hin hb hch BFS_FUEL le_rfl
  generalize collectGroup st.board oc st.checked (row + d.1) (col + d.2) = cg at hbfs
  obtain ⟨c1, g⟩ := cg
  simp only [] at hbfs ⊢
  -- facts about the group
  have hb_b0 : ∀ r c, st.board.get r c = oc → (r, c) ∉ L ∧ b0.get r c = oc := by
    intro r c h
    have h1 := hinv.board_eq r c
    by_cases hL : (r, c) ∈ L
    · rw [if_pos hL, h] at h1; exact absurd h1 hne
    · rw [if_neg hL, h] at h1; exact ⟨hL, h1.symm⟩
  have hg_in : ∀ p ∈ g, InB p.1 p.2 := fun p hp => (hbfs.mem p hp).1
  have hg_b : ∀ p ∈ g, st.board.get p.1 p.2 = oc := fun p hp => (hbfs.mem p hp).2.1
  have hg_b0 : ∀ p ∈ g, b0.get p.1 p.2 = oc := fun p hp => (hb_b0 _ _ (hg_b p hp)).2
  have hg_unch : ∀ p ∈ g, st.checked.get p.1 p.2 = false := fun p hp => (hbfs.mem p hp).2.2.1
  have hg_notL : ∀ p ∈ g, p ∉ L := by
    intro p hp hL
    have := hinv.cap_checked p hL
    rw [hg_unch p hp] at this; exact Bool.noConfusion this
  have hstart_b0 : b0.get (row + d.1) (col + d.2) = oc := (hb_b0 _ _ hb).2
  have hg_chain : ∀ p ∈ g, InChain b0 oc (row + d.1, col + d.2) p := by
    intro p hp
    refine ⟨hin, hstart_b0, ?_⟩
    refine Relation.ReflTransGen.mono ?_ (hbfs.mem p hp).2.2.2
    intro a b hab
    exact ⟨hab.1, hab.2.1, (hb_b0 _ _ hab.2.2).2⟩
  have hc1 : ∀ r c, c1.get r c = true ↔ (st.checked.get r c = true ∨ (r, c) ∈ g) :=
    hbfs.checked_iff
  have hnbr_unch : ∀ p ∈ g, ∀ e ∈ dirs,
      st.checked.get (p.1 + e.1) (p.2 + e.2) = true → False := by
    intro p hp e he h
    have h1 := hinv.checked_closed _ _ h (-e.1, -e.2) (dirs_neg e he)
    simp only [] at h1
    have e1 : p.1 + e.1 + -e.1 = p.1 := by omega
    have e2 : p.2 + e.2 + -e.2 = p.2 := by omega
    rw [e1, e2] at h1
    have := h1 (hg_in p hp) (hg_b0 p hp)
    rw [hg_unch p hp] at this; exact Bool.noConfusion this
  have hnbr_same : ∀ p ∈ g, ∀ e ∈ dirs,
      st.board.get (p.1 + e.1) (p.2 + e.2) = b0.get (p.1 + e.1) (p.2 + e.2) := by
    intro p hp e he
    have h1 := hinv.board_eq (p.1 + e.1) (p.2 + e.2)
    by_cases hL : (p.1 + e.1, p.2 + e.2) ∈ L
    · exact absurd (hinv.cap_checked _ hL) (fun h => hnbr_unch p hp e he h)
    · rw [if_neg hL] at h1; exact h1
  have hnbr_g : ∀ p ∈ g, ∀ e ∈ dirs, InB (p.1 + e.1) (p.2 + e.2) →
      st.board.get (p.1 + e.1) (p.2 + e.2) = oc → (p.1 + e.1, p.2 + e.2) ∈ g := by
    intro p hp e he hein heoc
    have h1 := hbfs.closed p hp (List.not_mem_nil _) (fun h => Option.noConfusion h) e he hein heoc
    rcases (hc1 _ _).1 h1 with h2 | h2
    · exact absurd h2 (fun h => hnbr_unch p hp e he h)
    · exact h2
  have hnbr_g0 : ∀ p ∈ g, ∀ e ∈ dirs, InB (p.1 + e.1) (p.2 + e.2) →
      b0.get (p.1 + e.1) (p.2 + e.2) = oc → (p.1 + e.1, p.2 + e.2) ∈ g := by
    intro p hp e he hein heoc
    exact hnbr_g p hp e he hein (by rw [hnbr_same p hp e he]; exact heoc)
  have hlib : ∀ p ∈ g, (Lib st.board oc p ↔ Lib b0 oc p) := by
    intro p hp
    constructor
    · intro h
      exact lib_transfer st.board b0 oc hne g hg_b hg_b0 hnbr_same hnbr_g p h (Or.inl hp)
    · intro h
      exact lib_transfer b0 st.board oc hne g hg_b0 hg_b
        (fun q hq e he => (hnbr_same q hq e he).symm) hnbr_g0 p h (Or.inl hp)
  obtain ⟨rest, hrest⟩ := hbfs.head
  simp only [] at hrest
  have hstart_mem : (row + d.1, col + d.2) ∈ g := by rw [hrest]; exact List.mem_cons_self _ _
  have hlibval : groupHasLiberty st.board oc g (Grid.fill false) = true ↔
      Lib b0 oc (row + d.1, col + d.2) := by
    constructor
    · intro h
      obtain ⟨p, hp, hl⟩ := groupHasLiberty_sound _ _ _ _ h
      exact (lib_chain_iff _ _ _ _ (hg_chain p hp)).2 ((hlib p hp).1 hl)
    · intro h
      rw [hrest]
      exact groupHasLiberty_head _ _ _ _ ((hlib _ hstart_mem).2 h)
  have hmono : ∀ r c, st.checked.get r c = true → c1.get r c = true :=
    fun r c h => (hc1 r c).2 (Or.inl h)
  have hcolor1 : ∀ r c, c1.get r c = true → b0.get r c = oc := by
    intro r c h
    rcases (hc1 r c).1 h with h1 | h1
    · exact hinv.checked_color r c h1
    · exact hg_b0 _ h1
  have hclosed1 : ∀ r c, c1.get r c = true → ∀ e ∈ dirs,
      InB (r + e.1) (c + e.2) → b0.get (r + e.1) (c + e.2) = oc →
        c1.get (r + e.1) (c + e.2) = true := by
    intro r c h e he hein heoc
    rcases (hc1 r c).1 h with h1 | h1
    · exact hmono _ _ (hinv.checked_closed r c h1 e he hein heoc)
    · exact (hc1 _ _).2 (Or.inr (hnbr_g0 (r, c) h1 e he hein heoc))
  have hnbr1 : ∀ r c, c1.get r c = true →
      ∃ e ∈ dirs, InChain b0 oc (row + e.1, col + e.2) (r, c) := by
    intro r c h
    rcases (hc1 r c).1 h with h1 | h1
    · exact hinv.checked_nbr r c h1
    · exact ⟨d, hd, hg_chain _ h1⟩
  by_cases hlv : groupHasLiberty st.board oc g (Grid.fill false) = false
  · rw [if_pos hlv]
    have hdead : ¬ Lib b0 oc (row + d.1, col + d.2) := by
      intro h
      rw [hlibval.2 h] at hlv; exact Bool.noConfusion hlv
    refine ⟨L ++ g, ?_, hmono, fun _ _ => (hc1 _ _).2 (Or.inr hstart_mem)⟩
    constructor
    · simp only [hinv.captured_eq, List.append_assoc]
    · rw [List.nodup_append]
      exact ⟨hinv.nodup, hbfs.nodup, fun a ha hb => hg_notL a hb ha⟩
    · simp only [hinv.count, List.length_append, Nat.cast_add]
    · intro r c
      simp only []
      rw [removeGroup_get r c g st.board hg_in, hinv.board_eq r c]
      by_cases h1 : (r, c) ∈ g
      · rw [if_pos h1, if_pos (List.mem_append_right _ h1)]
      · rw [if_neg h1]
        by_cases h2 : (r, c) ∈ L
        · rw [if_pos h2, if_pos (List.mem_append_left _ h2)]
        · rw [if_neg h2, if_neg]
          intro h; rcases List.mem_append.1 h with h | h
          · exact h2 h
          · exact h1 h
    · intro p hp
      rcases List.mem_append.1 hp with h | h
      · exact hmono _ _ (hinv.cap_checked p h)
      · exact (hc1 _ _).2 (Or.inr h)
    · exact hcolor1
    · exact hclosed1
    · intro r c h
      simp only [List.mem_append]
      rcases (hc1 r c).1 h with h1 | h1
      · rw [← hinv.checked_dead r c h1]
        constructor
        · rintro (h2 | h2)
          · exact h2
          · have := hg_unch _ h2
            rw [h1] at this; exact Bool.noConfusion this
        · exact Or.inl
      · constructor
        · intro _ hl
          exact hdead ((lib_chain_iff _ _ _ _ (hg_chain _ h1)).2 hl)
        · intro _; exact Or.inr h1
    · exact hnbr1
  · rw [if_neg hlv]
    have hlive : Lib b0 oc (row + d.1, col + d.2) :=
      hlibval.1 (by simpa using hlv)
    refine ⟨L, ?_, hmono, fun _ _ => (hc1 _ _).2 (Or.inr hstart_mem)⟩
    constructor
    · exact hinv.captured_eq
    · exact hinv.nodup
    · exact hinv.count
    · exact hinv.board_eq
    · intro p hp; exact hmono _ _ (hinv.cap_checked p hp)
    · exact hcolor1
    · exact hclosed1
    · intro r c h
      rcases (hc1 r c).1 h with h1 | h1
      · exact hinv.checked_dead r c h1
      · constructor
        · intro h2; exact absurd h2 (hg_notL _ h1)
        · intro h2
          exact absurd ((lib_chain_iff _ _ _ _ (hg_chain _ h1)).1 hlive) h2
    · exact hnbr1

theorem captureFold_spec (b0 : Board) (oc : StoneColor) (hne : oc ≠ EMPTY) (row col : Int)
    (cap0 : List Pos) :
    ∀ (ds : List (Int × Int)) (L : List Pos) (st : CaptureState), (∀ d ∈ ds, d ∈ dirs) →
      CapInv b0 oc row col cap0 L st →
      ∃ L1, CapInv b0 oc row col cap0 L1 (ds.foldl (captureDir oc row col) st) ∧
        (∀ r c, st.checked.get r c = true →
          (ds.foldl (captureDir oc row col) st).checked.get r c = true) ∧
        (∀ d ∈ ds, InB (row + d.1) (col + d.2) → b0.get (row + d.1) (col + d.2) = oc →
          (ds.foldl (captureDir oc row col) st).checked.get (row + d.1) (col + d.2) = true) := by
  intro ds
  induction ds with
  | nil =>
    intro L st _ hinv
    exact ⟨L, hinv, fun _ _ h => h, fun d hd => absurd hd (List.not_mem_nil _)⟩
  | cons d ds ih =>
    intro L st hds hinv
    obtain ⟨L1, h1, h2, h3⟩ :=
      captureDir_spec b0 oc hne row col cap0 L st hinv d (hds d (List.mem_cons_self _ _))
    obtain ⟨L2, k1, k2, k3⟩ :=
      ih L1 (captureDir oc row col st d) (fun e he => hds e (List.mem_cons_of_mem _ he)) h1
    rw [List.foldl_cons]
    refine ⟨L2, k1, fun r c h => k2 _ _ (h2 _ _ h), ?_⟩
    intro e he hin hoc
    rcases List.mem_cons.1 he with rfl | he
    · exact k2 _ _ (h3 hin hoc)
    · exact k3 e he hin hoc

theorem capInv_init (b0 : Board) (oc : StoneColor) (row col : Int) (cap0 : List Pos) :
    CapInv b0 oc row col cap0 []
      { board := b0, checked := Grid.fill false, captured := cap0, capturedCount := 0 } := by
  constructor
  · simp
  · exact List.nodup_nil
  · simp
  · intro r c; simp
  · intro p hp; exact absurd hp (List.not_mem_nil _)
  all_goals
    intro r c h
    rw [Grid.get_fill_false] at h; exact Bool.noConfusion h

theorem zeroLiberty_iff_not_lib (board : Board) (color : StoneColor) (hne : color ≠ EMPTY)
    (n : Pos) (hin : InB n.1 n.2) (hcol : board.get n.1 n.2 = color) :
    ZeroLiberty board color n ↔ ¬ Lib board color n := by
  rw [lib_iff_chain_liberty board color hne n hin hcol]
  unfold ZeroLiberty
  constructor
  · rintro h ⟨m, e, h1, h2, h3, h4⟩
    exact h m e h1 h2 h3 h4
  · intro h m e h1 h2 h3 h4
    exact h ⟨m, e, h1, h2, h3, h4⟩

theorem chain_closed_set (b0 : Board) (oc : StoneColor) (ch : Grid Bool)
    (hclosed : ∀ r c, ch.get r c = true → ∀ d ∈ dirs,
      InB (r + d.1) (c + d.2) → b0.get (r + d.1) (c + d.2) = oc →
        ch.get (r + d.1) (c + d.2) = true)
    (p q : Pos) (h : Relation.ReflTransGen (ChainStep b0 oc) p q)
    (hp : ch.get p.1 p.2 = true) : ch.get q.1 q.2 = true := by
  induction h with
  | refl => exact hp
  | tail _ hs ih =>
    obtain ⟨⟨d, hd, rfl⟩, hin, hoc⟩ := hs
    exact hclosed _ _ ih d hd hin hoc

/-- Functional description of `captureStones` for a stone colour `oc`: the
cells appended to `captured` are pairwise distinct, they are exactly the cells
of the liberty-free `oc` chains touching (row, col), the returned count is their
number, and the board changes exactly there, to EMPTY. -/
theorem captureStones_spec (b0 : Board) (row col : Int) (oc : StoneColor) (hne : oc ≠ EMPTY)
    (cap0 : List Pos) :
    ∃ L : List Pos,
      (captureStones b0 row col oc cap0).1 = (L.length : Int) ∧
      (captureStones b0 row col oc cap0).2.2 = cap0 ++ L ∧
      L.Nodup ∧
      (∀ r c, (captureStones b0 row col oc cap0).2.1.get r c
        = if (r, c) ∈ L then EMPTY else b0.get r c) ∧
      (∀ q, q ∈ L ↔ Captured b0 row col oc q) := by
  obtain ⟨L, hinv, _, hnbrs⟩ :=
    captureFold_spec b0 oc hne row col cap0 dirs [] _ (fun _ h => h)
      (capInv_init b0 oc row col cap0)
  refine ⟨L, hinv.count, hinv.captured_eq, hinv.nodup, hinv.board_eq, ?_⟩
  intro q
  constructor
  · intro hq
    have hch := hinv.cap_checked q hq
    obtain ⟨d, hd, hchain⟩ := hinv.checked_nbr _ _ hch
    refine ⟨(row + d.1, col + d.2), ⟨d, hd, rfl⟩, hchain, ?_⟩
    rw [zeroLiberty_iff_not_lib b0 oc hne _ hchain.1 hchain.2.1,
      lib_chain_iff _ _ _ _ hchain]
    exact (hinv.checked_dead _ _ hch).1 hq
  · rintro ⟨n, ⟨d, hd, rfl⟩, hchain, hz⟩
    have hn := hnbrs d hd hchain.1 hchain.2.1
    have hqc := chain_closed_set b0 oc _ hinv.checked_closed _ _ hchain.2.2 hn
    rw [zeroLiberty_iff_not_lib b0 oc hne _ hchain.1 hchain.2.1,
      lib_chain_iff _ _ _ _ hchain] at hz
    exact (hinv.checked_dead _ _ hqc).2 hz

theorem captureDir_empty (row col : Int) (st : CaptureState) (d : Int × Int) :
    (captureDir EMPTY row col st d).board = st.board ∧
    (captureDir EMPTY row col st d).captured = st.captured ∧
    (captureDir EMPTY row col st d).capturedCount = st.capturedCount := by
  unfold captureDir
  simp only []
  by_cases hoob : OutOfBounds (row + d.1) (col + d.2)
  · rw [if_pos hoob]; exact ⟨rfl, rfl, rfl⟩
  rw [if_neg hoob]
  have hin : InB (row + d.1) (col + d.2) := by
    by_contra h; exact hoob ((outOfBounds_iff _ _).2 h)
  by_cases hskip : st.board.get (row + d.1) (col + d.2) ≠ EMPTY ∨
      st.checked.get (row + d.1) (col + d.2) = true
  · rw [if_pos hskip]; exact ⟨rfl, rfl, rfl⟩
  rw [if_neg hskip]
  have hb : st.board.get (row + d.1) (col + d.2) = EMPTY := by
    by_contra h; exact hskip (Or.inl h)
  have hch : st.checked.get (row + d.1) (col + d.2) = false := by
    by_contra h; exact hskip (Or.inr (by simpa using h))
  obtain ⟨_, hbfs⟩ := collectGroup_total st.board EMPTY st.checked _ _ hin hb hch BFS_FUEL le_rfl
  generalize collectGroup st.board EMPTY st.checked (row + d.1) (col + d.2) = cg at hbfs
  obtain ⟨c1, g⟩ := cg
  obtain ⟨rest, hrest⟩ := hbfs.head
  simp only [] at hrest ⊢
  have hl : groupHasLiberty st.board EMPTY g (Grid.fill false) = true := by
    rw [hrest]
    exact groupHasLiberty_head _ _ _ _ (Lib.here _ hin hb)
  rw [hl]
  exact ⟨rfl, rfl, rfl⟩

theorem captureStones_empty (b0 : Board) (row col : Int) (cap0 : List Pos) :
    captureStones b0 row col EMPTY cap0 = (0, b0, cap0) := by
  have key : ∀ (ds : List (Int × Int)) (st : CaptureState),
      (ds.foldl (captureDir EMPTY row col) st).board = st.board ∧
      (ds.foldl (captureDir EMPTY row col) st).captured = st.captured ∧
      (ds.foldl (captureDir EMPTY row col) st).capturedCount = st.capturedCount := by
    intro ds
    induction ds with
    | nil => intro st; exact ⟨rfl, rfl, rfl⟩
    | cons d ds ih =>
      intro st
      rw [List.foldl_cons]
      obtain ⟨h1, h2, h3⟩ := ih (captureDir EMPTY row col st d)
      obtain ⟨k1, k2, k3⟩ := captureDir_empty row col st d
      exact ⟨h1.trans k1, h2.trans k2, h3.trans k3⟩
  obtain ⟨h1, h2, h3⟩ := key dirs
    { board := b0, checked := Grid.fill false, captured := cap0, capturedCount := 0 }
  unfold captureStones
  simp only [h1, h2, h3]

/-! ## `isValidMove` and `placeStone` -/

theorem opponentOf_ne_empty (color : StoneColor) : opponentOf color ≠ EMPTY := by
  cases color <;> decide

theorem opponentOf_ne_self (color : StoneColor) : opponentOf color ≠ color := by
  cases color <;> decide

theorem Grid.set_set_get {α : Type} [Inhabited α] (g : Grid α) (row col : Int) (v : α) :
    (g.set row col v).set row col (g.get row col) = g := by
  apply Grid.ext_get
  intro r c _
  rw [Grid.get_set, Grid.get_set]
  by_cases h : r = row ∧ c = col ∧ InB row col
  · rw [if_pos h]; obtain ⟨rfl, rfl, _⟩ := h; rfl
  · rw [if_neg h, if_neg h]

theorem isValidMove_state (s : GoBoard) (row col : Int) : (isValidMove s row col).2 = s := by
  unfold isValidMove
  by_cases h : s.board.get row col ≠ EMPTY
  · rw [if_pos h]
  · rw [if_neg h]
    simp only [Grid.set_set_get]

theorem placeStone_rejected (s : GoBoard) (row col : Int) (color : StoneColor)
    (h : (placeStone s row col color).ok = false) : (placeStone s row col color).state = s := by
  unfold placeStone at h ⊢
  by_cases h1 : s.board.get row col ≠ EMPTY
  · rw [if_pos h1]
  rw [if_neg h1] at h ⊢
  by_cases h2 : s.inKo = true ∧ row = s.koPosition.1 ∧ col = s.koPosition.2
  · rw [if_pos h2]
  rw [if_neg h2] at h ⊢
  have hs := isValidMove_state s row col
  cases hv : isValidMove s row col with
  | mk b s1 =>
    rw [hv] at hs h
    simp only [] at hs
    subst hs
    cases b with
    | false => rfl
    | true => simp at h

theorem captured_cell (b1 : Board) (row col : Int) (oc : StoneColor) (q : Pos)
    (h : Captured b1 row col oc q) : InB q.1 q.2 ∧ b1.get q.1 q.2 = oc := by
  obtain ⟨n, _, hchain, _⟩ := h
  exact chain_color _ _ _ _ hchain.2.2 ⟨hchain.1, hchain.2.1⟩

theorem captured_single (b1 : Board) (row col : Int) (oc : StoneColor) (q : Pos)
    (hq : Captured b1 row col oc q) (hall : ∀ p, Captured b1 row col oc p → p = q) :
    Adj (row, col) q := by
  obtain ⟨n, hadj, hchain, hz⟩ := hq
  have hn : Captured b1 row col oc n :=
    ⟨n, hadj, ⟨hchain.1, hchain.2.1, Relation.ReflTransGen.refl⟩, hz⟩
  rw [← hall n hn]; exact hadj

theorem placeStone_ok_spec (s : GoBoard) (row col : Int) (color : StoneColor)
    (hin : InB row col) (hok : (placeStone s row col color).ok = true) :
    ∃ L, PlacedSpec s row col color L (placeStone s row col color).state := by
  unfold placeStone at hok ⊢
  by_cases h1 : s.board.get row col ≠ EMPTY
  · rw [if_pos h1] at hok; simp at hok
  rw [if_neg h1] at hok ⊢
  have hemp : s.board.get row col = EMPTY := by simpa using h1
  by_cases h2 : s.inKo = true ∧ row = s.koPosition.1 ∧ col = s.koPosition.2
  · rw [if_pos h2] at hok; simp at hok
  rw [if_neg h2] at hok ⊢
  have hs := isValidMove_state s row col
  cases hv : isValidMove s row col with
  | mk b s1 =>
    rw [hv] at hs hok
    simp only [] at hs
    subst hs
    cases b with
    | false => simp at hok
    | true =>
      simp only []
      obtain ⟨L, hcnt, hcap, hnd, hget, hiff⟩ :=
        captureStones_spec (s1.board.set row col color) row col (opponentOf color)
          (opponentOf_ne_empty color) []
      have hb1 : (s1.board.set row col color).get row col = color :=
        Grid.get_set_same _ _ _ _ hin
      have hold : ∀ q ∈ L, InB q.1 q.2 ∧ s1.board.get q.1 q.2 = opponentOf color ∧
          q ≠ (row, col) := by
        intro q hq
        obtain ⟨hqin, hqc⟩ := captured_cell _ _ _ _ _ ((hiff q).1 hq)
        have hne : q ≠ (row, col) := by
          rintro rfl
          rw [hb1] at hqc
          exact opponentOf_ne_self color hqc.symm
        refine ⟨hqin, ?_, hne⟩
        rw [Grid.get_set_ne] at hqc
        · exact hqc
        · rintro ⟨h3, h4⟩; exact hne (Prod.ext h3 h4)
      have hposL : (row, col) ∉ L := fun h => (hold _ h).2.2 rfl
      have hko : (L.length = 1) →
          (hasLiberty (captureStones (s1.board.set row col color) row col (opponentOf color) []).2.1
            row col color (Grid.fill false)).1 = true := by
        intro hlen
        obtain ⟨q, hq⟩ := List.length_eq_one.1 hlen
        have hqL : q ∈ L := by rw [hq]; exact List.mem_singleton_self _
        have hadj : Adj (row, col) q := by
          apply captured_single _ _ _ _ _ ((hiff q).1 hqL)
          intro p' hp'
          have := (hiff p').2 hp'
          rw [hq] at this
          exact List.mem_singleton.1 this
        apply hasLiberty_complete
        have hposget := hget row col
        rw [if_neg hposL, hb1] at hposget
        have hqget := hget q.1 q.2
        rw [if_pos hqL] at hqget
        exact Lib.step (row, col) q hin hposget hadj (Lib.here q (hold q hqL).1 hqget)
      simp only [List.nil_append] at hcap
      refine ⟨L, ?_⟩
      revert hko hcnt hcap hget
      generalize hcs :
        captureStones (s1.board.set row col color) row col (opponentOf color) [] = cs
      obtain ⟨cnt, b2, capt⟩ := cs
      intro hcnt hcap hget hko
      simp only [] at hko hcnt hcap hget ⊢
      subst hcap hcnt
      have hkoval : (if ((capt.length : Int) = 1 ∧ capt.length = 1) then
            (if (hasLiberty b2 row col color (Grid.fill false)).1 = false then
              (true, capt.headD (-1, -1)) else (false, ((-1 : Int), (-1 : Int))))
          else (false, ((-1 : Int), (-1 : Int)))) = (false, ((-1 : Int), (-1 : Int))) := by
        by_cases hc : ((capt.length : Int) = 1 ∧ capt.length = 1)
        · rw [if_pos hc, hko hc.2]; simp
        · rw [if_neg hc]
      constructor
      · exact hemp
      · exact hnd
      · exact hiff
      · exact hold
      · rw [hcs]
      · rw [hcs]
      · intro r c
        simp only []
        rw [hget r c, Grid.get_set]
        by_cases h3 : (r, c) ∈ capt
        · rw [if_pos h3, if_pos h3]
        · rw [if_neg h3, if_neg h3]
          by_cases h4 : r = row ∧ c = col
          · rw [if_pos h4, if_pos ⟨h4.1, h4.2, hin⟩]
          · rw [if_neg h4, if_neg (fun h => h4 ⟨h.1, h.2.1⟩)]
      · rfl
      · rfl
      · rfl
      · rfl
      · rfl
      · rfl
      · simp only [hkoval]
      · simp only [hkoval]

/-! ## `undoMove` after an accepted move -/

theorem restoreCaptured_get (opp : StoneColor) (r c : Int) :
    ∀ (L : List Pos) (board : Board), (∀ p ∈ L, InB p.1 p.2) →
      (restoreCaptured board opp L).get r c = if (r, c) ∈ L then opp else board.get r c := by
  intro L
  induction L with
  | nil => intro board _; simp [restoreCaptured]
  | cons p rest ih =>
    intro board hin
    unfold restoreCaptured
    rw [ih _ (fun q hq => hin q (List.mem_cons_of_mem _ hq))]
    by_cases h1 : (r, c) ∈ rest
    · rw [if_pos h1, if_pos (List.mem_cons_of_mem _ h1)]
    · rw [if_neg h1, Grid.get_set]
      by_cases h2 : (r, c) = p
      · subst h2
        rw [if_pos ⟨rfl, rfl, hin _ (List.mem_cons_self _ _)⟩, if_pos (List.mem_cons_self _ _)]
      · have h3 : ¬ (r = p.1 ∧ c = p.2 ∧ InB p.1 p.2) := by
          rintro ⟨rfl, rfl, _⟩; exact h2 rfl
        have h4 : (r, c) ∉ p :: rest := by
          intro h; rcases List.mem_cons.1 h with h | h
          · exact h2 h
          · exact h1 h
        rw [if_neg h3, if_neg h4]

theorem getLastD_concat {α : Type} (l : List α) (a d : α) : (l ++ [a]).getLastD d = a := by
  induction l generalizing d with
  | nil => rfl
  | cons b l ih =>
    cases l with
    | nil => rfl
    | cons c l => simp [List.getLastD]

theorem GoBoard.eq_of_fields (s t : GoBoard)
    (h1 : ∀ r c, InB r c → s.board.get r c = t.board.get r c)
    (h2 : s.currentPlayer = t.currentPlayer) (h3 : s.moveHistory = t.moveHistory)
    (h4 : s.moveColors = t.moveColors)
    (h5 : s.capturedStonesHistory = t.capturedStonesHistory)
    (h6 : s.blackCount = t.blackCount) (h7 : s.whiteCount = t.whiteCount)
    (h8 : s.inKo = t.inKo) (h9 : s.koPosition = t.koPosition) : s = t := by
  have hb : s.board = t.board := Grid.ext_get _ _ h1
  cases s; cases t
  simp only [] at hb h2 h3 h4 h5 h6 h7 h8 h9
  subst hb h2 h3 h4 h5 h6 h7 h8 h9
  rfl

theorem mousePressEvent_ok (s : GoBoard) (row col : Int) (hin : InB row col)
    (hok : (placeStone s row col s.currentPlayer).ok = true) :
    mousePressEvent s row col true =
      { (placeStone s row col s.currentPlayer).state with
        currentPlayer :=
          if (placeStone s row col s.currentPlayer).state.currentPlayer = BLACK then WHITE
          else BLACK } := by
  have hc : convertPosToRowCol row col true = true := by
    unfold convertPosToRowCol
    rw [if_neg (by decide), if_pos hin]
  unfold mousePressEvent
  rw [if_pos hc]
  simp only []
  rw [if_pos hok]

theorem mousePressEvent_rejected (s : GoBoard) (row col : Int) (tol : Bool)
    (hok : (placeStone s row col s.currentPlayer).ok = false) :
    mousePressEvent s row col tol = s := by
  unfold mousePressEvent
  by_cases hc : convertPosToRowCol row col tol = true
  · rw [if_pos hc]
    simp only []
    rw [if_neg (by rw [hok]; decide)]
    exact placeStone_rejected _ _ _ _ hok
  · rw [if_neg hc]

theorem mousePressEvent_off (s : GoBoard) (row col : Int) (tol : Bool)
    (hc : convertPosToRowCol row col tol = false) : mousePressEvent s row col tol = s := by
  unfold mousePressEvent
  rw [if_neg (by rw [hc]; decide)]

theorem convertPosToRowCol_true (row col : Int) (tol : Bool)
    (h : convertPosToRowCol row col tol = true) : tol = true ∧ InB row col := by
  unfold convertPosToRowCol at h
  by_cases h1 : tol = false
  · rw [if_pos h1] at h; exact Bool.noConfusion h
  · rw [if_neg h1] at h
    by_cases h2 : row ≥ 0 ∧ row < BOARD_SIZE ∧ col ≥ 0 ∧ col < BOARD_SIZE
    · exact ⟨by simpa using h1, h2⟩
    · rw [if_neg h2] at h; exact Bool.noConfusion h

theorem undo_after_move (s : GoBoard) (row col : Int) (hin : InB row col)
    (hok : (placeStone s row col s.currentPlayer).ok = true)
    (hko : s.inKo = false) (hkp : s.koPosition = (-1, -1)) :
    undoMove (mousePressEvent s row col true) = (none, s) := by
  obtain ⟨L, hp⟩ := placeStone_ok_spec s row col s.currentPlayer hin hok
  rw [mousePressEvent_ok s row col hin hok]
  generalize (placeStone s row col s.currentPlayer).state = t at hp
  unfold undoMove
  simp only [hp.history, hp.colors, hp.captures, getLastD_concat, List.dropLast_concat]
  have hne : (s.moveHistory ++ [(row, col)]).isEmpty = false := by
    cases s.moveHistory <;> rfl
  rw [if_neg (by rw [hne]; decide)]
  refine Prod.ext rfl ?_
  simp only []
  have hLin : ∀ p ∈ L, InB p.1 p.2 := fun p hpL => (hp.cap_old p hpL).1
  apply GoBoard.eq_of_fields
  · intro r c _
    simp only []
    rw [Grid.get_set, restoreCaptured_get _ _ _ _ _ hLin, hp.board_get]
    by_cases h1 : r = row ∧ c = col
    · obtain ⟨rfl, rfl⟩ := h1
      rw [if_pos ⟨rfl, rfl, hin⟩, hp.empty_before]
    · rw [if_neg (fun h => h1 ⟨h.1, h.2.1⟩)]
      by_cases h2 : (r, c) ∈ L
      · rw [if_pos h2, (hp.cap_old _ h2).2.1]
      · rw [if_neg h2, if_neg h2, if_neg h1]
  · rfl
  · rfl
  · rfl
  · rfl
  · simp only [hp.black]
    by_cases hc : s.currentPlayer = BLACK
    · rw [if_pos hc, if_pos hc]; omega
    · rw [if_neg hc, if_neg hc]; omega
  · simp only [hp.white]
    by_cases hc : s.currentPlayer = BLACK
    · rw [if_pos hc, if_pos hc]; omega
    · rw [if_neg hc, if_neg hc]; omega
  · exact hko.symm
  · exact hkp.symm

/-! ## Counting stones -/

theorem mem_cells (p : Pos) : p ∈ cells ↔ InB p.1 p.2 := by
  unfold cells InB BOARD_SIZE
  rw [Finset.mem_product, Finset.mem_Icc, Finset.mem_Icc]
  omega

theorem count_placed (b bn : Board) (row col : Int) (color : StoneColor) (L : List Pos)
    (hin : InB row col) (hne : color ≠ EMPTY) (hnd : L.Nodup)
    (hemp : b.get row col = EMPTY)
    (hold : ∀ q ∈ L, InB q.1 q.2 ∧ b.get q.1 q.2 = opponentOf color ∧ q ≠ (row, col))
    (hget : ∀ r c, bn.get r c =
      if (r, c) ∈ L then EMPTY else if r = row ∧ c = col then color else b.get r c) :
    countStones bn color = countStones b color + 1 ∧
    countStones bn (opponentOf color) + L.length = countStones b (opponentOf color) := by
  have hoc := opponentOf_ne_self color
  have hoe := opponentOf_ne_empty color
  constructor
  · unfold countStones
    have hnot : (row, col) ∉ cells.filter (fun p => b.get p.1 p.2 = color) := by
      rw [Finset.mem_filter]
      rintro ⟨_, h⟩
      simp only [] at h
      rw [hemp] at h; exact hne h.symm
    rw [← Finset.card_insert_of_not_mem hnot]
    congr 1
    ext p
    rw [Finset.mem_insert, Finset.mem_filter, Finset.mem_filter, hget p.1 p.2]
    by_cases h1 : (p.1, p.2) ∈ L
    · rw [if_pos h1]
      obtain ⟨_, h3, h4⟩ := hold _ h1
      constructor
      · rintro ⟨_, h⟩; exact absurd h.symm hne
      · rintro (h | ⟨_, h⟩)
        · exact absurd h h4
        · simp only [] at h3
          rw [h3] at h; exact absurd h hoc
    · rw [if_neg h1]
      by_cases h2 : p.1 = row ∧ p.2 = col
      · rw [if_pos h2]
        constructor
        · intro _; exact Or.inl (Prod.ext h2.1 h2.2)
        · intro _; exact ⟨(mem_cells p).2 (by rw [h2.1, h2.2]; exact hin), rfl⟩
      · rw [if_neg h2]
        constructor
        · intro h; exact Or.inr h
        · rintro (h | h)
          · exact absurd ⟨congrArg Prod.fst h, congrArg Prod.snd h⟩ h2
          · exact h
  · unfold countStones
    have hsub : L.toFinset ⊆ cells.filter (fun p => b.get p.1 p.2 = opponentOf color) := by
      intro p hp
      rw [List.mem_toFinset] at hp
      rw [Finset.mem_filter]
      exact ⟨(mem_cells p).2 (hold p hp).1, (hold p hp).2.1⟩
    have heq : cells.filter (fun p => bn.get p.1 p.2 = opponentOf color)
        = cells.filter (fun p => b.get p.1 p.2 = opponentOf color) \ L.toFinset := by
      ext p
      rw [Finset.mem_sdiff, Finset.mem_filter, Finset.mem_filter, List.mem_toFinset,
        hget p.1 p.2]
      by_cases h1 : (p.1, p.2) ∈ L
      · rw [if_pos h1]
        constructor
        · rintro ⟨_, h⟩; exact absurd h.symm hoe
        · rintro ⟨_, h⟩; exact absurd h1 h
      · rw [if_neg h1]
        by_cases h2 : p.1 = row ∧ p.2 = col
        · rw [if_pos h2]
          constructor
          · rintro ⟨_, h⟩; exact absurd h.symm hoc
          · rintro ⟨⟨_, h⟩, _⟩
            rw [h2.1, h2.2, hemp] at h; exact absurd h.symm hoe
        · rw [if_neg h2]
          constructor
          · intro h; exact ⟨h, h1⟩
          · intro h; exact h.1
    rw [heq, Finset.card_sdiff hsub, List.toFinset_card_of_nodup hnd]
    have := Finset.card_le_card hsub
    rw [List.toFinset_card_of_nodup hnd] at this
    omega

theorem countStones_fill (color : StoneColor) (hne : color ≠ EMPTY) :
    countStones (Grid.fill EMPTY) color = 0 := by
  unfold countStones
  rw [Finset.card_eq_zero, Finset.filter_eq_empty_iff]
  intro p _ h
  rw [Grid.get_fill_empty] at h
  exact hne h.symm

/-! ## Invariants of the states built by accepted moves -/

theorem getElem?_concat {α : Type} (l : List α) (a x : α) (i : Nat) :
    (l ++ [a])[i]? = some x ↔ (i < l.length ∧ l[i]? = some x) ∨ (i = l.length ∧ a = x) := by
  rcases Nat.lt_trichotomy i l.length with h | h | h
  · rw [List.getElem?_append_left h]
    constructor
    · intro h1; exact Or.inl ⟨h, h1⟩
    · rintro (⟨_, h1⟩ | ⟨h1, _⟩)
      · exact h1
      · omega
  · subst h
    rw [List.getElem?_append_right (le_refl _)]
    simp
  · rw [List.getElem?_append_right (le_of_lt h)]
    have : i - l.length ≠ 0 := by omega
    constructor
    · intro h1
      obtain ⟨k, hk⟩ := Nat.exists_eq_succ_of_ne_zero this
      rw [hk] at h1; simp at h1
    · rintro (⟨h1, _⟩ | ⟨h1, _⟩) <;> omega

theorem getElem?_lt {α : Type} (l : List α) (x : α) (i : Nat) (h : l[i]? = some x) :
    i < l.length := by
  by_contra h1
  rw [List.getElem?_eq_none (by omega)] at h
  exact Option.noConfusion h

theorem liveAt_after_move (s t : GoBoard) (pos : Pos) (L : List Pos)
    (hlen : s.capturedStonesHistory.length = s.moveHistory.length)
    (hh : t.moveHistory = s.moveHistory ++ [pos])
    (hc : t.capturedStonesHistory = s.capturedStonesHistory ++ [L]) (q : Pos) (i : Nat) :
    LiveAt t q i ↔
      (i < s.moveHistory.length ∧ LiveAt s q i ∧ q ∉ L) ∨ (i = s.moveHistory.length ∧ q = pos) := by
  unfold LiveAt
  rw [hh, hc, getElem?_concat]
  constructor
  · rintro ⟨h1 | h1, h2⟩
    · refine Or.inl ⟨h1.1, ⟨h1.2, ?_⟩, ?_⟩
      · intro j hj L1 hL1
        have hjlt := getElem?_lt _ _ _ hL1
        exact h2 j hj L1 ((getElem?_concat _ _ _ _).2 (Or.inl ⟨hjlt, hL1⟩))
      · exact h2 s.moveHistory.length h1.1 L
          ((getElem?_concat _ _ _ _).2 (Or.inr ⟨hlen.symm, rfl⟩))
    · exact Or.inr ⟨h1.1, h1.2.symm⟩
  · rintro (⟨h1, ⟨h2, h3⟩, h4⟩ | ⟨h1, h2⟩)
    · refine ⟨Or.inl ⟨h1, h2⟩, ?_⟩
      intro j hj L1 hL1
      rcases (getElem?_concat _ _ _ _).1 hL1 with ⟨_, h5⟩ | ⟨_, h5⟩
      · exact h3 j hj L1 h5
      · rw [← h5]; exact h4
    · refine ⟨Or.inr ⟨h1, h2.symm⟩, ?_⟩
      intro j hj L1 hL1
      have := getElem?_lt _ _ _ hL1
      rw [List.length_append, List.length_singleton] at this
      omega

theorem playedInv_init (s0 : GoBoard) : PlayedInv (initBoard s0) := by
  constructor
  · rfl
  · rfl
  · exact Or.inl rfl
  · rfl
  · rfl
  · show (0 : Int) = ((countStones (Grid.fill EMPTY) BLACK : Nat) : Int)
    rw [countStones_fill BLACK (by decide)]; rfl
  · show (0 : Int) = ((countStones (Grid.fill EMPTY) WHITE : Nat) : Int)
    rw [countStones_fill WHITE (by decide)]; rfl
  · intro q
    constructor
    · intro h; exact absurd (Grid.get_fill_empty _ _) h
    · rintro ⟨i, h, _⟩
      exact Option.noConfusion h
  · intro q i h
    exact Option.noConfusion h.1

theorem playedInv_move (s : GoBoard) (row col : Int) (hs : PlayedInv s) (hin : InB row col)
    (hok : (placeStone s row col s.currentPlayer).ok = true) :
    PlayedInv (mousePressEvent s row col true) := by
  obtain ⟨L, hp⟩ := placeStone_ok_spec s row col s.currentPlayer hin hok
  rw [mousePressEvent_ok s row col hin hok]
  generalize (placeStone s row col s.currentPlayer).state = t at hp
  have hcne : s.currentPlayer ≠ EMPTY := by
    rcases hs.player with h | h <;> rw [h] <;> decide
  obtain ⟨hc1, hc2⟩ := count_placed s.board t.board row col s.currentPlayer L hin hcne hp.nodup
    hp.empty_before hp.cap_old hp.board_get
  have hposL : (row, col) ∉ L := fun h => (hp.cap_old _ h).2.2 rfl
  have hlive := liveAt_after_move s t (row, col) L hs.len_caps hp.history hp.captures
  have hlive2 : ∀ q i, LiveAt { t with currentPlayer :=
      if t.currentPlayer = BLACK then WHITE else BLACK } q i ↔ LiveAt t q i := fun _ _ => Iff.rfl
  constructor
  · exact hp.ko
  · exact hp.koPos
  · simp only []
    by_cases h : t.currentPlayer = BLACK
    · rw [if_pos h]; exact Or.inr rfl
    · rw [if_neg h]; exact Or.inl rfl
  · simp only [hp.colors, hp.history, List.length_append, List.length_singleton, hs.len_colors]
  · simp only [hp.captures, hp.history, List.length_append, List.length_singleton, hs.len_caps]
  · simp only [hp.black]
    rcases hs.player with h | h
    · rw [h] at hc1; rw [if_pos h, hs.black, hc1]; push_cast; rfl
    · rw [h] at hc2
      rw [if_neg (by rw [h]; decide), hs.black]
      have : opponentOf WHITE = BLACK := rfl
      rw [this] at hc2
      omega
  · simp only [hp.white]
    rcases hs.player with h | h
    · rw [h] at hc2
      rw [if_pos h, hs.white]
      have : opponentOf BLACK = WHITE := rfl
      rw [this] at hc2
      omega
    · rw [h] at hc1; rw [if_neg (by rw [h]; decide), hs.white, hc1]; push_cast; rfl
  · intro q
    rw [show (∃ i, LiveAt { t with currentPlayer :=
      if t.currentPlayer = BLACK then WHITE else BLACK } q i) ↔ ∃ i, LiveAt t q i from Iff.rfl]
    simp only []
    rw [hp.board_get q.1 q.2]
    by_cases h1 : (q.1, q.2) ∈ L
    · rw [if_pos h1]
      constructor
      · intro h; exact absurd rfl h
      · rintro ⟨i, hi⟩
        rcases (hlive q i).1 hi with ⟨_, _, h2⟩ | ⟨_, h2⟩
        · exact absurd h1 h2
        · rw [h2] at h1; exact absurd h1 hposL
    · rw [if_neg h1]
      by_cases h2 : q.1 = row ∧ q.2 = col
      · rw [if_pos h2]
        constructor
        · intro _
          exact ⟨s.moveHistory.length, (hlive q _).2 (Or.inr ⟨rfl, Prod.ext h2.1 h2.2⟩)⟩
        · intro _; exact hcne
      · rw [if_neg h2, hs.live q]
        constructor
        · rintro ⟨i, hi⟩
          exact ⟨i, (hlive q i).2 (Or.inl ⟨getElem?_lt _ _ _ hi.1, hi, h1⟩)⟩
        · rintro ⟨i, hi⟩
          rcases (hlive q i).1 hi with ⟨_, h3, _⟩ | ⟨_, h3⟩
          · exact ⟨i, h3⟩
          · exact absurd ⟨congrArg Prod.fst h3, congrArg Prod.snd h3⟩ h2
  · intro q i hi
    have hi1 : LiveAt t q i := hi
    simp only []
    rw [hp.colors, hp.board_get q.1 q.2]
    rcases (hlive q i).1 hi1 with ⟨h1, h2, h3⟩ | ⟨h1, h2⟩
    · have hne : s.board.get q.1 q.2 ≠ EMPTY := (hs.live q).2 ⟨i, h2⟩
      have hqp : ¬ (q.1 = row ∧ q.2 = col) := by
        rintro ⟨h4, h5⟩
        rw [h4, h5] at hne
        exact hne hp.empty_before
      rw [if_neg h3, if_neg hqp, List.getElem?_append_left (by rw [hs.len_colors]; exact h1)]
      exact hs.live_color q i h2
    · subst h2
      rw [if_neg hposL, if_pos ⟨rfl, rfl⟩, h1, ← hs.len_colors,
        List.getElem?_append_right (le_refl _)]
      simp

theorem played_inv (s : GoBoard) (h : Played s) : PlayedInv s := by
  induction h with
  | init s0 => exact playedInv_init s0
  | move s row col _ hin hok ih => exact playedInv_move s row col ih hin hok

theorem undoMove_init (s0 : GoBoard) :
    undoMove (initBoard s0) = (some Message.emptyHistory, initBoard s0) := rfl

theorem played_undo (s : GoBoard) (h : Played s) : Played (undoMove s).2 := by
  cases h with
  | init s0 => rw [undoMove_init]; exact Played.init s0
  | move s row col hs hin hok =>
    have hi := played_inv s hs
    rw [undo_after_move s row col hin hok hi.ko hi.koPos]
    exact hs

theorem played_click (s : GoBoard) (h : Played s) (row col : Int) (tol : Bool) :
    Played (mousePressEvent s row col tol) := by
  by_cases hc : convertPosToRowCol row col tol = true
  · obtain ⟨rfl, hin⟩ := convertPosToRowCol_true row col tol hc
    by_cases hok : (placeStone s row col s.currentPlayer).ok = true
    · exact Played.move s row col h hin hok
    · rw [mousePressEvent_rejected s row col true (by simpa using hok)]
      exact h
  · rw [mousePressEvent_off s row col tol (by simpa using hc)]
    exact h

theorem reachable_played (s : GoBoard) (h : Reachable s) : Played s := by
  induction h with
  | init s0 => exact Played.init s0
  | click s row col tol _ ih => exact played_click s ih row col tol
  | undo s _ ih => exact played_undo s ih

theorem reachable_inv (s : GoBoard) (h : Reachable s) : PlayedInv s :=
  played_inv s (reachable_played s h)

/-! ## Properties of the move / undo cycle -/

theorem cornerSetup_reachable : Reachable cornerSetup :=
  Reachable.click _ 1 0 true
    (Reachable.click _ 1 1 true
      (Reachable.click _ 0 1 true (Reachable.click _ 0 2 true (Reachable.init blank))))

theorem cornerTaken_reachable : Reachable cornerTaken :=
  Reachable.click _ 0 0 true cornerSetup_reachable

/-- C1: in every reachable state, an accepted move of the current player at an
in-bounds position (placeStone plus the turn toggle of mousePressEvent) that is
immediately undone gives back the state before the move: board, both counters,
ko flag and ko position, current player and the three history vectors. -/
theorem undo_roundtrip (s : GoBoard) (hr : Reachable s) (row col : Int) (hin : InB row col)
    (hok : (placeStone s row col s.currentPlayer).ok = true) :
    undoMove (mousePressEvent s row col true) = (none, s) :=
  undo_after_move s row col hin hok (reachable_inv s hr).ko (reachable_inv s hr).koPos

theorem undo_roundtrip_witness :
    (placeStone cornerSetup 0 0 cornerSetup.currentPlayer).ok = true ∧
    undoMove (mousePressEvent cornerSetup 0 0 true) = (none, cornerSetup) :=
  ⟨by decide, undo_roundtrip cornerSetup cornerSetup_reachable 0 0 (by decide) (by decide)⟩

/-- C2: in every reachable state (any interleaving of clicks and undos after
initBoard) blackCount is the number of BLACK cells of the board and whiteCount
the number of WHITE cells. -/
theorem counters_match_recount (s : GoBoard) (hr : Reachable s) :
    s.blackCount = (countStones s.board BLACK : Int) ∧
    s.whiteCount = (countStones s.board WHITE : Int) :=
  ⟨(reachable_inv s hr).black, (reachable_inv s hr).white⟩

theorem counters_match_recount_witness :
    (undoState cornerTaken).blackCount = (countStones (undoState cornerTaken).board BLACK : Int) ∧
    (undoState cornerTaken).whiteCount = (countStones (undoState cornerTaken).board WHITE : Int) :=
  counters_match_recount (undoState cornerTaken) (Reachable.undo _ cornerTaken_reachable)

/-- C7: placeStone on an in-bounds cell that is not EMPTY returns false with
the occupied-cell message and leaves the whole state (board, counters, ko,
current player, history) as it was; so does the click. -/
theorem occupied_rejected (s : GoBoard) (row col : Int) (color : StoneColor)
    (withinTolerance : Bool) (_hin : InB row col) (hocc : s.board.get row col ≠ EMPTY) :
    placeStone s row col color =
      { ok := false, msg := some Message.occupiedCell, state := s } ∧
    mousePressEvent s row col withinTolerance = s := by
  have h1 : ∀ c, placeStone s row col c =
      { ok := false, msg := some Message.occupiedCell, state := s } := by
    intro c
    unfold placeStone
    rw [if_pos hocc]
  refine ⟨h1 color, ?_⟩
  apply mousePressEvent_rejected
  rw [h1]

theorem occupied_rejected_witness :
    placeStone cornerTaken 1 1 WHITE =
      { ok := false, msg := some Message.occupiedCell, state := cornerTaken } ∧
    mousePressEvent cornerTaken 1 1 true = cornerTaken :=
  occupied_rejected cornerTaken 1 1 WHITE true (by decide) (by decide)

/-- C8: when the move attempt of the current player c at an in-bounds position
is accepted, the cell holds c afterwards, each history vector has grown by
exactly one entry at its end (the position, c, and the list captureStones
appended when run against the opposing colour), the board is the one
captureStones left, the captured list is exactly the set of cells that were
removed, and the turn has passed to the opposite colour. -/
theorem accepted_move_effect (s : GoBoard) (row col : Int) (hin : InB row col)
    (hok : (placeStone s row col s.currentPlayer).ok = true) :
    (mousePressEvent s row col true).board.get row col = s.currentPlayer ∧
    (mousePressEvent s row col true).moveHistory = s.moveHistory ++ [(row, col)] ∧
    (mousePressEvent s row col true).moveColors = s.moveColors ++ [s.currentPlayer] ∧
    (mousePressEvent s row col true).capturedStonesHistory =
      s.capturedStonesHistory ++
        [(captureStones (s.board.set row col s.currentPlayer) row col
          (opponentOf s.currentPlayer) []).2.2] ∧
    (mousePressEvent s row col true).board =
      (captureStones (s.board.set row col s.currentPlayer) row col
        (opponentOf s.currentPlayer) []).2.1 ∧
    (∀ q : Pos,
      q ∈ (captureStones (s.board.set row col s.currentPlayer) row col
          (opponentOf s.currentPlayer) []).2.2 ↔
        ((s.board.set row col s.currentPlayer).get q.1 q.2 ≠ EMPTY ∧
          (mousePressEvent s row col true).board.get q.1 q.2 = EMPTY)) ∧
    (mousePressEvent s row col true).currentPlayer =
      (if s.currentPlayer = BLACK then WHITE else BLACK) := by
  obtain ⟨L, hp⟩ := placeStone_ok_spec s row col s.currentPlayer hin hok
  rw [mousePressEvent_ok s row col hin hok]
  generalize (placeStone s row col s.currentPlayer).state = t at hp
  have hposL : (row, col) ∉ L := fun h => (hp.cap_old _ h).2.2 rfl
  simp only []
  refine ⟨?_, hp.history, hp.colors, ?_, hp.board_eq, ?_, ?_⟩
  · rw [hp.board_get, if_neg hposL, if_pos ⟨rfl, rfl⟩]
  · rw [hp.captures, hp.cap_eq]
  · intro q
    rw [hp.cap_eq, hp.board_get q.1 q.2]
    constructor
    · intro hq
      have hq1 : (q.1, q.2) ∈ L := hq
      rw [if_pos hq1]
      obtain ⟨_, hc⟩ := captured_cell _ _ _ _ _ ((hp.cap_iff q).1 hq)
      rw [hc]
      exact ⟨opponentOf_ne_empty _, rfl⟩
    · rintro ⟨h1, h2⟩
      by_contra hq
      have hq1 : (q.1, q.2) ∉ L := hq
      rw [if_neg hq1] at h2
      rw [Grid.get_set] at h1
      by_cases h3 : q.1 = row ∧ q.2 = col
      · rw [if_pos h3] at h2
        rw [if_pos ⟨h3.1, h3.2, hin⟩] at h1
        exact h1 h2
      · rw [if_neg h3] at h2
        rw [if_neg (fun h => h3 ⟨h.1, h.2.1⟩)] at h1
        exact h1 h2
  · rw [hp.player]

theorem accepted_move_effect_witness :
    (mousePressEvent cornerSetup 0 0 true).board.get 0 0 = cornerSetup.currentPlayer ∧
    (mousePressEvent cornerSetup 0 0 true).moveHistory = cornerSetup.moveHistory ++ [(0, 0)] ∧
    (mousePressEvent cornerSetup 0 0 true).moveColors =
      cornerSetup.moveColors ++ [cornerSetup.currentPlayer] ∧
    (mousePressEvent cornerSetup 0 0 true).capturedStonesHistory =
      cornerSetup.capturedStonesHistory ++
        [(captureStones (cornerSetup.board.set 0 0 cornerSetup.currentPlayer) 0 0
          (opponentOf cornerSetup.currentPlayer) []).2.2] ∧
    (mousePressEvent cornerSetup 0 0 true).board =
      (captureStones (cornerSetup.board.set 0 0 cornerSetup.currentPlayer) 0 0
        (opponentOf cornerSetup.currentPlayer) []).2.1 ∧
    (∀ q : Pos,
      q ∈ (captureStones (cornerSetup.board.set 0 0 cornerSetup.currentPlayer) 0 0
          (opponentOf cornerSetup.currentPlayer) []).2.2 ↔
        ((cornerSetup.board.set 0 0 cornerSetup.currentPlayer).get q.1 q.2 ≠ EMPTY ∧
          (mousePressEvent cornerSetup 0 0 true).board.get q.1 q.2 = EMPTY)) ∧
    (mousePressEvent cornerSetup 0 0 true).currentPlayer =
      (if cornerSetup.currentPlayer = BLACK then WHITE else BLACK) :=
  accepted_move_effect cornerSetup 0 0 (by decide) (by decide)

theorem undoMove_pops (a : GoBoard) (h : a.moveHistory ≠ []) :
    (undoMove a).1 = none ∧
    (undoState a).moveHistory = a.moveHistory.dropLast ∧
    (undoState a).moveColors = a.moveColors.dropLast ∧
    (undoState a).capturedStonesHistory = a.capturedStonesHistory.dropLast := by
  have hne : ¬ (a.moveHistory.isEmpty = true) := by
    rw [List.isEmpty_iff]; exact h
  unfold undoState undoMove
  rw [if_neg hne]
  exact ⟨rfl, rfl, rfl, rfl⟩

theorem undoState_length (a : GoBoard) :
    (undoState a).moveHistory.length = a.moveHistory.length - 1 := by
  by_cases h : a.moveHistory = []
  · have h1 : undoState a = a := by
      unfold undoState undoMove
      rw [if_pos (by rw [h]; rfl)]
    rw [h1, h]; rfl
  · rw [(undoMove_pops a h).2.1, List.length_dropLast]

theorem undoState_iter_length (s : GoBoard) (k : Nat) :
    (undoState^[k] s).moveHistory.length = s.moveHistory.length - k := by
  induction k with
  | zero => rfl
  | succ k ih =>
    rw [Function.iterate_succ_apply', undoState_length, ih]
    omega

theorem played_undo_all (s : GoBoard) (h : Played s) :
    undoState^[s.moveHistory.length] s = initBoard s := by
  induction h with
  | init s0 => rfl
  | move s row col hs hin hok ih =>
    have hi := played_inv s hs
    have hlen : (mousePressEvent s row col true).moveHistory.length
        = s.moveHistory.length + 1 := by
      obtain ⟨L, hp⟩ := placeStone_ok_spec s row col s.currentPlayer hin hok
      rw [mousePressEvent_ok s row col hin hok]
      simp only [hp.history, List.length_append, List.length_singleton]
    have hu : undoState (mousePressEvent s row col true) = s := by
      unfold undoState
      rw [undo_after_move s row col hin hok hi.ko hi.koPos]
    rw [hlen, Function.iterate_succ_apply, hu, ih]
    rfl

/-- C9: from a reachable state whose history holds n records, n calls of
undoMove lead to the empty starting state (every cell EMPTY, both counters 0,
the three history vectors empty, ko inactive, BLACK to move, which is the state
initBoard builds); and each of the n calls is a real undo that removes exactly
the last entry of each history vector. -/
theorem undo_all_returns_to_start (s : GoBoard) (hr : Reachable s) :
    (∀ r c, (undoState^[s.moveHistory.length] s).board.get r c = EMPTY) ∧
    (undoState^[s.moveHistory.length] s).blackCount = 0 ∧
    (undoState^[s.moveHistory.length] s).whiteCount = 0 ∧
    (undoState^[s.moveHistory.length] s).moveHistory = [] ∧
    (undoState^[s.moveHistory.length] s).moveColors = [] ∧
    (undoState^[s.moveHistory.length] s).capturedStonesHistory = [] ∧
    (undoState^[s.moveHistory.length] s).inKo = false ∧
    (undoState^[s.moveHistory.length] s).currentPlayer = BLACK ∧
    undoState^[s.moveHistory.length] s = initBoard s ∧
    ∀ k, k < s.moveHistory.length →
      (undoMove (undoState^[k] s)).1 = none ∧
      (undoState^[k] s).moveHistory.length = s.moveHistory.length - k ∧
      (undoState^[k] s).moveColors.length = s.moveHistory.length - k ∧
      (undoState^[k] s).capturedStonesHistory.length = s.moveHistory.length - k ∧
      (undoState^[k + 1] s).moveHistory = (undoState^[k] s).moveHistory.dropLast ∧
      (undoState^[k + 1] s).moveColors = (undoState^[k] s).moveColors.dropLast ∧
      (undoState^[k + 1] s).capturedStonesHistory =
        (undoState^[k] s).capturedStonesHistory.dropLast := by
  have hall := played_undo_all s (reachable_played s hr)
  rw [hall]
  refine ⟨fun r c => Grid.get_fill_empty r c, rfl, rfl, rfl, rfl, rfl, rfl, rfl, rfl, ?_⟩
  intro k hk
  have hreach : ∀ j, Reachable (undoState^[j] s) := by
    intro j
    induction j with
    | zero => exact hr
    | succ j ih =>
      rw [Function.iterate_succ_apply']
      exact Reachable.undo _ ih
  have hinv := reachable_inv _ (hreach k)
  have hlen := undoState_iter_length s k
  have hne : (undoState^[k] s).moveHistory ≠ [] := by
    intro h
    rw [h] at hlen
    simp only [List.length_nil] at hlen
    omega
  obtain ⟨h1, h2, h3, h4⟩ := undoMove_pops _ hne
  rw [Function.iterate_succ_apply']
  exact ⟨h1, hlen, by rw [hinv.len_colors, hlen], by rw [hinv.len_caps, hlen], h2, h3, h4⟩

theorem undo_all_returns_to_start_witness :
    (∀ r c, (undoState^[cornerTaken.moveHistory.length] cornerTaken).board.get r c = EMPTY) ∧
    (undoState^[cornerTaken.moveHistory.length] cornerTaken).blackCount = 0 ∧
    (undoState^[cornerTaken.moveHistory.length] cornerTaken).whiteCount = 0 ∧
    (undoState^[cornerTaken.moveHistory.length] cornerTaken).moveHistory = [] ∧
    (undoState^[cornerTaken.moveHistory.length] cornerTaken).moveColors = [] ∧
    (undoState^[cornerTaken.moveHistory.length] cornerTaken).capturedStonesHistory = [] ∧
    (undoState^[cornerTaken.moveHistory.length] cornerTaken).inKo = false ∧
    (undoState^[cornerTaken.moveHistory.length] cornerTaken).currentPlayer = BLACK ∧
    undoState^[cornerTaken.moveHistory.length] cornerTaken = initBoard cornerTaken ∧
    ∀ k, k < cornerTaken.moveHistory.length →
      (undoMove (undoState^[k] cornerTaken)).1 = none ∧
      (undoState^[k] cornerTaken).moveHistory.length = cornerTaken.moveHistory.length - k ∧
      (undoState^[k] cornerTaken).moveColors.length = cornerTaken.moveHistory.length - k ∧
      (undoState^[k] cornerTaken).capturedStonesHistory.length
        = cornerTaken.moveHistory.length - k ∧
      (undoState^[k + 1] cornerTaken).moveHistory
        = (undoState^[k] cornerTaken).moveHistory.dropLast ∧
      (undoState^[k + 1] cornerTaken).moveColors
        = (undoState^[k] cornerTaken).moveColors.dropLast ∧
      (undoState^[k + 1] cornerTaken).capturedStonesHistory =
        (undoState^[k] cornerTaken).capturedStonesHistory.dropLast :=
  undo_all_returns_to_start cornerTaken cornerTaken_reachable

/-- C10: in every reachable state a cell (r, c) is non-EMPTY exactly when some
history record placed a stone there and no later record lists (r, c) among its
captured positions; and the cell then holds the colour recorded for the latest
such record. -/
theorem cell_matches_history (s : GoBoard) (hr : Reachable s) (r c : Int) :
    (s.board.get r c ≠ EMPTY ↔ ∃ i, LiveAt s (r, c) i) ∧
    ∀ i, LiveAt s (r, c) i → (∀ k, LiveAt s (r, c) k → k ≤ i) →
      s.moveColors[i]? = some (s.board.get r c) :=
  ⟨(reachable_inv s hr).live (r, c), fun i hi _ => (reachable_inv s hr).live_color (r, c) i hi⟩

theorem cell_matches_history_witness :
    (cornerTaken.board.get 0 1 ≠ EMPTY ↔ ∃ i, LiveAt cornerTaken (0, 1) i) ∧
    ∀ i, LiveAt cornerTaken (0, 1) i → (∀ k, LiveAt cornerTaken (0, 1) k → k ≤ i) →
      cornerTaken.moveColors[i]? = some (cornerTaken.board.get 0 1) :=
  cell_matches_history cornerTaken cornerTaken_reachable 0 1

/-! ## Rejection of suicide -/

theorem canCapture_iff (board : Board) (opp : StoneColor) (row col : Int) :
    ∀ ds : List (Int × Int), canCapture board opp row col ds = true ↔
      ∃ d ∈ ds, InB (row + d.1) (col + d.2) ∧ board.get (row + d.1) (col + d.2) = opp ∧
        (hasLiberty board (row + d.1) (col + d.2) opp (Grid.fill false)).1 = false := by
  intro ds
  induction ds with
  | nil => simp [canCapture]
  | cons d ds ih =>
    unfold canCapture
    simp only []
    by_cases h1 : InB (row + d.1) (col + d.2) ∧ board.get (row + d.1) (col + d.2) = opp
    · rw [if_pos h1]
      by_cases h2 : (hasLiberty board (row + d.1) (col + d.2) opp (Grid.fill false)).1 = false
      · rw [if_pos h2]
        exact ⟨fun _ => ⟨d, List.mem_cons_self _ _, h1.1, h1.2, h2⟩, fun _ => rfl⟩
      · rw [if_neg h2, ih]
        constructor
        · rintro ⟨e, he, h⟩; exact ⟨e, List.mem_cons_of_mem _ he, h⟩
        · rintro ⟨e, he, h⟩
          rcases List.mem_cons.1 he with rfl | he
          · exact absurd h.2.2 h2
          · exact ⟨e, he, h⟩
    · rw [if_neg h1, ih]
      constructor
      · rintro ⟨e, he, h⟩; exact ⟨e, List.mem_cons_of_mem _ he, h⟩
      · rintro ⟨e, he, h⟩
        rcases List.mem_cons.1 he with rfl | he
        · exact absurd ⟨h.1, h.2.1⟩ h1
        · exact ⟨e, he, h⟩

theorem isValidMove_true_iff (s : GoBoard) (row col : Int) (hemp : s.board.get row col = EMPTY) :
    (isValidMove s row col).1 = true ↔
      (hasLiberty (s.board.set row col s.currentPlayer) row col s.currentPlayer
          (Grid.fill false)).1 = true ∨
      canCapture (s.board.set row col s.currentPlayer) (opponentOf s.currentPlayer)
          row col dirs = true := by
  unfold isValidMove
  rw [if_neg (by rw [hemp]; exact fun h => h rfl)]
  simp only []
  by_cases h : (hasLiberty (s.board.set row col s.currentPlayer) row col s.currentPlayer
      (Grid.fill false)).1 = false
  · rw [if_pos h, h]; simp
  · rw [if_neg h]
    have h1 : (hasLiberty (s.board.set row col s.currentPlayer) row col s.currentPlayer
        (Grid.fill false)).1 = true := by simpa using h
    rw [h1]; simp

theorem hasLiberty_false_of_zero (board : Board) (color : StoneColor) (hne : color ≠ EMPTY)
    (n : Pos) (hin : InB n.1 n.2) (hcol : board.get n.1 n.2 = color) :
    (hasLiberty board n.1 n.2 color (Grid.fill false)).1 = false ↔ ZeroLiberty board color n := by
  rw [zeroLiberty_iff_not_lib board color hne n hin hcol, ← hasLiberty_fresh_iff]
  simp

theorem suicide_rejected_any_state (s : GoBoard) (row col : Int) (withinTolerance : Bool)
    (hin : InB row col) (hemp : s.board.get row col = EMPTY)
    (hpl : s.currentPlayer ≠ EMPTY)
    (hself : ZeroLiberty (s.board.set row col s.currentPlayer) s.currentPlayer (row, col))
    (hopp : ∀ n : Pos, Adj (row, col) n → InB n.1 n.2 →
      (s.board.set row col s.currentPlayer).get n.1 n.2 = opponentOf s.currentPlayer →
      ¬ ZeroLiberty (s.board.set row col s.currentPlayer) (opponentOf s.currentPlayer) n) :
    placeStone s row col s.currentPlayer =
      { ok := false
        msg := some (if s.inKo = true ∧ row = s.koPosition.1 ∧ col = s.koPosition.2
          then Message.koViolation else Message.suicideMove)
        state := s } ∧
    mousePressEvent s row col withinTolerance = s := by
  have hb1 : (s.board.set row col s.currentPlayer).get row col = s.currentPlayer :=
    Grid.get_set_same _ _ _ _ hin
  have hl : (hasLiberty (s.board.set row col s.currentPlayer) row col s.currentPlayer
      (Grid.fill false)).1 = false :=
    (hasLiberty_false_of_zero _ _ hpl (row, col) hin hb1).2 hself
  have hc : canCapture (s.board.set row col s.currentPlayer) (opponentOf s.currentPlayer)
      row col dirs = false := by
    by_contra h
    obtain ⟨d, hd, h1, h2, h3⟩ := (canCapture_iff _ _ _ _ _).1 (by simpa using h)
    exact hopp (row + d.1, col + d.2) ⟨d, hd, rfl⟩ h1 h2
      ((hasLiberty_false_of_zero _ _ (opponentOf_ne_empty _) (row + d.1, col + d.2) h1 h2).1 h3)
  have hv : (isValidMove s row col).1 = false := by
    by_contra h
    rcases (isValidMove_true_iff s row col hemp).1 (by simpa using h) with h1 | h1
    · rw [hl] at h1; exact Bool.noConfusion h1
    · rw [hc] at h1; exact Bool.noConfusion h1
  have hp : placeStone s row col s.currentPlayer =
      { ok := false
        msg := some (if s.inKo = true ∧ row = s.koPosition.1 ∧ col = s.koPosition.2
          then Message.koViolation else Message.suicideMove)
        state := s } := by
    unfold placeStone
    rw [if_neg (by rw [hemp]; exact fun h => h rfl)]
    by_cases hko : s.inKo = true ∧ row = s.koPosition.1 ∧ col = s.koPosition.2
    · rw [if_pos hko, if_pos hko]
    · rw [if_neg hko, if_neg hko]
      have hs := isValidMove_state s row col
      cases hiv : isValidMove s row col with
      | mk b s1 =>
        rw [hiv] at hs hv
        simp only [] at hs hv
        subst hs hv
        rfl
  refine ⟨hp, ?_⟩
  apply mousePressEvent_rejected
  rw [hp]

/-- C6: in every state the program can reach, for an in-bounds EMPTY position
where, with the current player's stone hypothetically placed, the group
containing the position has no EMPTY neighbour and no orthogonally adjacent
opponent group is without liberty, placeStone for the current player returns
false with the suicide message, and the state (board, counters, ko state,
current player, history) is unchanged; so the click changes nothing either. -/
theorem suicide_rejected (s : GoBoard) (hr : Reachable s) (row col : Int)
    (withinTolerance : Bool) (hin : InB row col) (hemp : s.board.get row col = EMPTY)
    (hself : ZeroLiberty (s.board.set row col s.currentPlayer) s.currentPlayer (row, col))
    (hopp : ∀ n : Pos, Adj (row, col) n → InB n.1 n.2 →
      (s.board.set row col s.currentPlayer).get n.1 n.2 = opponentOf s.currentPlayer →
      ¬ ZeroLiberty (s.board.set row col s.currentPlayer) (opponentOf s.currentPlayer) n) :
    placeStone s row col s.currentPlayer =
      { ok := false, msg := some Message.suicideMove, state := s } ∧
    mousePressEvent s row col withinTolerance = s := by
  have hinv := reachable_inv s hr
  have hpl : s.currentPlayer ≠ EMPTY := by
    rcases hinv.player with h | h <;> rw [h] <;> decide
  have hnoko : ¬ (s.inKo = true ∧ row = s.koPosition.1 ∧ col = s.koPosition.2) := by
    rintro ⟨h, _⟩
    rw [hinv.ko] at h
    exact Bool.noConfusion h
  obtain ⟨h1, h2⟩ :=
    suicide_rejected_any_state s row col withinTolerance hin hemp hpl hself hopp
  rw [if_neg hnoko] at h1
  exact ⟨h1, h2⟩

theorem suicideSetup_reachable : Reachable suicideSetup :=
  Reachable.click _ 1 0 true
    (Reachable.click _ 5 5 true (Reachable.click _ 0 1 true (Reachable.init blank)))

theorem suicideSetup_hyps :
    ZeroLiberty (suicideSetup.board.set 0 0 suicideSetup.currentPlayer)
      suicideSetup.currentPlayer (0, 0) ∧
    ∀ n : Pos, Adj (0, 0) n → InB n.1 n.2 →
      (suicideSetup.board.set 0 0 suicideSetup.currentPlayer).get n.1 n.2
        = opponentOf suicideSetup.currentPlayer →
      ¬ ZeroLiberty (suicideSetup.board.set 0 0 suicideSetup.currentPlayer)
        (opponentOf suicideSetup.currentPlayer) n := by
  constructor
  · exact (hasLiberty_false_of_zero _ _ (by decide) (0, 0) (by decide) (by decide)).1 (by decide)
  · intro n hadj hnin hcol hz
    have hf := (hasLiberty_false_of_zero _ _ (by decide) n hnin hcol).2 hz
    obtain ⟨d, hd, rfl⟩ := hadj
    simp only [dirs, List.mem_cons, List.mem_singleton, List.not_mem_nil, or_false] at hd
    rcases hd with rfl | rfl | rfl | rfl
    · exact absurd hnin (by decide)
    · exact absurd hf (by decide)
    · exact absurd hnin (by decide)
    · exact absurd hf (by decide)

theorem suicide_rejected_witness :
    suicideSetup.currentPlayer = WHITE ∧
    placeStone suicideSetup 0 0 suicideSetup.currentPlayer =
      { ok := false, msg := some Message.suicideMove, state := suicideSetup } ∧
    mousePressEvent suicideSetup 0 0 true = suicideSetup :=
  ⟨by decide,
    suicide_rejected suicideSetup suicideSetup_reachable 0 0 true (by decide) (by decide)
      suicideSetup_hyps.1 suicideSetup_hyps.2⟩

/-! ## What `captureStones` removes -/

theorem inChain_symm {board : Board} {color : StoneColor} {a b : Pos}
    (h : InChain board color a b) : InChain board color b a := by
  obtain ⟨h1, h2, h3⟩ := h
  have hb := chain_color _ _ _ _ h3 ⟨h1, h2⟩
  exact ⟨hb.1, hb.2, chain_symm _ _ _ _ h3 ⟨h1, h2⟩⟩

theorem inChain_trans {board : Board} {color : StoneColor} {a b c : Pos}
    (h : InChain board color a b) (h1 : InChain board color b c) : InChain board color a c :=
  ⟨h.1, h.2.1, Relation.ReflTransGen.trans h.2.2 h1.2.2⟩

theorem zeroLiberty_chain {board : Board} {color : StoneColor} {a b : Pos}
    (h : InChain board color a b) (hz : ZeroLiberty board color a) :
    ZeroLiberty board color b :=
  fun m e hm => hz m e (inChain_trans h hm)

theorem captureStones_board_spec (board : Board) (row col : Int) (oc : StoneColor)
    (captured : List Pos) :
    (∀ q : Pos, Captured board row col oc q →
      (captureStones board row col oc captured).2.1.get q.1 q.2 = EMPTY) ∧
    (∀ q : Pos, ¬ Captured board row col oc q →
      (captureStones board row col oc captured).2.1.get q.1 q.2 = board.get q.1 q.2) ∧
    (board.get row col ≠ oc →
      (captureStones board row col oc captured).2.1.get row col = board.get row col) ∧
    (∀ q : Pos, board.get q.1 q.2 ≠ oc →
      (captureStones board row col oc captured).2.1.get q.1 q.2 = board.get q.1 q.2) ∧
    (∀ n q : Pos, InChain board oc n q → ¬ ZeroLiberty board oc n →
      (captureStones board row col oc captured).2.1.get q.1 q.2 = board.get q.1 q.2) ∧
    (∀ q : Pos, (∀ n, Adj (row, col) n → ¬ InChain board oc n q) →
      (captureStones board row col oc captured).2.1.get q.1 q.2 = board.get q.1 q.2) := by
  have h1 : ∀ q : Pos, Captured board row col oc q →
      (captureStones board row col oc captured).2.1.get q.1 q.2 = EMPTY := by
    intro q hq
    by_cases hoc : oc = EMPTY
    · subst hoc
      rw [captureStones_empty]
      exact (captured_cell _ _ _ _ _ hq).2
    · obtain ⟨L, _, _, _, hget, hiff⟩ := captureStones_spec board row col oc hoc captured
      rw [hget, if_pos ((hiff q).2 hq)]
  have h2 : ∀ q : Pos, ¬ Captured board row col oc q →
      (captureStones board row col oc captured).2.1.get q.1 q.2 = board.get q.1 q.2 := by
    intro q hq
    by_cases hoc : oc = EMPTY
    · subst hoc
      rw [captureStones_empty]
    · obtain ⟨L, _, _, _, hget, hiff⟩ := captureStones_spec board row col oc hoc captured
      rw [hget, if_neg (fun h => hq ((hiff q).1 h))]
  have h3 : ∀ q : Pos, board.get q.1 q.2 ≠ oc →
      (captureStones board row col oc captured).2.1.get q.1 q.2 = board.get q.1 q.2 :=
    fun q hq => h2 q (fun hc => hq (captured_cell _ _ _ _ _ hc).2)
  refine ⟨h1, h2, fun h => h3 (row, col) h, h3, ?_, ?_⟩
  · intro n q hn hlib
    apply h2
    rintro ⟨m, _, hm, hz⟩
    exact hlib (zeroLiberty_chain (inChain_trans hm (inChain_symm hn)) hz)
  · intro q hq
    apply h2
    rintro ⟨m, hadj, hm, _⟩
    exact hq m hadj hm

theorem placeStone_call_pos (board : Board) (row col : Int) (color : StoneColor)
    (hin : InB row col) : (board.set row col color).get row col ≠ opponentOf color := by
  rw [Grid.get_set_same _ _ _ _ hin]
  exact fun h => opponentOf_ne_self color h.symm

/-- C3: for every board, opponentColor and in-bounds position (row, col) that
does not itself hold opponentColor (placeStone, the caller, has just written the
mover's colour there and passes the other colour), captureStones sets to EMPTY
exactly the cells of the opponentColor chains that contain an orthogonal
neighbour of (row, col) and have no EMPTY orthogonal neighbour on the input
board, and every other cell keeps its value: (row, col) itself, which is in no
such chain, every cell that does not hold opponentColor, every chain that has a
liberty and every chain that does not touch (row, col). -/
theorem captureStones_removes_exactly (board : Board) (row col : Int) (oc : StoneColor)
    (captured : List Pos) (_hin : InB row col) (hpos : board.get row col ≠ oc) :
    (∀ q : Pos, Captured board row col oc q →
      (captureStones board row col oc captured).2.1.get q.1 q.2 = EMPTY) ∧
    (∀ q : Pos, ¬ Captured board row col oc q →
      (captureStones board row col oc captured).2.1.get q.1 q.2 = board.get q.1 q.2) ∧
    ¬ Captured board row col oc (row, col) ∧
    (captureStones board row col oc captured).2.1.get row col = board.get row col ∧
    (∀ q : Pos, board.get q.1 q.2 ≠ oc →
      (captureStones board row col oc captured).2.1.get q.1 q.2 = board.get q.1 q.2) ∧
    (∀ n q : Pos, InChain board oc n q → ¬ ZeroLiberty board oc n →
      (captureStones board row col oc captured).2.1.get q.1 q.2 = board.get q.1 q.2) ∧
    (∀ q : Pos, (∀ n, Adj (row, col) n → ¬ InChain board oc n q) →
      (captureStones board row col oc captured).2.1.get q.1 q.2 = board.get q.1 q.2) := by
  obtain ⟨h1, h2, h3, h4, h5, h6⟩ := captureStones_board_spec board row col oc captured
  exact ⟨h1, h2, fun hc => hpos (captured_cell _ _ _ _ _ hc).2, h3 hpos, h4, h5, h6⟩

theorem captureStones_removes_exactly_witness :
    (∀ q : Pos,
      Captured (cornerSetup.board.set 0 0 BLACK) 0 0 (opponentOf BLACK) q →
      (captureStones (cornerSetup.board.set 0 0 BLACK) 0 0 (opponentOf BLACK) []).2.1.get q.1 q.2
        = EMPTY) ∧
    (∀ q : Pos,
      ¬ Captured (cornerSetup.board.set 0 0 BLACK) 0 0 (opponentOf BLACK) q →
      (captureStones (cornerSetup.board.set 0 0 BLACK) 0 0 (opponentOf BLACK) []).2.1.get q.1 q.2
        = (cornerSetup.board.set 0 0 BLACK).get q.1 q.2) ∧
    ¬ Captured (cornerSetup.board.set 0 0 BLACK) 0 0 (opponentOf BLACK) (0, 0) ∧
    (captureStones (cornerSetup.board.set 0 0 BLACK) 0 0 (opponentOf BLACK) []).2.1.get 0 0
      = (cornerSetup.board.set 0 0 BLACK).get 0 0 ∧
    (∀ q : Pos, (cornerSetup.board.set 0 0 BLACK).get q.1 q.2 ≠ opponentOf BLACK →
      (captureStones (cornerSetup.board.set 0 0 BLACK) 0 0 (opponentOf BLACK) []).2.1.get q.1 q.2
        = (cornerSetup.board.set 0 0 BLACK).get q.1 q.2) ∧
    (∀ n q : Pos, InChain (cornerSetup.board.set 0 0 BLACK) (opponentOf BLACK) n q →
      ¬ ZeroLiberty (cornerSetup.board.set 0 0 BLACK) (opponentOf BLACK) n →
      (captureStones (cornerSetup.board.set 0 0 BLACK) 0 0 (opponentOf BLACK) []).2.1.get q.1 q.2
        = (cornerSetup.board.set 0 0 BLACK).get q.1 q.2) ∧
    (∀ q : Pos,
      (∀ n, Adj (0, 0) n → ¬ InChain (cornerSetup.board.set 0 0 BLACK) (opponentOf BLACK) n q) →
      (captureStones (cornerSetup.board.set 0 0 BLACK) 0 0 (opponentOf BLACK) []).2.1.get q.1 q.2
        = (cornerSetup.board.set 0 0 BLACK).get q.1 q.2) :=
  captureStones_removes_exactly (cornerSetup.board.set 0 0 BLACK) 0 0 (opponentOf BLACK) []
    (by decide) (by decide)

theorem chain_card_sum (board : Board) (oc : StoneColor) (chain : Pos → Finset Pos) :
    ∀ reps : List Pos,
      (∀ r ∈ reps, ∀ q, q ∈ chain r ↔ InChain board oc r q) →
      reps.Pairwise (fun a b => ¬ InChain board oc a b) →
      ∃ U : Finset Pos, (∀ q, q ∈ U ↔ ∃ r ∈ reps, q ∈ chain r) ∧
        U.card = (reps.map (fun r => (chain r).card)).sum := by
  intro reps
  induction reps with
  | nil =>
    intro _ _
    exact ⟨∅, by simp, by simp⟩
  | cons a rest ih =>
    intro hchain hpw
    obtain ⟨U, hU, hcard⟩ := ih (fun r hr => hchain r (List.mem_cons_of_mem _ hr))
      (List.Pairwise.of_cons hpw)
    have hdisj : Disjoint (chain a) U := by
      rw [Finset.disjoint_left]
      intro q hqa hqU
      obtain ⟨r, hr, hqr⟩ := (hU q).1 hqU
      have h1 := (hchain a (List.mem_cons_self _ _) q).1 hqa
      have h2 := (hchain r (List.mem_cons_of_mem _ hr) q).1 hqr
      exact (List.rel_of_pairwise_cons hpw hr) (inChain_trans h1 (inChain_symm h2))
    refine ⟨chain a ∪ U, ?_, ?_⟩
    · intro q
      rw [Finset.mem_union, hU]
      constructor
      · rintro (h | ⟨r, hr, h⟩)
        · exact ⟨a, List.mem_cons_self _ _, h⟩
        · exact ⟨r, List.mem_cons_of_mem _ hr, h⟩
      · rintro ⟨r, hr, h⟩
        rcases List.mem_cons.1 hr with rfl | hr
        · exact Or.inl h
        · exact Or.inr ⟨r, hr, h⟩
    · rw [Finset.card_union_of_disjoint hdisj, hcard, List.map_cons, List.sum_cons]

/-- C4: let (row, col) touch liberty-free chains of the stone colour
opponentColor, listed by one representative neighbour each (`reps`, pairwise
in different chains, covering every such chain), `chain r` being the set of
cells of the chain of `r`.  Then one call of captureStones empties every cell
of every one of these chains, appends pairwise distinct coordinates to
`captured`, and returns a count that is both the number of appended coordinates
and the sum of the sizes of the chains. -/
theorem captureStones_counts_all_chains (board : Board) (row col : Int) (oc : StoneColor)
    (captured : List Pos) (reps : List Pos) (chain : Pos → Finset Pos)
    (hne : oc ≠ EMPTY)
    (hreps : ∀ r ∈ reps, Adj (row, col) r ∧ InB r.1 r.2 ∧ board.get r.1 r.2 = oc ∧
      ZeroLiberty board oc r)
    (hdistinct : reps.Pairwise (fun a b => ¬ InChain board oc a b))
    (hcover : ∀ n : Pos, Adj (row, col) n → InB n.1 n.2 → board.get n.1 n.2 = oc →
      ZeroLiberty board oc n → ∃ r ∈ reps, InChain board oc r n)
    (hchain : ∀ r ∈ reps, ∀ q, q ∈ chain r ↔ InChain board oc r q) :
    ∃ L : List Pos,
      (captureStones board row col oc captured).2.2 = captured ++ L ∧
      L.Nodup ∧
      (captureStones board row col oc captured).1 = (L.length : Int) ∧
      (captureStones board row col oc captured).1
        = ((reps.map (fun r => (chain r).card)).sum : Nat) ∧
      (∀ q, q ∈ L ↔ ∃ r ∈ reps, q ∈ chain r) ∧
      (∀ r ∈ reps, ∀ q ∈ chain r,
        (captureStones board row col oc captured).2.1.get q.1 q.2 = EMPTY) := by
  obtain ⟨L, hcnt, hcap, hnd, hget, hiff⟩ := captureStones_spec board row col oc hne captured
  have hmem : ∀ q, q ∈ L ↔ ∃ r ∈ reps, q ∈ chain r := by
    intro q
    rw [hiff]
    constructor
    · rintro ⟨n, hadj, hn, hz⟩
      obtain ⟨r, hr, hrn⟩ := hcover n hadj hn.1 hn.2.1 hz
      exact ⟨r, hr, (hchain r hr q).2 (inChain_trans hrn hn)⟩
    · rintro ⟨r, hr, hq⟩
      exact ⟨r, (hreps r hr).1, (hchain r hr q).1 hq, (hreps r hr).2.2.2⟩
  obtain ⟨U, hU, hcard⟩ := chain_card_sum board oc chain reps hchain hdistinct
  have hLU : L.toFinset = U := by
    ext q
    rw [List.mem_toFinset, hmem, hU]
  refine ⟨L, hcap, hnd, hcnt, ?_, hmem, ?_⟩
  · rw [hcnt, ← hcard, ← hLU, List.toFinset_card_of_nodup hnd]
  · intro r hr q hq
    rw [hget, if_pos ((hmem q).2 ⟨r, hr, hq⟩)]

theorem single_stone_chain (board : Board) (oc : StoneColor) (r : Pos)
    (hin : InB r.1 r.2) (hcol : board.get r.1 r.2 = oc)
    (halone : ∀ d ∈ dirs, ¬ (InB (r.1 + d.1) (r.2 + d.2) ∧
      board.get (r.1 + d.1) (r.2 + d.2) = oc)) (q : Pos) :
    InChain board oc r q ↔ q = r := by
  constructor
  · rintro ⟨_, _, h⟩
    induction h with
    | refl => rfl
    | tail _ hs ih =>
      subst ih
      obtain ⟨⟨d, hd, rfl⟩, h1, h2⟩ := hs
      exact absurd ⟨h1, h2⟩ (halone d hd)
  · rintro rfl
    exact ⟨hin, hcol, Relation.ReflTransGen.refl⟩

theorem doubleCapture_chain (r : Pos) (hr : r ∈ [((0 : Int), (1 : Int)), (1, 0)]) (q : Pos) :
    InChain doubleCaptureBoard WHITE r q ↔ q = r := by
  simp only [List.mem_cons, List.mem_singleton, List.not_mem_nil, or_false] at hr
  rcases hr with rfl | rfl
  · exact single_stone_chain _ _ _ (by decide) (by decide) (by decide) q
  · exact single_stone_chain _ _ _ (by decide) (by decide) (by decide) q

theorem captureStones_counts_all_chains_witness :
    ∃ L : List Pos,
      (captureStones doubleCaptureBoard 0 0 WHITE []).2.2 = [] ++ L ∧
      L.Nodup ∧
      (captureStones doubleCaptureBoard 0 0 WHITE []).1 = (L.length : Int) ∧
      (captureStones doubleCaptureBoard 0 0 WHITE []).1
        = (([((0 : Int), (1 : Int)), (1, 0)].map
            (fun r => ({r} : Finset Pos).card)).sum : Nat) ∧
      (∀ q, q ∈ L ↔ ∃ r ∈ [((0 : Int), (1 : Int)), (1, 0)], q ∈ ({r} : Finset Pos)) ∧
      (∀ r ∈ [((0 : Int), (1 : Int)), (1, 0)], ∀ q ∈ ({r} : Finset Pos),
        (captureStones doubleCaptureBoard 0 0 WHITE []).2.1.get q.1 q.2 = EMPTY) :=
  captureStones_counts_all_chains doubleCaptureBoard 0 0 WHITE []
    [(0, 1), (1, 0)] (fun r => {r}) (by decide)
    (by
      intro r hr
      simp only [List.mem_cons, List.mem_singleton, List.not_mem_nil, or_false] at hr
      rcases hr with rfl | rfl
      · exact ⟨⟨(0, 1), by decide, rfl⟩, by decide, by decide,
          (hasLiberty_false_of_zero _ _ (by decide) (0, 1) (by decide) (by decide)).1
            (by decide)⟩
      · exact ⟨⟨(1, 0), by decide, rfl⟩, by decide, by decide,
          (hasLiberty_false_of_zero _ _ (by decide) (1, 0) (by decide) (by decide)).1
            (by decide)⟩)
    (by
      refine List.Pairwise.cons ?_ (List.pairwise_singleton _ _)
      intro b hb h
      rw [List.mem_singleton] at hb
      subst hb
      have := (doubleCapture_chain (0, 1) (by decide) (1, 0)).1 h
      exact absurd this (by decide))
    (by
      intro n hadj hnin hcol _
      obtain ⟨d, hd, rfl⟩ := hadj
      simp only [dirs, List.mem_cons, List.mem_singleton, List.not_mem_nil, or_false] at hd
      rcases hd with rfl | rfl | rfl | rfl
      · exact absurd hnin (by decide)
      · exact ⟨(1, 0), by decide, (doubleCapture_chain (1, 0) (by decide) _).2 rfl⟩
      · exact absurd hnin (by decide)
      · exact ⟨(0, 1), by decide, (doubleCapture_chain (0, 1) (by decide) _).2 rfl⟩)
    (by
      intro r hr q
      rw [Finset.mem_singleton]
      exact (doubleCapture_chain r hr q).symm)

/-! ## Ko -/

/-- C5, the code at the failing input: in `cornerSetup` (reachable, Black to
move) the move at (0,0) is accepted and captures exactly the white stone at
(0,1); the black stone then has no liberty but the vacated point (with (0,1)
refilled it has none).  Yet the move leaves ko inactive with koPosition
(-1,-1), and White's immediate placeStone at (0,1) is accepted: it returns true
and captures the black stone at (0,0). -/
theorem ko_not_activated_after_single_capture :
    cornerSetup.currentPlayer = BLACK ∧
    (placeStone cornerSetup 0 0 BLACK).ok = true ∧
    cornerTaken.capturedStonesHistory.getLast? = some [(0, 1)] ∧
    (hasLiberty (cornerTaken.board.set 0 1 WHITE) 0 0 BLACK (Grid.fill false)).1 = false ∧
    cornerTaken.inKo = false ∧
    cornerTaken.koPosition = (-1, -1) ∧
    cornerTaken.currentPlayer = WHITE ∧
    (placeStone cornerTaken 0 1 WHITE).ok = true ∧
    (placeStone cornerTaken 0 1 WHITE).state.board.get 0 0 = EMPTY :=
  ⟨by decide, by decide, by decide, by decide, by decide, by decide, by decide, by decide,
    by decide⟩

/-- C11: in any state, reachable or not, where ko is active and the (in-bounds)
cell at koPosition is EMPTY, placeStone at koPosition returns false with the ko
message and leaves the state as it was, whatever colour is passed and whatever
isValidMove would answer: the ko test comes before isValidMove is consulted, so
no assumption on liberties or captures is needed.  The click leaves the state
unchanged as well. -/
theorem ko_point_rejected (s : GoBoard) (color : StoneColor) (withinTolerance : Bool)
    (hko : s.inKo = true) (_hin : InB s.koPosition.1 s.koPosition.2)
    (hemp : s.board.get s.koPosition.1 s.koPosition.2 = EMPTY) :
    placeStone s s.koPosition.1 s.koPosition.2 color =
      { ok := false, msg := some Message.koViolation, state := s } ∧
    mousePressEvent s s.koPosition.1 s.koPosition.2 withinTolerance = s := by
  have h1 : ∀ c, placeStone s s.koPosition.1 s.koPosition.2 c =
      { ok := false, msg := some Message.koViolation, state := s } := by
    intro c
    unfold placeStone
    rw [if_neg (by rw [hemp]; exact fun h => h rfl), if_pos ⟨hko, rfl, rfl⟩]
  refine ⟨h1 color, ?_⟩
  apply mousePressEvent_rejected
  rw [h1]

theorem ko_point_rejected_witness :
    (isValidMove koOpen 3 3).1 = true ∧
    placeStone koOpen koOpen.koPosition.1 koOpen.koPosition.2 BLACK =
      { ok := false, msg := some Message.koViolation, state := koOpen } ∧
    mousePressEvent koOpen koOpen.koPosition.1 koOpen.koPosition.2 true = koOpen :=
  ⟨by decide, ko_point_rejected koOpen BLACK true (by decide) (by decide) (by decide)⟩

theorem read_of_inB {α : Type} [Inhabited α] (g : Grid α) (row col : Int) (h : InB row col) :
    g.read row col = some (g.get row col) := by
  unfold Grid.read; rw [if_pos h]

theorem read_of_not_inB {α : Type} [Inhabited α] (g : Grid α) (row col : Int)
    (h : ¬ InB row col) : g.read row col = none := by
  unfold Grid.read; rw [if_neg h]

theorem write_of_inB {α : Type} (g : Grid α) (row col : Int) (v : α) (h : InB row col) :
    g.write row col v = some (g.set row col v) := by
  unfold Grid.write; rw [if_pos h]

theorem isValidMoveChecked_eq (s : GoBoard) (row col : Int) (hin : InB row col) :
    isValidMoveChecked s row col = some (isValidMove s row col) := by
  unfold isValidMoveChecked isValidMove
  simp only [read_of_inB _ _ _ hin, write_of_inB _ _ _ _ hin]
  by_cases h : s.board.get row col ≠ EMPTY
  · rw [if_pos h, if_pos h]
  · rw [if_neg h, if_neg h]

theorem placeStoneChecked_eq (s : GoBoard) (row col : Int) (color : StoneColor)
    (hin : InB row col) :
    placeStoneChecked s row col color = some (placeStone s row col color) := by
  unfold placeStoneChecked placeStone
  simp only [read_of_inB _ _ _ hin, isValidMoveChecked_eq s row col hin]
  by_cases h1 : s.board.get row col ≠ EMPTY
  · rw [if_pos h1, if_pos h1]
  rw [if_neg h1, if_neg h1]
  by_cases h2 : s.inKo = true ∧ row = s.koPosition.1 ∧ col = s.koPosition.2
  · rw [if_pos h2, if_pos h2]
  rw [if_neg h2, if_neg h2]
  cases hv : isValidMove s row col with
  | mk b s1 =>
    cases b with
    | false => rfl
    | true =>
      simp only [write_of_inB _ _ _ _ hin]

theorem placeStoneChecked_off_grid (s : GoBoard) (row col : Int) (color : StoneColor)
    (hout : ¬ InB row col) : placeStoneChecked s row col color = none := by
  unfold placeStoneChecked
  rw [read_of_not_inB _ _ _ hout]

/-- No click leads to a board access outside the grid: the checked handler
always returns, with the state the handler computes. -/
theorem mousePressEventChecked_eq (s : GoBoard) (row col : Int) (withinTolerance : Bool) :
    mousePressEventChecked s row col withinTolerance
      = some (mousePressEvent s row col withinTolerance) := by
  unfold mousePressEventChecked mousePressEvent
  by_cases hc : convertPosToRowCol row col withinTolerance = true
  · have hin := (convertPosToRowCol_true row col withinTolerance hc).2
    rw [if_pos hc, if_pos hc, placeStoneChecked_eq s row col _ hin]
    simp only []
    by_cases hok : (placeStone s row col s.currentPlayer).ok = true
    · rw [if_pos hok, if_pos hok]
    · rw [if_neg hok, if_neg hok]
  · rw [if_neg hc, if_neg hc]

/-- C12: a click that maps to a position with row or col outside [0, 19) is
rejected by the bounds test of convertPosToRowCol, whatever the tolerance test
says.  The state (board, counters, history, ko, current player) is the one
before the click, and no board access outside the grid occurs: the handler with
its board accesses checked returns normally with that same state, although
placeStone itself would index the board outside the grid at such a position. -/
theorem out_of_bounds_click_ignored (s : GoBoard) (row col : Int) (withinTolerance : Bool)
    (hout : OutOfBounds row col) :
    convertPosToRowCol row col withinTolerance = false ∧
    mousePressEvent s row col withinTolerance = s ∧
    mousePressEventChecked s row col withinTolerance = some s ∧
    placeStoneChecked s row col s.currentPlayer = none := by
  have hc : convertPosToRowCol row col withinTolerance = false := by
    by_contra h
    have h1 := (convertPosToRowCol_true row col withinTolerance (by simpa using h)).2
    exact (outOfBounds_iff row col).1 hout h1
  refine ⟨hc, mousePressEvent_off s row col withinTolerance hc, ?_,
    placeStoneChecked_off_grid s row col _ ((outOfBounds_iff row col).1 hout)⟩
  unfold mousePressEventChecked
  rw [if_neg (by rw [hc]; decide)]

theorem out_of_bounds_click_ignored_witness :
    convertPosToRowCol 19 3 true = false ∧
    mousePressEvent cornerTaken 19 3 true = cornerTaken ∧
    mousePressEventChecked cornerTaken 19 3 true = some cornerTaken ∧
    placeStoneChecked cornerTaken 19 3 cornerTaken.currentPlayer = none :=
  out_of_bounds_click_ignored cornerTaken 19 3 true (by decide)

/-- C13: when the move history is empty, undoMove shows the nothing-to-undo
box and leaves the state (board, counters, ko, current player, history) as it
was. -/
theorem undo_empty_history (s : GoBoard) (h : s.moveHistory = []) :
    undoMove s = (some Message.emptyHistory, s) := by
  unfold undoMove
  rw [if_pos (by rw [h]; rfl)]

theorem undo_empty_history_witness :
    undoMove koSuicide = (some Message.emptyHistory, koSuicide) :=
  undo_empty_history koSuicide rfl

/-- C14: after initBoard, whatever the state before, every cell of the 19x19
board is EMPTY (the model reads EMPTY outside the grid too), both counters are
0, BLACK is to move, ko is inactive with koPosition (-1,-1), and the three
history vectors are empty. -/
theorem initBoard_resets (s : GoBoard) :
    (∀ r c, (initBoard s).board.get r c = EMPTY) ∧
    (initBoard s).blackCount = 0 ∧
    (initBoard s).whiteCount = 0 ∧
    (initBoard s).currentPlayer = BLACK ∧
    (initBoard s).inKo = false ∧
    (initBoard s).koPosition = (-1, -1) ∧
    (initBoard s).moveHistory = [] ∧
    (initBoard s).moveColors = [] ∧
    (initBoard s).capturedStonesHistory = [] :=
  ⟨fun r c => Grid.get_fill_empty r c, rfl, rfl, rfl, rfl, rfl, rfl, rfl, rfl⟩

/-- C16: for a stone colour `color`, an in-bounds position holding it and an
all-false visited matrix, hasLiberty returns true exactly when some stone of
the chain of the position has an EMPTY orthogonal in-bounds neighbour; and the
recursion does return: with the bound `LIBERTY_FUEL` or any larger one the
bounded recursion yields this very result. -/
theorem hasLiberty_flood_fill_correct (board : Board) (row col : Int) (color : StoneColor)
    (hne : color ≠ EMPTY) (hin : InB row col) (hcol : board.get row col = color) :
    ((hasLiberty board row col color (Grid.fill false)).1 = true ↔
      ∃ m e : Pos, InChain board color (row, col) m ∧ Adj m e ∧ InB e.1 e.2 ∧
        board.get e.1 e.2 = EMPTY) ∧
    ∀ fuel, LIBERTY_FUEL ≤ fuel →
      hasLibertyAux board color fuel row col (Grid.fill false)
        = some (hasLiberty board row col color (Grid.fill false)) := by
  refine ⟨?_, fun fuel hfuel => hasLiberty_total board row col color _ fuel hfuel⟩
  rw [hasLiberty_fresh_iff]
  exact lib_iff_chain_liberty board color hne (row, col) hin hcol

theorem hasLiberty_flood_fill_correct_witness :
    ((hasLiberty cornerTaken.board 1 1 BLACK (Grid.fill false)).1 = true ↔
      ∃ m e : Pos, InChain cornerTaken.board BLACK (1, 1) m ∧ Adj m e ∧ InB e.1 e.2 ∧
        cornerTaken.board.get e.1 e.2 = EMPTY) ∧
    ∀ fuel, LIBERTY_FUEL ≤ fuel →
      hasLibertyAux cornerTaken.board BLACK fuel 1 1 (Grid.fill false)
        = some (hasLiberty cornerTaken.board 1 1 BLACK (Grid.fill false)) :=
  hasLiberty_flood_fill_correct cornerTaken.board 1 1 BLACK (by decide) (by decide) (by decide)

/-- C15: for a current player BLACK or WHITE and an in-bounds EMPTY position,
isValidMove returns true exactly when, on the board with the player's stone
placed there, the chain of that stone has an EMPTY orthogonal neighbour, or
some orthogonal neighbour holds the opposing colour and its chain has no EMPTY
orthogonal neighbour; and the state after the call, the board in particular, is
the state before it. -/
theorem isValidMove_iff (s : GoBoard) (row col : Int) (hin : InB row col)
    (hemp : s.board.get row col = EMPTY) (hpl : s.currentPlayer ≠ EMPTY) :
    ((isValidMove s row col).1 = true ↔
      (∃ m e : Pos, InChain (s.board.set row col s.currentPlayer) s.currentPlayer (row, col) m ∧
        Adj m e ∧ InB e.1 e.2 ∧ (s.board.set row col s.currentPlayer).get e.1 e.2 = EMPTY) ∨
      (∃ n : Pos, Adj (row, col) n ∧ InB n.1 n.2 ∧
        (s.board.set row col s.currentPlayer).get n.1 n.2 = opponentOf s.currentPlayer ∧
        ZeroLiberty (s.board.set row col s.currentPlayer) (opponentOf s.currentPlayer) n)) ∧
    (isValidMove s row col).2 = s ∧
    (isValidMove s row col).2.board = s.board := by
  have hb1 : (s.board.set row col s.currentPlayer).get row col = s.currentPlayer :=
    Grid.get_set_same _ _ _ _ hin
  refine ⟨?_, isValidMove_state s row col, by rw [isValidMove_state]⟩
  rw [isValidMove_true_iff s row col hemp, hasLiberty_fresh_iff,
    lib_iff_chain_liberty _ _ hpl (row, col) hin hb1, canCapture_iff]
  constructor
  · rintro (h | ⟨d, hd, h1, h2, h3⟩)
    · exact Or.inl h
    · exact Or.inr ⟨(row + d.1, col + d.2), ⟨d, hd, rfl⟩, h1, h2,
        (hasLiberty_false_of_zero _ _ (opponentOf_ne_empty _) (row + d.1, col + d.2) h1 h2).1 h3⟩
  · rintro (h | ⟨n, ⟨d, hd, rfl⟩, h1, h2, h3⟩)
    · exact Or.inl h
    · exact Or.inr ⟨d, hd, h1, h2,
        (hasLiberty_false_of_zero _ _ (opponentOf_ne_empty _) (row + d.1, col + d.2) h1 h2).2 h3⟩

theorem isValidMove_iff_witness :
    ((isValidMove cornerSetup 0 0).1 = true ↔
      (∃ m e : Pos,
        InChain (cornerSetup.board.set 0 0 cornerSetup.currentPlayer)
          cornerSetup.currentPlayer (0, 0) m ∧
        Adj m e ∧ InB e.1 e.2 ∧
        (cornerSetup.board.set 0 0 cornerSetup.currentPlayer).get e.1 e.2 = EMPTY) ∨
      (∃ n : Pos, Adj (0, 0) n ∧ InB n.1 n.2 ∧
        (cornerSetup.board.set 0 0 cornerSetup.currentPlayer).get n.1 n.2
          = opponentOf cornerSetup.currentPlayer ∧
        ZeroLiberty (cornerSetup.board.set 0 0 cornerSetup.currentPlayer)
          (opponentOf cornerSetup.currentPlayer) n)) ∧
    (isValidMove cornerSetup 0 0).2 = cornerSetup ∧
    (isValidMove cornerSetup 0 0).2.board = cornerSetup.board :=
  isValidMove_iff cornerSetup 0 0 (by decide) (by decide) (by decide)

/-! ## Ko is never activated; the last record -/

theorem single_capture_liberty (s t : GoBoard) (row col : Int) (color : StoneColor)
    (L : List Pos) (hin : InB row col) (hp : PlacedSpec s row col color L t)
    (hlen : L.length = 1) :
    ∃ q : Pos, L = [q] ∧ Adj (row, col) q ∧ t.board.get q.1 q.2 = EMPTY ∧
      (hasLiberty t.board row col color (Grid.fill false)).1 = true := by
  obtain ⟨q, hq⟩ := List.length_eq_one.1 hlen
  have hqL : q ∈ L := by rw [hq]; exact List.mem_singleton_self _
  have hposL : (row, col) ∉ L := fun h => (hp.cap_old _ h).2.2 rfl
  have hadj : Adj (row, col) q := by
    apply captured_single _ _ _ _ _ ((hp.cap_iff q).1 hqL)
    intro p1 hp1
    have := (hp.cap_iff p1).2 hp1
    rw [hq] at this
    exact List.mem_singleton.1 this
  have hqget : t.board.get q.1 q.2 = EMPTY := by
    rw [hp.board_get, if_pos hqL]
  have hposget : t.board.get row col = color := by
    rw [hp.board_get, if_neg hposL, if_pos ⟨rfl, rfl⟩]
  refine ⟨q, hq, hadj, hqget, ?_⟩
  apply hasLiberty_complete
  exact Lib.step (row, col) q hin hposget hadj (Lib.here q (hp.cap_old q hqL).1 hqget)

/-- C19: placeStone never activates ko.  Whenever placeStone accepts a move at
an in-bounds position it leaves inKo = false and koPosition = (-1,-1); in the
case where captureStones removed exactly one stone, that stone is orthogonally
adjacent to the placed position and its cell is EMPTY afterwards, so the
hasLiberty test on the placed stone returns true.  Consequently inKo = false
and koPosition = (-1,-1) in every state reachable from initBoard by clicks and
undos. -/
theorem ko_never_activated :
    (∀ (s : GoBoard) (row col : Int) (color : StoneColor), InB row col →
      (placeStone s row col color).ok = true →
      (placeStone s row col color).state.inKo = false ∧
      (placeStone s row col color).state.koPosition = (-1, -1) ∧
      ((captureStones (s.board.set row col color) row col (opponentOf color) []).2.2.length = 1 →
        ∃ q : Pos,
          (captureStones (s.board.set row col color) row col (opponentOf color) []).2.2 = [q] ∧
          Adj (row, col) q ∧
          (placeStone s row col color).state.board.get q.1 q.2 = EMPTY ∧
          (hasLiberty (placeStone s row col color).state.board row col color
            (Grid.fill false)).1 = true)) ∧
    (∀ s : GoBoard, Reachable s → s.inKo = false ∧ s.koPosition = (-1, -1)) := by
  constructor
  · intro s row col color hin hok
    obtain ⟨L, hp⟩ := placeStone_ok_spec s row col color hin hok
    refine ⟨hp.ko, hp.koPos, ?_⟩
    rw [hp.cap_eq]
    exact single_capture_liberty s _ row col color L hin hp
  · intro s hr
    exact ⟨(reachable_inv s hr).ko, (reachable_inv s hr).koPos⟩

theorem ko_never_activated_witness :
    ((placeStone cornerSetup 0 0 BLACK).state.inKo = false ∧
      (placeStone cornerSetup 0 0 BLACK).state.koPosition = (-1, -1) ∧
      ((captureStones (cornerSetup.board.set 0 0 BLACK) 0 0 (opponentOf BLACK) []).2.2.length = 1 →
        ∃ q : Pos,
          (captureStones (cornerSetup.board.set 0 0 BLACK) 0 0 (opponentOf BLACK) []).2.2 = [q] ∧
          Adj (0, 0) q ∧
          (placeStone cornerSetup 0 0 BLACK).state.board.get q.1 q.2 = EMPTY ∧
          (hasLiberty (placeStone cornerSetup 0 0 BLACK).state.board 0 0 BLACK
            (Grid.fill false)).1 = true)) ∧
    (cornerTaken.inKo = false ∧ cornerTaken.koPosition = (-1, -1)) :=
  ⟨ko_never_activated.1 cornerSetup 0 0 BLACK (by decide) (by decide),
    ko_never_activated.2 cornerTaken cornerTaken_reachable⟩

theorem played_last_record (s : GoBoard) (h : Played s) (hne : s.moveHistory ≠ []) :
    (s.capturedStonesHistory.getLastD []).Nodup ∧
    (∀ q ∈ s.capturedStonesHistory.getLastD [], InB q.1 q.2 ∧ s.board.get q.1 q.2 = EMPTY ∧
      q ≠ s.moveHistory.getLastD (0, 0)) ∧
    s.board.get (s.moveHistory.getLastD (0, 0)).1 (s.moveHistory.getLastD (0, 0)).2
      = s.moveColors.getLastD EMPTY ∧
    (s.moveColors.getLastD EMPTY = BLACK ∨ s.moveColors.getLastD EMPTY = WHITE) := by
  cases h with
  | init s0 => exact absurd rfl hne
  | move s row col hs hin hok =>
    obtain ⟨L, hp⟩ := placeStone_ok_spec s row col s.currentPlayer hin hok
    rw [mousePressEvent_ok s row col hin hok]
    generalize (placeStone s row col s.currentPlayer).state = t at hp
    simp only [hp.history, hp.colors, hp.captures, getLastD_concat]
    have hposL : (row, col) ∉ L := fun h => (hp.cap_old _ h).2.2 rfl
    refine ⟨hp.nodup, ?_, ?_, (played_inv s hs).player⟩
    · intro q hq
      refine ⟨(hp.cap_old q hq).1, ?_, (hp.cap_old q hq).2.2⟩
      rw [hp.board_get, if_pos hq]
    · rw [hp.board_get, if_neg hposL, if_pos ⟨rfl, rfl⟩]

/-- C18: in every reachable state with a non-empty history, each captured
position of the most recent record is EMPTY on the board and differs from the
record's placed position, and the placed position holds the record's colour (BLACK or WHITE).
Hence the restore loop of undoMove never writes on a non-EMPTY cell: each
captured position is still EMPTY when its turn comes, after the positions
before it in the list have been restored. -/
theorem last_record_consistent (s : GoBoard) (hr : Reachable s) (hne : s.moveHistory ≠ []) :
    (∀ q ∈ s.capturedStonesHistory.getLastD [],
      s.board.get q.1 q.2 = EMPTY ∧ q ≠ s.moveHistory.getLastD (0, 0)) ∧
    s.board.get (s.moveHistory.getLastD (0, 0)).1 (s.moveHistory.getLastD (0, 0)).2
      = s.moveColors.getLastD EMPTY ∧
    (s.moveColors.getLastD EMPTY = BLACK ∨ s.moveColors.getLastD EMPTY = WHITE) ∧
    ∀ (pre post : List Pos) (q : Pos),
      s.capturedStonesHistory.getLastD [] = pre ++ q :: post →
      (restoreCaptured s.board (opponentOf (s.moveColors.getLastD EMPTY)) pre).get q.1 q.2
        = EMPTY := by
  obtain ⟨hnd, hcap, hpos, hcolor⟩ := played_last_record s (reachable_played s hr) hne
  refine ⟨fun q hq => ⟨(hcap q hq).2.1, (hcap q hq).2.2⟩, hpos, hcolor, ?_⟩
  · intro pre post q hsplit
    rw [hsplit] at hnd hcap
    have hq : q ∉ pre := by
      intro h
      have := (List.nodup_append.1 hnd).2.2 h (List.mem_cons_self _ _)
      exact this
    rw [restoreCaptured_get _ _ _ _ _
      (fun p hp => (hcap p (List.mem_append_left _ hp)).1), if_neg hq]
    exact (hcap q (List.mem_append_right _ (List.mem_cons_self _ _))).2.1

theorem last_record_consistent_witness :
    (∀ q ∈ cornerTaken.capturedStonesHistory.getLastD [],
      cornerTaken.board.get q.1 q.2 = EMPTY ∧ q ≠ cornerTaken.moveHistory.getLastD (0, 0)) ∧
    cornerTaken.board.get (cornerTaken.moveHistory.getLastD (0, 0)).1
        (cornerTaken.moveHistory.getLastD (0, 0)).2
      = cornerTaken.moveColors.getLastD EMPTY ∧
    (cornerTaken.moveColors.getLastD EMPTY = BLACK ∨
      cornerTaken.moveColors.getLastD EMPTY = WHITE) ∧
    ∀ (pre post : List Pos) (q : Pos),
      cornerTaken.capturedStonesHistory.getLastD [] = pre ++ q :: post →
      (restoreCaptured cornerTaken.board (opponentOf (cornerTaken.moveColors.getLastD EMPTY))
        pre).get q.1 q.2 = EMPTY :=
  last_record_consistent cornerTaken cornerTaken_reachable (by decide)

/-! ## The liberty test of `captureStones` against a direct scan -/

theorem scanHasLiberty_iff (board : Board) (group : List Pos) :
    scanHasLiberty board group = true ↔
      ∃ p ∈ group, ∃ d ∈ dirs, InB (p.1 + d.1) (p.2 + d.2) ∧
        board.get (p.1 + d.1) (p.2 + d.2) = EMPTY := by
  unfold scanHasLiberty
  simp only [List.any_eq_true, decide_eq_true_eq]

theorem collected_group_closed (b0 : Board) (oc : StoneColor) (hne : oc ≠ EMPTY)
    (row col : Int) (cap0 L : List Pos) (st : CaptureState)
    (hinv : CapInv b0 oc row col cap0 L st) (x y : Int) (hin : InB x y)
    (hb : st.board.get x y = oc) (hch : st.checked.get x y = false) :
    (∃ rest, (collectGroup st.board oc st.checked x y).2 = (x, y) :: rest) ∧
    (∀ p ∈ (collectGroup st.board oc st.checked x y).2,
      Relation.ReflTransGen (ChainStep st.board oc) (x, y) p) ∧
    (∀ p ∈ (collectGroup st.board oc st.checked x y).2, ∀ e ∈ dirs,
      InB (p.1 + e.1) (p.2 + e.2) → st.board.get (p.1 + e.1) (p.2 + e.2) = oc →
        (p.1 + e.1, p.2 + e.2) ∈ (collectGroup st.board oc st.checked x y).2) := by
  obtain ⟨_, hbfs⟩ := collectGroup_total st.board oc st.checked x y hin hb hch BFS_FUEL le_rfl
  generalize collectGroup st.board oc st.checked x y = cg at hbfs
  obtain ⟨c1, g⟩ := cg
  simp only [] at hbfs ⊢
  have hb_b0 : ∀ r c, st.board.get r c = oc → b0.get r c = oc := by
    intro r c h
    have h1 := hinv.board_eq r c
    by_cases hL : (r, c) ∈ L
    · rw [if_pos hL, h] at h1; exact absurd h1 hne
    · rw [if_neg hL, h] at h1; exact h1.symm
  refine ⟨hbfs.head, fun p hp => (hbfs.mem p hp).2.2.2, ?_⟩
  intro p hp e he hein heoc
  have h1 := hbfs.closed p hp (List.not_mem_nil _) (fun h => Option.noConfusion h) e he hein heoc
  rcases (hbfs.checked_iff _ _).1 h1 with h2 | h2
  · exfalso
    have h3 := hinv.checked_closed _ _ h2 (-e.1, -e.2) (dirs_neg e he)
    simp only [] at h3
    have e1 : p.1 + e.1 + -e.1 = p.1 := by omega
    have e2 : p.2 + e.2 + -e.2 = p.2 := by omega
    rw [e1, e2] at h3
    have := h3 (hbfs.mem p hp).1 (hb_b0 _ _ (hbfs.mem p hp).2.1)
    rw [(hbfs.mem p hp).2.2.1] at this
    exact Bool.noConfusion this
  · exact h2

theorem closed_group_test (board : Board) (oc : StoneColor) (hne : oc ≠ EMPTY)
    (start : Pos) (rest : List Pos) (hin : InB start.1 start.2)
    (hcol : board.get start.1 start.2 = oc)
    (hconn : ∀ p ∈ start :: rest, Relation.ReflTransGen (ChainStep board oc) start p)
    (hclosed : ∀ p ∈ start :: rest, ∀ e ∈ dirs, InB (p.1 + e.1) (p.2 + e.2) →
      board.get (p.1 + e.1) (p.2 + e.2) = oc → (p.1 + e.1, p.2 + e.2) ∈ start :: rest) :
    groupHasLiberty board oc (start :: rest) (Grid.fill false)
      = scanHasLiberty board (start :: rest) := by
  have hmem : ∀ m, Relation.ReflTransGen (ChainStep board oc) start m → m ∈ start :: rest := by
    intro m hm
    induction hm with
    | refl => exact List.mem_cons_self _ _
    | tail _ hs ih =>
      obtain ⟨⟨e, he, rfl⟩, h1, h2⟩ := hs
      exact hclosed _ ih e he h1 h2
  have hiff : groupHasLiberty board oc (start :: rest) (Grid.fill false) = true ↔
      scanHasLiberty board (start :: rest) = true := by
    rw [scanHasLiberty_iff]
    constructor
    · intro h
      obtain ⟨p, hp, hl⟩ := groupHasLiberty_sound _ _ _ _ h
      have hl0 : Lib board oc start := lib_of_chain _ _ _ _ (hconn p hp) ⟨hin, hcol⟩ hl
      obtain ⟨m, e, hm, ⟨d, hd, rfl⟩, h3, h4⟩ :=
        (lib_iff_chain_liberty board oc hne start hin hcol).1 hl0
      exact ⟨m, hmem m hm.2.2, d, hd, h3, h4⟩
    · rintro ⟨p, hp, d, hd, h3, h4⟩
      apply groupHasLiberty_head
      exact (lib_iff_chain_liberty board oc hne start hin hcol).2
        ⟨p, (p.1 + d.1, p.2 + d.2), ⟨hin, hcol, hconn p hp⟩, ⟨d, hd, rfl⟩, h3, h4⟩
  cases h1 : groupHasLiberty board oc (start :: rest) (Grid.fill false) with
  | true => exact (hiff.1 h1).symm
  | false =>
    cases h2 : scanHasLiberty board (start :: rest) with
    | false => rfl
    | true => rw [hiff.2 h2] at h1; exact Bool.noConfusion h1

/-- C17: in captureStones run for a stone colour, whenever the outer loop,
having processed the directions `ds`, runs the BFS for the next direction `d`
(the neighbour is in bounds, holds opponentColor and is unchecked), the liberty
test as coded on the collected group (hasLiberty on each member in turn with
one shared visited matrix, stopping at the first true) gives the same boolean
as the direct scan "some member of the group has an EMPTY orthogonal
neighbour". -/
theorem liberty_test_matches_scan (board : Board) (row col : Int) (oc : StoneColor)
    (captured : List Pos) (ds rest : List (Int × Int)) (d : Int × Int)
    (hne : oc ≠ EMPTY) (hsplit : dirs = ds ++ d :: rest)
    (hin : InB (row + d.1) (col + d.2))
    (hb : (captureLoopState board row col oc captured ds).board.get (row + d.1) (col + d.2) = oc)
    (hch : (captureLoopState board row col oc captured ds).checked.get
      (row + d.1) (col + d.2) = false) :
    groupHasLiberty (captureLoopState board row col oc captured ds).board oc
        (collectGroup (captureLoopState board row col oc captured ds).board oc
          (captureLoopState board row col oc captured ds).checked (row + d.1) (col + d.2)).2
        (Grid.fill false)
      = scanHasLiberty (captureLoopState board row col oc captured ds).board
        (collectGroup (captureLoopState board row col oc captured ds).board oc
          (captureLoopState board row col oc captured ds).checked (row + d.1) (col + d.2)).2 := by
  have hds : ∀ e ∈ ds, e ∈ dirs := by
    intro e he; rw [hsplit]; exact List.mem_append_left _ he
  obtain ⟨L, hinv, _, _⟩ :=
    captureFold_spec board oc hne row col captured ds [] _ hds
      (capInv_init board oc row col captured)
  have hinv1 : CapInv board oc row col captured L
      (captureLoopState board row col oc captured ds) := hinv
  obtain ⟨⟨tl, htl⟩, hconn, hclosed⟩ :=
    collected_group_closed board oc hne row col captured L _ hinv1 _ _ hin hb hch
  rw [htl] at hconn hclosed ⊢
  exact closed_group_test _ oc hne (row + d.1, col + d.2) tl hin hb hconn hclosed

theorem liberty_test_matches_scan_witness :
    groupHasLiberty (captureLoopState doubleCaptureBoard 0 0 WHITE [] [(-1, 0)]).board WHITE
        (collectGroup (captureLoopState doubleCaptureBoard 0 0 WHITE [] [(-1, 0)]).board WHITE
          (captureLoopState doubleCaptureBoard 0 0 WHITE [] [(-1, 0)]).checked
          (0 + ((1 : Int), (0 : Int)).1) (0 + ((1 : Int), (0 : Int)).2)).2
        (Grid.fill false)
      = scanHasLiberty (captureLoopState doubleCaptureBoard 0 0 WHITE [] [(-1, 0)]).board
        (collectGroup (captureLoopState doubleCaptureBoard 0 0 WHITE [] [(-1, 0)]).board WHITE
          (captureLoopState doubleCaptureBoard 0 0 WHITE [] [(-1, 0)]).checked
          (0 + ((1 : Int), (0 : Int)).1) (0 + ((1 : Int), (0 : Int)).2)).2 :=
  liberty_test_matches_scan doubleCaptureBoard 0 0 WHITE [] [(-1, 0)] [(0, -1), (0, 1)] (1, 0)
    (by decide) rfl (by decide) (by decide) (by decide)

/-! ## No group without liberty stays on the board -/

theorem lib_mono (b b2 : Board) (col : StoneColor)
    (hemp : ∀ r c, b.get r c = EMPTY → InB r c → b2.get r c = EMPTY)
    (hcol : ∀ r c, b.get r c = col → b2.get r c = col ∨ b2.get r c = EMPTY) :
    ∀ p, Lib b col p → Lib b2 col p := by
  intro p hp
  induction hp with
  | here p hin he => exact Lib.here p hin (hemp _ _ he hin)
  | step p q hin hc hadj _ ih =>
    rcases hcol _ _ hc with h | h
    · exact Lib.step p q hin h hadj ih
    · exact Lib.here p hin h

theorem placeStone_ok_valid (s : GoBoard) (row col : Int) (color : StoneColor)
    (hok : (placeStone s row col color).ok = true) : (isValidMove s row col).1 = true := by
  unfold placeStone at hok
  by_cases h1 : s.board.get row col ≠ EMPTY
  · rw [if_pos h1] at hok; simp at hok
  rw [if_neg h1] at hok
  by_cases h2 : s.inKo = true ∧ row = s.koPosition.1 ∧ col = s.koPosition.2
  · rw [if_pos h2] at hok; simp at hok
  rw [if_neg h2] at hok
  cases hv : isValidMove s row col with
  | mk b s1 =>
    rw [hv] at hok
    cases b with
    | false => simp at hok
    | true => rfl

theorem color_cases (col c : StoneColor) (h1 : col ≠ EMPTY) (h2 : c ≠ EMPTY) :
    col = c ∨ col = opponentOf c := by
  cases col <;> cases c <;> first | exact absurd rfl h1 | exact absurd rfl h2 | decide

theorem placed_board_of (s t : GoBoard) (row col : Int) (color : StoneColor) (L : List Pos)
    (hin : InB row col) (hp : PlacedSpec s row col color L t) (r c : Int) :
    t.board.get r c = if (r, c) ∈ L then EMPTY else (s.board.set row col color).get r c := by
  rw [hp.board_get, Grid.get_set]
  by_cases h1 : (r, c) ∈ L
  · rw [if_pos h1, if_pos h1]
  · rw [if_neg h1, if_neg h1]
    by_cases h2 : r = row ∧ c = col
    · rw [if_pos h2, if_pos ⟨h2.1, h2.2, hin⟩]
    · rw [if_neg h2, if_neg (fun h => h2 ⟨h.1, h.2.1⟩)]

theorem placed_lib_mono (s t : GoBoard) (row col : Int) (color : StoneColor) (L : List Pos)
    (hin : InB row col) (hp : PlacedSpec s row col color L t) (colr : StoneColor) (p : Pos)
    (h : Lib (s.board.set row col color) colr p) : Lib t.board colr p := by
  have hL : ∀ q ∈ L, (s.board.set row col color).get q.1 q.2 = opponentOf color :=
    fun q hq => (captured_cell _ _ _ _ _ ((hp.cap_iff q).1 hq)).2
  apply lib_mono (s.board.set row col color) t.board colr _ _ p h
  · intro r c he _
    rw [placed_board_of s t row col color L hin hp, he]
    split <;> rfl
  · intro r c hc
    rw [placed_board_of s t row col color L hin hp]
    by_cases h1 : (r, c) ∈ L
    · rw [if_pos h1]; exact Or.inr rfl
    · rw [if_neg h1]; exact Or.inl hc

theorem placed_stone_alive (s t : GoBoard) (row col : Int) (L : List Pos)
    (hin : InB row col) (hp : PlacedSpec s row col s.currentPlayer L t)
    (hvalid : (isValidMove s row col).1 = true) :
    Lib t.board s.currentPlayer (row, col) := by
  have hposL : (row, col) ∉ L := fun h => (hp.cap_old _ h).2.2 rfl
  have hposget : t.board.get row col = s.currentPlayer := by
    rw [hp.board_get, if_neg hposL, if_pos ⟨rfl, rfl⟩]
  rcases (isValidMove_true_iff s row col hp.empty_before).1 hvalid with h | h
  · exact placed_lib_mono s t row col _ L hin hp _ _ (hasLiberty_sound _ _ _ _ _ h)
  · obtain ⟨d, hd, h1, h2, h3⟩ := (canCapture_iff _ _ _ _ _).1 h
    have hz := (hasLiberty_false_of_zero _ _ (opponentOf_ne_empty _)
      (row + d.1, col + d.2) h1 h2).1 h3
    have hcap : Captured (s.board.set row col s.currentPlayer) row col
        (opponentOf s.currentPlayer) (row + d.1, col + d.2) :=
      ⟨(row + d.1, col + d.2), ⟨d, hd, rfl⟩, ⟨h1, h2, Relation.ReflTransGen.refl⟩, hz⟩
    have hnL := (hp.cap_iff _).2 hcap
    have hnget : t.board.get (row + d.1) (col + d.2) = EMPTY := by
      rw [hp.board_get, if_pos hnL]
    exact Lib.step (row, col) (row + d.1, col + d.2) hin hposget ⟨d, hd, rfl⟩
      (Lib.here _ h1 hnget)

theorem allAlive_move (s t : GoBoard) (row col : Int) (L : List Pos) (hin : InB row col)
    (hpl : s.currentPlayer ≠ EMPTY)
    (hp : PlacedSpec s row col s.currentPlayer L t)
    (hvalid : (isValidMove s row col).1 = true) (halive : AllAlive s.board) :
    AllAlive t.board := by
  have hpos := placed_stone_alive s t row col L hin hp hvalid
  have hposL : (row, col) ∉ L := fun h => (hp.cap_old _ h).2.2 rfl
  have key : ∀ (colr : StoneColor), colr ≠ EMPTY → ∀ q, Lib s.board colr q →
      (q = (row, col) ∨ Lib t.board colr q) := by
    intro colr hcne q hq
    induction hq with
    | here q hqin he =>
      by_cases hqp : q = (row, col)
      · exact Or.inl hqp
      · refine Or.inr (Lib.here q hqin ?_)
        have hqL : (q.1, q.2) ∉ L := by
          intro h
          have := (hp.cap_old q h).2.1
          rw [he] at this
          exact opponentOf_ne_empty _ this.symm
        have hqp2 : ¬ (q.1 = row ∧ q.2 = col) := fun h => hqp (Prod.ext h.1 h.2)
        rw [hp.board_get, if_neg hqL, if_neg hqp2]
        exact he
    | step q r hqin hc hadj _ ih =>
      have hqp : q ≠ (row, col) := by
        rintro rfl
        rw [hp.empty_before] at hc
        exact hcne hc.symm
      have hqp2 : ¬ (q.1 = row ∧ q.2 = col) := fun h => hqp (Prod.ext h.1 h.2)
      have hqt : (q.1, q.2) ∉ L → t.board.get q.1 q.2 = colr := by
        intro hqL
        rw [hp.board_get, if_neg hqL, if_neg hqp2]
        exact hc
      have hqE : (q.1, q.2) ∈ L → t.board.get q.1 q.2 = EMPTY := by
        intro hqL
        rw [hp.board_get, if_pos hqL]
      refine Or.inr ?_
      by_cases hqL : (q.1, q.2) ∈ L
      · exact Lib.here q hqin (hqE hqL)
      rcases ih with hr | hr
      · subst hr
        rcases color_cases colr s.currentPlayer hcne hpl with hcc | hcc
        · subst hcc
          exact Lib.step q (row, col) hqin (hqt hqL) hadj hpos
        · subst hcc
          have hb1 : (s.board.set row col s.currentPlayer).get q.1 q.2
              = opponentOf s.currentPlayer := by
            rw [Grid.get_set_ne _ _ _ _ _ _ hqp2]; exact hc
          have hnz : ¬ ZeroLiberty (s.board.set row col s.currentPlayer)
              (opponentOf s.currentPlayer) q := by
            intro hz
            exact hqL ((hp.cap_iff q).2
              ⟨q, adj_symm hadj, ⟨hqin, hb1, Relation.ReflTransGen.refl⟩, hz⟩)
          have hl1 : Lib (s.board.set row col s.currentPlayer) (opponentOf s.currentPlayer) q := by
            by_contra hnl
            exact hnz ((zeroLiberty_iff_not_lib _ _ (opponentOf_ne_empty _) q hqin hb1).2 hnl)
          exact placed_lib_mono s t row col _ L hin hp _ _ hl1
      · exact Lib.step q r hqin (hqt hqL) hadj hr
  intro p hpne
  by_cases hpp : p = (row, col)
  · subst hpp
    have hposget : t.board.get row col = s.currentPlayer := by
      rw [hp.board_get, if_neg hposL, if_pos ⟨rfl, rfl⟩]
    simp only [] at hpne ⊢
    rw [hposget]
    exact hpos
  · have hpp2 : ¬ (p.1 = row ∧ p.2 = col) := fun h => hpp (Prod.ext h.1 h.2)
    have hpL : (p.1, p.2) ∉ L := by
      intro h
      apply hpne
      rw [hp.board_get, if_pos h]
    have hsame : t.board.get p.1 p.2 = s.board.get p.1 p.2 := by
      rw [hp.board_get, if_neg hpL, if_neg hpp2]
    rw [hsame] at hpne ⊢
    rcases key _ hpne p (halive p hpne) with h | h
    · exact absurd h hpp
    · exact h

theorem played_allAlive (s : GoBoard) (h : Played s) : AllAlive s.board := by
  induction h with
  | init s0 =>
    intro p hp
    exact absurd (Grid.get_fill_empty _ _) hp
  | move s row col hs hin hok ih =>
    obtain ⟨L, hp⟩ := placeStone_ok_spec s row col s.currentPlayer hin hok
    have hpl : s.currentPlayer ≠ EMPTY := by
      rcases (played_inv s hs).player with h | h <;> rw [h] <;> decide
    have := allAlive_move s _ row col L hin hpl hp (placeStone_ok_valid s row col _ hok) ih
    rw [mousePressEvent_ok s row col hin hok]
    exact this

/-- C20: in every state reachable from initBoard by clicks and undos, every
stone on the board lies in a chain of its own colour that has at least one
EMPTY orthogonal in-bounds neighbour: no group without liberty remains on the
board after an accepted move or an undo. -/
theorem no_dead_group_remains (s : GoBoard) (hr : Reachable s) (r c : Int)
    (hstone : s.board.get r c ≠ EMPTY) :
    ∃ m e : Pos, InChain s.board (s.board.get r c) (r, c) m ∧ Adj m e ∧ InB e.1 e.2 ∧
      s.board.get e.1 e.2 = EMPTY :=
  (lib_iff_chain_liberty s.board (s.board.get r c) hstone (r, c)
    (Grid.inB_of_get_ne_empty _ _ _ hstone) rfl).1
    (played_allAlive s (reachable_played s hr) (r, c) hstone)

theorem no_dead_group_remains_witness :
    ∃ m e : Pos, InChain cornerTaken.board (cornerTaken.board.get 0 0) (0, 0) m ∧ Adj m e ∧
      InB e.1 e.2 ∧ cornerTaken.board.get e.1 e.2 = EMPTY :=
  no_dead_group_remains cornerTaken cornerTaken_reachable 0 0 (by decide)

end Go
